import Mathlib

/-!
Verification development for the machxo2 backend of nextpnr: the packing
pipeline (src/machxo2/pack.cc) and the resource-database iteration and
binding API (src/machxo2/arch.h).

The C++ netlist maps (`ctx->cells`, `ctx->nets`, per-cell `ports`, `attrs`,
`params`) are modelled as association lists over `String` keys kept in a
canonical strictly-sorted order; `sorted(...)` iteration of the C++ code is
then iteration over the list itself.  Pointers between netlist records
(`NetInfo *`, `CellInfo *`) are modelled as names resolved through the maps.
-/

/-! ## A canonical decidable strict order on strings

`String.<` does not reduce in the kernel, so the canonical name order used
by the packing passes is a hand-rolled lexicographic comparison on the
character list of the string. -/

def charListLt : List Char → List Char → Bool
  | [], [] => false
  | [], _ :: _ => true
  | _ :: _, [] => false
  | a :: as, b :: bs => if a < b then true else if b < a then false else charListLt as bs

def strLt (a b : String) : Bool := charListLt a.data b.data

theorem charListLt_irrefl (l : List Char) : charListLt l l = false := by
  induction l with
  | nil => rfl
  | cons a as ih => simp [charListLt, ih]

theorem charListLt_trans {a b c : List Char} (h1 : charListLt a b = true)
    (h2 : charListLt b c = true) : charListLt a c = true := by
  induction a generalizing b c with
  | nil =>
    cases c with
    | nil =>
      cases b with
      | nil => exact absurd h1 (by simp [charListLt])
      | cons y ys => exact absurd h2 (by simp [charListLt])
    | cons z zs => simp [charListLt]
  | cons x xs ih =>
    cases b with
    | nil => exact absurd h1 (by simp [charListLt])
    | cons y ys =>
      cases c with
      | nil => exact absurd h2 (by simp [charListLt])
      | cons z zs =>
        simp only [charListLt] at h1 h2 ⊢
        by_cases hxy : x < y
        · by_cases hyz : y < z
          · simp [lt_trans hxy hyz]
          · by_cases hzy : z < y
            · exact absurd h2 (by simp [hyz, hzy])
            · have hyzeq : y = z := le_antisymm (not_lt.mp hzy) (not_lt.mp hyz)
              subst hyzeq
              simp [hxy]
        · by_cases hyx : y < x
          · exact absurd h1 (by simp [hxy, hyx])
          · have hxyeq : x = y := le_antisymm (not_lt.mp hyx) (not_lt.mp hxy)
            subst hxyeq
            simp only [hxy, if_neg, ite_self, if_false] at h1 ⊢
            by_cases hyz : x < z
            · simp [hyz]
            · by_cases hzy : z < x
              · exact absurd h2 (by simp [hyz, hzy])
              · have : x = z := le_antisymm (not_lt.mp hzy) (not_lt.mp hyz)
                subst this
                simp only [lt_irrefl, if_neg, ite_self, if_false] at h1 h2 ⊢
                exact ih h1 h2

theorem charListLt_connex {a b : List Char} (hne : a ≠ b)
    (h1 : charListLt a b = false) : charListLt b a = true := by
  induction a generalizing b with
  | nil =>
    cases b with
    | nil => exact absurd rfl hne
    | cons y ys => exact absurd h1 (by simp [charListLt])
  | cons x xs ih =>
    cases b with
    | nil => simp [charListLt]
    | cons y ys =>
      simp only [charListLt] at h1 ⊢
      by_cases hxy : x < y
      · exact absurd h1 (by simp [hxy])
      · by_cases hyx : y < x
        · simp [hyx]
        · have hxyeq : x = y := le_antisymm (not_lt.mp hyx) (not_lt.mp hxy)
          subst hxyeq
          simp only [lt_irrefl, if_neg, ite_self, if_false] at h1 ⊢
          have : xs ≠ ys := by
            intro h
            exact hne (by rw [h])
          exact ih this h1

theorem strLt_irrefl (s : String) : strLt s s = false := charListLt_irrefl s.data

theorem strLt_trans {a b c : String} (h1 : strLt a b = true) (h2 : strLt b c = true) :
    strLt a c = true := charListLt_trans h1 h2

theorem strLt_connex {a b : String} (hne : a ≠ b) (h1 : strLt a b = false) :
    strLt b a = true := by
  refine charListLt_connex ?_ h1
  intro h
  exact hne (by cases a; cases b; simp_all)

theorem strLt_asymm {a b : String} (h : strLt a b = true) : strLt b a = false := by
  by_contra hc
  have h2 : strLt b a = true := by
    cases hba : strLt b a
    · exact absurd hba hc
    · rfl
  have := strLt_trans h h2
  rw [strLt_irrefl] at this
  exact Bool.false_ne_true this

theorem strLt_ne {a b : String} (h : strLt a b = true) : a ≠ b := by
  intro he
  subst he
  rw [strLt_irrefl] at h
  exact Bool.false_ne_true h

/-! ## Sorted association lists (the model of the C++ ordered-name maps) -/

def lookupA {β : Type} : List (String × β) → String → Option β
  | [], _ => none
  | e :: rest, k => if e.1 = k then some e.2 else lookupA rest k

def insertA {β : Type} : List (String × β) → String → β → List (String × β)
  | [], k, v => [(k, v)]
  | e :: rest, k, v =>
    if strLt k e.1 then (k, v) :: e :: rest
    else if k = e.1 then (k, v) :: rest
    else e :: insertA rest k v

def eraseA {β : Type} (l : List (String × β)) (k : String) : List (String × β) :=
  l.filter (fun e => e.1 ≠ k)

def updateA {β : Type} (l : List (String × β)) (k : String) (f : β → β) :
    List (String × β) :=
  l.map (fun e => if e.1 = k then (e.1, f e.2) else e)

def keysA {β : Type} (l : List (String × β)) : List String := l.map Prod.fst

/-- Keys strictly ascending in the canonical order: the invariant of every
name-keyed map of the model. -/
def SortedKeys {β : Type} (l : List (String × β)) : Prop :=
  List.Pairwise (fun a b => strLt a.1 b.1 = true) l

instance {β : Type} (l : List (String × β)) : Decidable (SortedKeys l) := by
  unfold SortedKeys
  infer_instance

theorem lookupA_insertA_self {β : Type} (l : List (String × β)) (k : String) (v : β) :
    lookupA (insertA l k v) k = some v := by
  induction l with
  | nil => simp [insertA, lookupA]
  | cons e rest ih =>
    by_cases h1 : strLt k e.1
    · simp [insertA, h1, lookupA]
    · by_cases h2 : k = e.1
      · simp [insertA, h1, h2, lookupA, strLt_irrefl]
      · have hne : e.1 ≠ k := fun h => h2 h.symm
        simp [insertA, h1, h2, lookupA, hne, ih]

theorem lookupA_insertA_ne {β : Type} (l : List (String × β)) (k k' : String) (v : β)
    (h : k' ≠ k) : lookupA (insertA l k v) k' = lookupA l k' := by
  have hks : k ≠ k' := Ne.symm h
  induction l with
  | nil => simp [insertA, lookupA, hks]
  | cons e rest ih =>
    by_cases h1 : strLt k e.1
    · simp [insertA, h1, lookupA, hks]
    · by_cases h2 : k = e.1
      · subst h2
        simp [insertA, h1, lookupA, hks]
      · by_cases h3 : e.1 = k'
        · subst h3
          simp [insertA, h1, h2, lookupA]
        · simp [insertA, h1, h2, lookupA, h3, ih]

theorem lookupA_eraseA_self {β : Type} (l : List (String × β)) (k : String) :
    lookupA (eraseA l k) k = none := by
  induction l with
  | nil => rfl
  | cons e rest ih =>
    by_cases h : e.1 = k
    · simpa [eraseA, h] using ih
    · simpa [eraseA, h, lookupA] using ih

theorem lookupA_eraseA_ne {β : Type} (l : List (String × β)) (k k' : String)
    (h : k' ≠ k) : lookupA (eraseA l k) k' = lookupA l k' := by
  have hks : k ≠ k' := Ne.symm h
  induction l with
  | nil => rfl
  | cons e rest ih =>
    by_cases he : e.1 = k
    · subst he
      have : e.1 ≠ k' := hks
      simpa [eraseA, lookupA, this] using ih
    · by_cases he' : e.1 = k'
      · subst he'
        simp [eraseA, he, lookupA]
      · simpa [eraseA, he, lookupA, he'] using ih

theorem lookupA_updateA_self {β : Type} (l : List (String × β)) (k : String) (f : β → β) :
    lookupA (updateA l k f) k = (lookupA l k).map f := by
  induction l with
  | nil => rfl
  | cons e rest ih =>
    by_cases h : e.1 = k
    · simp [updateA, h, lookupA]
    · simpa [updateA, h, lookupA] using ih

theorem lookupA_updateA_ne {β : Type} (l : List (String × β)) (k k' : String) (f : β → β)
    (h : k' ≠ k) : lookupA (updateA l k f) k' = lookupA l k' := by
  have hks : k ≠ k' := Ne.symm h
  induction l with
  | nil => rfl
  | cons e rest ih =>
    by_cases he : e.1 = k
    · subst he
      have : e.1 ≠ k' := hks
      simpa [updateA, lookupA, this] using ih
    · by_cases he' : e.1 = k'
      · subst he'
        simp [updateA, he, lookupA]
      · simpa [updateA, he, lookupA, he'] using ih

theorem keysA_updateA {β : Type} (l : List (String × β)) (k : String) (f : β → β) :
    keysA (updateA l k f) = keysA l := by
  induction l with
  | nil => rfl
  | cons e rest ih =>
    by_cases h : e.1 = k <;> simp [updateA, keysA, h] at ih ⊢ <;> exact ih

theorem mem_keysA_insertA {β : Type} (l : List (String × β)) (k k' : String) (v : β) :
    k' ∈ keysA (insertA l k v) ↔ k' = k ∨ k' ∈ keysA l := by
  induction l with
  | nil => simp [insertA, keysA]
  | cons e rest ih =>
    by_cases h1 : strLt k e.1
    · simp [insertA, h1, keysA]
    · by_cases h2 : k = e.1
      · subst h2
        simp only [insertA, h1, if_neg, if_pos, Bool.false_eq_true, not_false_iff, keysA,
          List.map_cons, List.mem_cons]
        constructor
        · rintro (rfl | h)
          · exact Or.inl rfl
          · exact Or.inr (Or.inr h)
        · rintro (rfl | rfl | h)
          · exact Or.inl rfl
          · exact Or.inl rfl
          · exact Or.inr h
      · simp only [insertA, h1, h2, if_neg, Bool.false_eq_true, not_false_iff, keysA,
          List.map_cons, List.mem_cons] at ih ⊢
        constructor
        · rintro (rfl | h)
          · exact Or.inr (Or.inl rfl)
          · rcases ih.mp h with rfl | h
            · exact Or.inl rfl
            · exact Or.inr (Or.inr h)
        · rintro (rfl | rfl | h)
          · exact Or.inr (ih.mpr (Or.inl rfl))
          · exact Or.inl rfl
          · exact Or.inr (ih.mpr (Or.inr h))

theorem sortedKeys_insertA {β : Type} (l : List (String × β)) (k : String) (v : β)
    (h : SortedKeys l) : SortedKeys (insertA l k v) := by
  induction l with
  | nil => simp [insertA, SortedKeys]
  | cons e rest ih =>
    rw [SortedKeys, List.pairwise_cons] at h
    by_cases h1 : strLt k e.1
    · rw [SortedKeys, insertA, if_pos h1, List.pairwise_cons]
      refine ⟨?_, ?_⟩
      · rintro b hb
        rcases List.mem_cons.mp hb with rfl | hb
        · exact h1
        · exact strLt_trans h1 (h.1 _ hb)
      · rw [List.pairwise_cons]
        exact h
    · by_cases h2 : k = e.1
      · subst h2
        rw [SortedKeys, insertA, if_neg h1, if_pos rfl, List.pairwise_cons]
        exact ⟨h.1, h.2⟩
      · have h3 : strLt e.1 k = true := by
          refine strLt_connex h2 ?_
          cases hlt : strLt k e.1
          · rfl
          · exact absurd hlt h1
        rw [SortedKeys, insertA, if_neg h1, if_neg h2, List.pairwise_cons]
        refine ⟨?_, ih h.2⟩
        intro b hb
        have hb' : b.1 = k ∨ b.1 ∈ keysA rest := by
          have := (mem_keysA_insertA rest k b.1 v).mp
          refine this ?_
          simp only [keysA, List.mem_map]
          exact ⟨b, hb, rfl⟩
        rcases hb' with hbk | hb'
        · rw [hbk]; exact h3
        · rcases List.mem_map.mp hb' with ⟨c, hc, hceq⟩
          rw [← hceq]
          exact h.1 c hc

theorem sortedKeys_eraseA {β : Type} (l : List (String × β)) (k : String)
    (h : SortedKeys l) : SortedKeys (eraseA l k) :=
  List.Pairwise.sublist (List.filter_sublist l) h

theorem sortedKeys_updateA {β : Type} (l : List (String × β)) (k : String) (f : β → β)
    (h : SortedKeys l) : SortedKeys (updateA l k f) := by
  unfold SortedKeys updateA
  rw [List.pairwise_map]
  unfold SortedKeys at h
  refine List.Pairwise.imp_of_mem ?_ h
  intro a b _ _ hab
  by_cases ha : a.1 = k <;> by_cases hb : b.1 = k <;> simp [ha, hb] at hab ⊢ <;> exact hab

theorem keysA_nodup {β : Type} (l : List (String × β)) (h : SortedKeys l) :
    (keysA l).Nodup := by
  unfold keysA
  have : List.Pairwise (fun a b : String => a ≠ b) (l.map Prod.fst) := by
    rw [List.pairwise_map]
    exact h.imp (fun hab => strLt_ne hab)
  exact this

/-! ## The netlist model

`CellInfo`/`NetInfo`/`PortRef` as consumed and rewritten by
`src/machxo2/pack.cc`.  C++ pointers to cells and nets become names resolved
through the name-keyed maps; a null pointer becomes `none`. -/

inductive PortDir where
  | input
  | output
  | inout
deriving DecidableEq, Repr

structure PortInfo where
  net : Option String
  dir : PortDir
deriving DecidableEq, Repr

structure PortRef where
  cell : Option String
  port : String
deriving DecidableEq, Repr

structure CellInfo where
  name : String
  type : String
  attrs : List (String × String)
  params : List (String × (Nat × Nat))
  ports : List (String × PortInfo)
deriving DecidableEq, Repr

structure NetInfo where
  name : String
  driver : PortRef
  users : List PortRef
deriving DecidableEq, Repr

structure Netlist where
  cells : List (String × CellInfo)
  nets : List (String × NetInfo)
deriving DecidableEq, Repr

/-- `uc->ports[user.port].net = constnet`: `operator[]` default-constructs a
port record (direction `PORT_IN`) when the name is absent, then the net field
is assigned. -/
def portAssign (ports : List (String × PortInfo)) (p : String) (nn : String) :
    List (String × PortInfo) :=
  match lookupA ports p with
  | some _ => updateA ports p (fun pi => { pi with net := some nn })
  | none => insertA ports p { net := some nn, dir := PortDir.input }

/-! ## Cell-library helpers

These live in `machxo2/cells.cc`/`cells.h` and `common/design_utils.cc`,
which are not among the sources; they are modelled from the spec's words. -/

/-- Modelled from the spec: `create_machxo2_cell` (machxo2/cells.cc) is not
among the sources.  The spec has the packer create "one synthetic
constant-source cell exposing a logic-0 output and a logic-1 output" and
"synthetic device-slice cell"s, a slice combining one lookup-table and one
flip-flop; the modelled constructor returns a cell of the requested type and
name carrying the standard slice pin set (lookup-table inputs `A0`..`D0`,
controls `CE`/`CLK`/`LSR`, flip-flop data `DI0`, outputs `F0`/`F1`/`Q0`),
all initially unconnected. -/
def create_machxo2_cell (type name : String) : CellInfo :=
  { name := name, type := type, attrs := [], params := [],
    ports :=
      [("A0", ⟨none, PortDir.input⟩), ("B0", ⟨none, PortDir.input⟩),
       ("C0", ⟨none, PortDir.input⟩), ("CE", ⟨none, PortDir.input⟩),
       ("CLK", ⟨none, PortDir.input⟩), ("D0", ⟨none, PortDir.input⟩),
       ("DI0", ⟨none, PortDir.input⟩), ("F0", ⟨none, PortDir.output⟩),
       ("F1", ⟨none, PortDir.output⟩), ("LSR", ⟨none, PortDir.input⟩),
       ("Q0", ⟨none, PortDir.output⟩)] }

/-- Modelled from the spec: the type predicates of `machxo2/cells.h` are not
among the sources.  The spec's "4-input lookup-table cell" is the family's
`LUT4` primitive. -/
def is_lut (c : CellInfo) : Bool := c.type = "LUT4"

/-- Modelled from the spec: "flip-flop cell" — the family's `FACADE_FF`
primitive. -/
def is_ff (c : CellInfo) : Bool := c.type = "FACADE_FF"

/-- Modelled from the spec: `disconnect_port` (common/design_utils.cc) is not
among the sources.  The spec's IO pass deletes a placeholder buffer "after
disconnecting all of its ports", "severing every one of its fan-out
connections": disconnecting a port removes the (cell, port) reference from
its net's user list, clears the net's driver when this port was the driver,
and clears the cell's port. -/
def disconnect_port (st : Netlist) (cellName portName : String) : Netlist :=
  match lookupA st.cells cellName with
  | none => st
  | some c =>
    match lookupA c.ports portName with
    | none => st
    | some pi =>
      match pi.net with
      | none => st
      | some nn =>
        let nets' := updateA st.nets nn (fun ni =>
          { ni with
            users := ni.users.filter
              (fun u => decide (¬(u.cell = some cellName ∧ u.port = portName))),
            driver :=
              if ni.driver.cell = some cellName ∧ ni.driver.port = portName
              then { ni.driver with cell := none } else ni.driver })
        let cells' := updateA st.cells cellName (fun c =>
          { c with ports := updateA c.ports portName (fun pi => { pi with net := none }) })
        { cells := cells', nets := nets' }

/-- Modelled from the spec: `replace_port` (common/design_utils.cc) is not
among the sources.  Merging a cell's configuration into the synthetic slice
moves a connection from a port of the old cell to a port of the replacement:
the net reference moves to the replacement's port, and on that net the
driver (for an output) or the user entry (for an input) is repointed at the
replacement cell. -/
def replace_port (st : Netlist) (oldName oldPort : String) (rep : CellInfo)
    (repPort : String) : Netlist × CellInfo :=
  match lookupA st.cells oldName with
  | none => (st, rep)
  | some oldc =>
    match lookupA oldc.ports oldPort, lookupA rep.ports repPort with
    | some opi, some rpi =>
      let clearOld : CellInfo → CellInfo := fun c =>
        { c with ports := updateA c.ports oldPort (fun p => { p with net := none }) }
      let st1 : Netlist := { st with cells := updateA st.cells oldName clearOld }
      let rep1 : CellInfo :=
        { rep with ports := updateA rep.ports repPort (fun p => { p with net := opi.net }) }
      match opi.net with
      | none => (st1, rep1)
      | some nn =>
        match rpi.dir with
        | PortDir.output =>
          let setDrv : NetInfo → NetInfo := fun ni =>
            { ni with driver := PortRef.mk (some rep.name) repPort }
          ({ st1 with nets := updateA st1.nets nn setDrv }, rep1)
        | PortDir.input =>
          let moveUser : NetInfo → NetInfo := fun ni =>
            { ni with users := ni.users.map (fun u =>
                if u.cell = some oldName ∧ u.port = oldPort
                then PortRef.mk (some rep.name) repPort else u) }
          ({ st1 with nets := updateA st1.nets nn moveUser }, rep1)
        | PortDir.inout => (st1, rep1)
    | _, _ => (st, rep)

/-- Modelled from the spec: `net_only_drives` (common/design_utils.cc) is not
among the sources.  Per the spec the fusion pass "find[s] a flip-flop cell
whose data input is driven ... by that lookup-table's output (other fan-out
from the same output to unrelated consumers is allowed ...)": the lookup
returns the first user of the net that matches the predicate on the given
port; with `exclusive` set it additionally requires that user to be the
net's only load. -/
def net_only_drives (st : Netlist) (net : Option String) (pred : CellInfo → Bool)
    (port : String) (exclusive : Bool) : Option CellInfo :=
  match net with
  | none => none
  | some nn =>
    match lookupA st.nets nn with
    | none => none
    | some ni =>
      if exclusive = true ∧ ni.users.length ≠ 1 then none
      else
        ni.users.findSome? (fun u =>
          match u.cell with
          | none => none
          | some c =>
            match lookupA st.cells c with
            | none => none
            | some cc =>
              if pred cc = true ∧ u.port = port then some cc else none)

/-- Modelled from the spec: `lut_to_lc` (machxo2/cells.cc) is not among the
sources.  It merges the lookup-table configuration into the slice: the LUT
init parameter becomes the slice's LUT0 init value, inputs `A`..`D` move to
slice pins `A0`..`D0`, and when the LUT is packed alone (`no_dff`, the
"flip-flop half left unused") its output `Z` moves to the slice
lookup-table output `F0`. -/
def lut_to_lc (st : Netlist) (lutName : String) (lc : CellInfo) (no_dff : Bool) :
    Netlist × CellInfo :=
  let lc :=
    match lookupA st.cells lutName with
    | some lut =>
      match lookupA lut.params "INIT" with
      | some v => { lc with params := insertA lc.params "LUT0_INITVAL" v }
      | none => lc
    | none => lc
  let r1 := replace_port st lutName "A" lc "A0"
  let r2 := replace_port r1.1 lutName "B" r1.2 "B0"
  let r3 := replace_port r2.1 lutName "C" r2.2 "C0"
  let r4 := replace_port r3.1 lutName "D" r3.2 "D0"
  if no_dff then replace_port r4.1 lutName "Z" r4.2 "F0" else r4

/-- Modelled from the spec: `dff_to_lc` (machxo2/cells.cc) is not among the
sources.  It merges the flip-flop configuration into the slice: clock,
data, local-set-reset and output move to the slice pins
`CLK`/`DI0`/`LSR`/`Q0`. -/
def dff_to_lc (st : Netlist) (dffName : String) (lc : CellInfo) : Netlist × CellInfo :=
  let r1 := replace_port st dffName "CLK" lc "CLK"
  let r2 := replace_port r1.1 dffName "DI" r1.2 "DI0"
  let r3 := replace_port r2.1 dffName "LSR" r2.2 "LSR"
  replace_port r3.1 dffName "Q" r3.2 "Q0"

/-! ## The packing passes (src/machxo2/pack.cc) -/

/-- `set_net_constant` (pack.cc): merge a net into a constant net.  The
original net's driver pointer is cleared, every user with a non-null cell is
repointed at the constant net (`uc->ports[user.port].net = constnet`) and
appended to the constant net's user list, and the original net's user list
is cleared.  The constant net is not yet in `ctx->nets` at this point, so it
is threaded through explicitly. -/
def set_net_constant (st : Netlist) (origName : String) (constnet : NetInfo) :
    Netlist × NetInfo :=
  match lookupA st.nets origName with
  | none => (st, constnet)
  | some orig =>
    let cells' := orig.users.foldl (fun cs u =>
      match u.cell with
      | some c => updateA cs c (fun uc =>
          { uc with ports := portAssign uc.ports u.port constnet.name })
      | none => cs) st.cells
    let constnet' : NetInfo :=
      { constnet with
        users := constnet.users ++ orig.users.filter (fun u => u.cell.isSome) }
    let clearOrig : NetInfo → NetInfo := fun o =>
      { o with driver := { o.driver with cell := none }, users := [] }
    (Netlist.mk cells' (updateA st.nets origName clearOrig), constnet')

/-- One iteration of the `sorted(ctx->nets)` loop of `pack_constants`:
a net driven by a `GND`-typed cell is merged into the ground net and its
driver cell erased, a net driven by a `VCC`-typed cell into the supply net;
merged nets are queued for deletion. -/
structure CPAcc where
  st : Netlist
  gnd : NetInfo
  vcc : NetInfo
  dead : List String
deriving Repr

def cp_step (acc : CPAcc) (n : String) : CPAcc :=
  match lookupA acc.st.nets n with
  | none => acc
  | some ni =>
    match ni.driver.cell with
    | none => acc
    | some dc =>
      match lookupA acc.st.cells dc with
      | none => acc
      | some dcell =>
        if dcell.type = "GND" then
          let r := set_net_constant acc.st n acc.gnd
          CPAcc.mk (Netlist.mk (eraseA r.1.cells dc) r.1.nets) r.2 acc.vcc
            (acc.dead ++ [n])
        else if dcell.type = "VCC" then
          let r := set_net_constant acc.st n acc.vcc
          CPAcc.mk (Netlist.mk (eraseA r.1.cells dc) r.1.nets) acc.gnd r.2
            (acc.dead ++ [n])
        else acc

/-- `pack_constants` (pack.cc): create the single `$PACKER_CONST` slice cell
(`LUT0_INITVAL = 0x0000`, `LUT1_INITVAL = 0xFFFF`) driving the
`$PACKER_GND_NET` from `F0` and the `$PACKER_VCC_NET` from `F1`, merge every
net driven by a `GND`/`VCC` cell into the matching constant net and erase
those driver cells, then install the constant cell and nets and erase the
dead nets. -/
def pack_constants (st : Netlist) : Netlist :=
  let c0 := create_machxo2_cell "FACADE_SLICE" "$PACKER_CONST"
  let constParams := insertA (insertA c0.params "LUT0_INITVAL" (0, 16)) "LUT1_INITVAL" (65535, 16)
  let c1 : CellInfo := { c0 with params := constParams }
  let gnd0 : NetInfo :=
    NetInfo.mk "$PACKER_GND_NET" (PortRef.mk (some "$PACKER_CONST") "F0") []
  let c2 : CellInfo :=
    { c1 with ports := updateA c1.ports "F0" (fun p => { p with net := some "$PACKER_GND_NET" }) }
  let vcc0 : NetInfo :=
    NetInfo.mk "$PACKER_VCC_NET" (PortRef.mk (some "$PACKER_CONST") "F1") []
  let c3 : CellInfo :=
    { c2 with ports := updateA c2.ports "F1" (fun p => { p with net := some "$PACKER_VCC_NET" }) }
  let acc := (keysA st.nets).foldl cp_step (CPAcc.mk st gnd0 vcc0 [])
  let cells1 := insertA acc.st.cells "$PACKER_CONST" c3
  let nets1 :=
    insertA (insertA acc.st.nets "$PACKER_GND_NET" acc.gnd) "$PACKER_VCC_NET" acc.vcc
  Netlist.mk cells1 (acc.dead.foldl eraseA nets1)

/-- `is_nextpnr_iob` (pack.cc): the front-end's placeholder IO buffer
types. -/
def is_nextpnr_iob (c : CellInfo) : Bool :=
  c.type = "$nextpnr_ibuf" || c.type = "$nextpnr_obuf" || c.type = "$nextpnr_iobuf"

/-- One iteration of the `sorted(ctx->cells)` loop of `pack_io`: a
placeholder IO buffer cell has every one of its ports disconnected and its
name queued for erasure. -/
def pack_io_step (acc : Netlist × List String) (cn : String) : Netlist × List String :=
  match lookupA acc.1.cells cn with
  | none => acc
  | some ci =>
    if is_nextpnr_iob ci then
      ((keysA ci.ports).foldl (fun s p => disconnect_port s cn p) acc.1,
       acc.2 ++ [ci.name])
    else acc

/-- `pack_io` (pack.cc): remove every `$nextpnr_[io]buf` placeholder cell
after disconnecting all of its ports.  Nothing else is created or removed. -/
def pack_io (st : Netlist) : Netlist :=
  let r := (keysA st.cells).foldl pack_io_step (st, [])
  { r.1 with cells := r.2.foldl eraseA r.1.cells }

/-- One iteration of the `sorted(ctx->cells)` loop of `pack_lut_lutffs`: a
`LUT4` cell is packed into a fresh `FACADE_SLICE` named `<lut>_LC` carrying
the LUT's attributes; a flip-flop found on the LUT's `Z` net via
`net_only_drives (exclusive = false)` is fused in when the `BEL` placement
attributes do not conflict (the fused slice taking the flip-flop's `BEL` and
the connecting net being erased), else the LUT is packed alone.
`ci->ports.at(Z)` presumes a `Z` port; a LUT without one is treated here as
having an unconnected output. -/
structure LFAcc where
  st : Netlist
  packed : List String
  newCells : List CellInfo
deriving Repr

def pack_lut_step (acc : LFAcc) (cn : String) : LFAcc :=
  match lookupA acc.st.cells cn with
  | none => acc
  | some ci =>
    if is_lut ci then
      let packed0 : CellInfo :=
        { create_machxo2_cell "FACADE_SLICE" (ci.name ++ "_LC") with attrs := ci.attrs }
      let packedNames := acc.packed ++ [ci.name]
      let o : Option String :=
        match lookupA ci.ports "Z" with
        | some p => p.net
        | none => none
      let dffOpt := net_only_drives acc.st o is_ff "DI" false
      let lut_bel := lookupA ci.attrs "BEL"
      match dffOpt with
      | some dff =>
        let dff_bel := lookupA dff.attrs "BEL"
        if lut_bel.isSome ∧ dff_bel.isSome ∧ lut_bel ≠ dff_bel then
          -- Locations don't match, can't pack: the LUT goes in alone.
          let r := lut_to_lc acc.st ci.name packed0 true
          LFAcc.mk r.1 packedNames (acc.newCells ++ [r.2])
        else
          let r1 := lut_to_lc acc.st ci.name packed0 false
          let r2 := dff_to_lc r1.1 dff.name r1.2
          let st3 : Netlist :=
            match o with
            | some onm => { r2.1 with nets := eraseA r2.1.nets onm }
            | none => r2.1
          let packed3 : CellInfo :=
            match dff_bel with
            | some v => { r2.2 with attrs := insertA r2.2.attrs "BEL" v }
            | none => r2.2
          LFAcc.mk st3 (packedNames ++ [dff.name]) (acc.newCells ++ [packed3])
      | none =>
        let r := lut_to_lc acc.st ci.name packed0 true
        LFAcc.mk r.1 packedNames (acc.newCells ++ [r.2])
    else acc

/-- `pack_lut_lutffs` (pack.cc): run the per-cell step over the cells in
canonical name order, then erase the packed original cells and install the
new slice cells. -/
def pack_lut_lutffs (st : Netlist) : Netlist :=
  let acc := (keysA st.cells).foldl pack_lut_step (LFAcc.mk st [] [])
  let cells1 := acc.packed.foldl eraseA acc.st.cells
  { acc.st with cells := acc.newCells.foldl (fun cs c => insertA cs c.name c) cells1 }

/-! ## The pipeline driver (Arch::pack) and its failure model -/

/-- Modelled from the spec: the exception classes live in `common/log.h`,
not among the sources.  A pass "signals a structured, recoverable execution
failure distinct from a programmer-error assertion"
(`log_execution_error_exception` versus a fatal assertion). -/
inductive PackError where
  | execFailure (msg : String)
  | fatalAssert (msg : String)
deriving DecidableEq, Repr

/-- Modelled from the spec: a pass over the netlist either completes or
stops at some intermediate netlist with an error ("No rollback is
guaranteed — a failed pass may leave the netlist partially rewritten"). -/
def PassFun : Type := Netlist → Netlist × Option PackError

/-- A pass of pack.cc never raises by itself in this model. -/
def liftPass (f : Netlist → Netlist) : PassFun := fun st => (f st, none)

/-- Sequencing of the passes inside the `try` block: the first error stops
the pipeline, carrying the netlist as the failing pass left it. -/
def runPasses : List PassFun → Netlist → Netlist × Option PackError
  | [], st => (st, none)
  | p :: ps, st =>
    match p st with
    | (st', none) => runPasses ps st'
    | (st', some e) => (st', some e)

/-- The driver boundary of `Arch::pack` (pack.cc): the `try`/`catch
(log_execution_error_exception)` block returns `false` when the recoverable
failure class is raised and `true` otherwise; a programmer-error assertion
is not caught there and propagates (modelled as `Except.error`).  The
netlist reaching the boundary is whatever the passes produced — the catch
performs no rollback. -/
def packDriver (passes : List PassFun) (st : Netlist) :
    Except String (Bool × Netlist) :=
  match runPasses passes st with
  | (st', none) => Except.ok (true, st')
  | (st', some (PackError.execFailure _)) => Except.ok (false, st')
  | (_, some (PackError.fatalAssert m)) => Except.error m

/-- `Arch::pack` (pack.cc): constant packing, then IO elision, then LUT/FF
fusion, wrapped in the recoverable-failure boundary. -/
def Arch_pack (st : Netlist) : Except String (Bool × Netlist) :=
  packDriver [liftPass pack_constants, liftPass pack_io, liftPass pack_lut_lutffs] st

/-! ## The resource database and the site iterator (src/machxo2/arch.h) -/

/-- The `ChipInfoPOD` fields the iterator consults: grid dimensions, the
declared tile count, and per tile its `num_bels`. -/
structure ChipInfo where
  width : Nat
  height : Nat
  numTiles : Nat
  tileBels : List Nat
deriving DecidableEq, Repr

/-- `chip->tiles[t].num_bels`. -/
def numBelsAt (chip : ChipInfo) (t : Nat) : Nat := chip.tileBels.getD t 0

/-- `LocationPOD`: the grid coordinate of a tile. -/
structure Location where
  x : Nat
  y : Nat
deriving DecidableEq, Repr

/-- `BelId`: a site identifier, (location, local index), computed on
demand. -/
structure BelId where
  location : Location
  index : Int
deriving DecidableEq, Repr

/-- `BelIterator`: a cursor over (tile, local index). -/
structure BelIterator where
  cursor_index : Int
  cursor_tile : Nat
deriving DecidableEq, Repr

/-- The `while` loop of `BelIterator::operator++`, recursing on the number
of remaining tiles (the loop advances one tile per iteration and stops at
`numTiles`, so `numTiles - t` iterations are exactly enough; see
`belIterSkip_eq` for the loop-shaped unfolding). -/
def belIterSkipF (chip : ChipInfo) : Nat → Nat → Int → BelIterator
  | 0, t, i => BelIterator.mk i t
  | fuel + 1, t, i =>
    if t < chip.numTiles ∧ (numBelsAt chip t : Int) ≤ i then
      belIterSkipF chip fuel (t + 1) 0
    else
      BelIterator.mk i t

/-- As long as the tile is in range and the index has run past the tile's
bel count, move to the next tile's index 0. -/
def belIterSkip (chip : ChipInfo) (t : Nat) (i : Int) : BelIterator :=
  belIterSkipF chip (chip.numTiles - t) t i

theorem belIterSkip_eq (chip : ChipInfo) (t : Nat) (i : Int) :
    belIterSkip chip t i =
      if t < chip.numTiles ∧ (numBelsAt chip t : Int) ≤ i then
        belIterSkip chip (t + 1) 0
      else
        BelIterator.mk i t := by
  by_cases h : t < chip.numTiles ∧ (numBelsAt chip t : Int) ≤ i
  · have ht : chip.numTiles - t = (chip.numTiles - (t + 1)) + 1 := by omega
    rw [belIterSkip, ht, belIterSkipF, if_pos h, if_pos h]
    rfl
  · rw [if_neg h, belIterSkip]
    cases hf : chip.numTiles - t with
    | zero => rfl
    | succ fuel => rw [belIterSkipF, if_neg h]

/-- `BelIterator::operator++` (arch.h): increment the index, then skip
exhausted tiles. -/
def belIterNext (chip : ChipInfo) (s : BelIterator) : BelIterator :=
  belIterSkip chip s.cursor_tile (s.cursor_index + 1)

/-- `BelIterator::operator*` (arch.h): the yielded identifier,
`x = tile % width`, `y = tile / width`, `index = cursor_index`. -/
def belIterDeref (chip : ChipInfo) (s : BelIterator) : BelId :=
  BelId.mk (Location.mk (s.cursor_tile % chip.width) (s.cursor_tile / chip.width))
    s.cursor_index

/-- `Arch::getBels` (arch.h), begin side: tile 0, index −1, then one `++`
("deals with the case of no Bels in the first tile"). -/
def getBelsBegin (chip : ChipInfo) : BelIterator :=
  belIterNext chip (BelIterator.mk (-1) 0)

/-- `Arch::getBels` (arch.h), end side: tile `width * height`, index 0. -/
def getBelsEnd (chip : ChipInfo) : BelIterator :=
  BelIterator.mk 0 (chip.width * chip.height)

/-- Walking the iterator from a state until it equals the end iterator,
dereferencing at every step; `fuel` bounds the walk so the definition is
total — the enumeration theorem shows the chosen fuel is never exhausted. -/
def belTrace (chip : ChipInfo) : BelIterator → Nat → List BelId
  | _, 0 => []
  | s, fuel + 1 =>
    if s = getBelsEnd chip then []
    else belIterDeref chip s :: belTrace chip (belIterNext chip s) fuel

/-- The full enumeration `for (auto bel : getBels())`. -/
def getBelsList (chip : ChipInfo) : List BelId :=
  belTrace chip (getBelsBegin chip) (chip.tileBels.sum + chip.numTiles + 1)

/-- The identifier of the `i`-th site of tile number `t`. -/
def belAt (chip : ChipInfo) (t i : Nat) : BelId :=
  BelId.mk (Location.mk (t % chip.width) (t / chip.width)) (i : Int)

/-- The canonical order the spec describes: tiles in row-major order
(`t = y·width + x` ascending), and within a tile the local indices
ascending. -/
def canonicalBels (chip : ChipInfo) : List BelId :=
  (List.range chip.numTiles).flatMap (fun t =>
    (List.range (numBelsAt chip t)).map (belAt chip t))

/-- `Arch::tileInfo` (arch.h): the tile record a site identifier resolves
to, `tiles[y * width + x]` — here the tile's number. -/
def tileOfBel (chip : ChipInfo) (b : BelId) : Nat :=
  b.location.y * chip.width + b.location.x

/-- A loaded database is consistent: the tile array covers the grid. -/
def ChipWF (chip : ChipInfo) : Prop :=
  chip.numTiles = chip.width * chip.height ∧
  chip.tileBels.length = chip.numTiles ∧
  0 < chip.width

/-! ## The resource-graph binding state (Arch::bindBel and friends) -/

/-- Modelled from the spec: the placement-strength marker distinguishing "a
tool-chosen binding from a user-fixed one". -/
inductive PlaceStrength where
  | placerChosen
  | userFixed
deriving DecidableEq, Repr

/-- Modelled from the spec: `Arch::bindBel` is only declared in
src/machxo2/arch.h (its body lives elsewhere in the repository), so the
binding state is modelled from the spec's words: a "Binding record: maps a
resource identifier to an occupying netlist element ... plus a
placement-strength marker", kept beside the occupant cell's recorded
location (the two "independent data structures" a silent overwrite would
corrupt). -/
structure ArchState where
  boundBel : BelId → Option (String × PlaceStrength)
  cellBel : String → Option BelId

/-- Modelled from the spec: `occupant(id)` — "returns the current occupant
or none; never fails". -/
def getBoundBelCell (st : ArchState) (bel : BelId) : Option String :=
  (st.boundBel bel).map Prod.fst

/-- Modelled from the spec: `checkAvailable(id)` — pure predicate. -/
def checkBelAvail (st : ArchState) (bel : BelId) : Bool :=
  (st.boundBel bel).isNone

/-- Modelled from the spec: `bind(id, occupant, strength)` — "exclusive
claim ... the operation itself must still guard against double-binding
(never silently overwrite an existing occupant) and signal a
programmer-error failure if violated".  The returned message is the
programmer-error failure; on failure the state is returned untouched. -/
def bindBel (st : ArchState) (bel : BelId) (cell : String) (strength : PlaceStrength) :
    ArchState × Option String :=
  match st.boundBel bel with
  | some _ => (st, some "bindBel: bel is already bound")
  | none =>
    (ArchState.mk
      (fun b => if b = bel then some (cell, strength) else st.boundBel b)
      (fun c => if c = cell then some bel else st.cellBel c), none)

/-- Modelled from the spec: `unbind(id)` — "clears the record; no-op-safe
only if currently bound, otherwise a programmer-error failure". -/
def unbindBel (st : ArchState) (bel : BelId) : ArchState × Option String :=
  match st.boundBel bel with
  | none => (st, some "unbindBel: bel is not bound")
  | some occ =>
    (ArchState.mk
      (fun b => if b = bel then none else st.boundBel b)
      (fun c => if c = occ.1 then none else st.cellBel c), none)

/-! ## Enumeration lemmas for getBels -/

/-- The sites of tiles `t, t+1, …` in canonical order. -/
def canonFrom (chip : ChipInfo) (t : Nat) : List BelId :=
  (List.range' t (chip.numTiles - t)).flatMap (fun tt =>
    (List.range (numBelsAt chip tt)).map (belAt chip tt))

/-- The total bel count of tiles `t, t+1, …`. -/
def sumBelsFrom (chip : ChipInfo) (t : Nat) : Nat :=
  ((List.range' t (chip.numTiles - t)).map (numBelsAt chip)).sum

theorem canonFrom_succ (chip : ChipInfo) (t : Nat) (ht : t < chip.numTiles) :
    canonFrom chip t =
      ((List.range (numBelsAt chip t)).map (belAt chip t)) ++ canonFrom chip (t + 1) := by
  unfold canonFrom
  have h : chip.numTiles - t = (chip.numTiles - (t + 1)) + 1 := by omega
  rw [h, List.range'_succ, List.flatMap_cons]

theorem sumBelsFrom_succ (chip : ChipInfo) (t : Nat) (ht : t < chip.numTiles) :
    sumBelsFrom chip t = numBelsAt chip t + sumBelsFrom chip (t + 1) := by
  unfold sumBelsFrom
  have h : chip.numTiles - t = (chip.numTiles - (t + 1)) + 1 := by omega
  rw [h, List.range'_succ, List.map_cons, List.sum_cons]

theorem belTrace_end (chip : ChipInfo) (fuel : Nat) :
    belTrace chip (getBelsEnd chip) fuel = [] := by
  cases fuel with
  | zero => rfl
  | succ f => simp [belTrace]

theorem belTrace_within (chip : ChipInfo) (hWF : ChipWF chip) :
    ∀ (d t i fuel : Nat), t < chip.numTiles → i + d = numBelsAt chip t → 1 ≤ d →
      d ≤ fuel →
      belTrace chip (BelIterator.mk (i : Int) t) fuel =
        ((List.range' i d).map (belAt chip t)) ++
          belTrace chip (belIterSkip chip (t + 1) 0) (fuel - d) := by
  intro d
  induction d with
  | zero => omega
  | succ d ihd =>
    intro t i fuel ht hi _ hf
    cases fuel with
    | zero => omega
    | succ f =>
      have hne : BelIterator.mk (i : Int) t ≠ getBelsEnd chip := by
        intro he
        have h1 : t = chip.width * chip.height := congrArg BelIterator.cursor_tile he
        have h2 := hWF.1
        omega
      rw [belTrace, if_neg hne]
      have hnext : belIterNext chip (BelIterator.mk (i : Int) t) =
          belIterSkip chip t ((i + 1 : Nat) : Int) := by
        unfold belIterNext
        push_cast
        rfl
      rcases Nat.eq_zero_or_pos d with rfl | hd
      · have hcond : t < chip.numTiles ∧ (numBelsAt chip t : Int) ≤ ((i + 1 : Nat) : Int) := by
          refine ⟨ht, ?_⟩
          have : numBelsAt chip t = i + 1 := by omega
          rw [this]
        rw [hnext, belIterSkip_eq, if_pos hcond]
        simp [belIterDeref, belAt, List.range'_one]
      · have hcond : ¬(t < chip.numTiles ∧ (numBelsAt chip t : Int) ≤ ((i + 1 : Nat) : Int)) := by
          rintro ⟨-, hle⟩
          have : numBelsAt chip t ≤ i + 1 := by exact_mod_cast hle
          omega
        rw [hnext, belIterSkip_eq, if_neg hcond]
        have := ihd t (i + 1) f ht (by omega) hd (by omega)
        rw [this, List.range'_succ, List.map_cons]
        simp only [belIterDeref, belAt, List.cons_append]
        have hfd : f + 1 - (d + 1) = f - d := by omega
        rw [hfd]

theorem belTrace_skip (chip : ChipInfo) (hWF : ChipWF chip) :
    ∀ (r t fuel : Nat), chip.numTiles - t = r → t ≤ chip.numTiles →
      sumBelsFrom chip t ≤ fuel →
      belTrace chip (belIterSkip chip t 0) fuel = canonFrom chip t := by
  intro r
  induction r with
  | zero =>
    intro t fuel hr ht _
    have hteq : t = chip.numTiles := by omega
    have hskip : belIterSkip chip t 0 = BelIterator.mk 0 t := by
      rw [belIterSkip_eq, if_neg]
      rintro ⟨hlt, -⟩
      omega
    have hend : BelIterator.mk (0 : Int) t = getBelsEnd chip := by
      unfold getBelsEnd
      rw [hteq, hWF.1]
    rw [hskip, hend, belTrace_end]
    unfold canonFrom
    rw [hteq, Nat.sub_self]
    rfl
  | succ r ihr =>
    intro t fuel hr ht hfuel
    have htlt : t < chip.numTiles := by omega
    cases hnb : numBelsAt chip t with
    | zero =>
      have hskip : belIterSkip chip t 0 = belIterSkip chip (t + 1) 0 := by
        rw [belIterSkip_eq, if_pos]
        refine ⟨htlt, ?_⟩
        rw [hnb]
        simp
      have hsum := sumBelsFrom_succ chip t htlt
      rw [hskip, ihr (t + 1) fuel (by omega) (by omega) (by omega),
        canonFrom_succ chip t htlt, hnb]
      rfl
    | succ m =>
      have hcond : ¬(t < chip.numTiles ∧ (numBelsAt chip t : Int) ≤ (0 : Int)) := by
        rintro ⟨-, hle⟩
        rw [hnb] at hle
        omega
      have hskip : belIterSkip chip t 0 = BelIterator.mk ((0 : Nat) : Int) t := by
        rw [belIterSkip_eq, if_neg hcond]
        norm_num
      have hsum := sumBelsFrom_succ chip t htlt
      have hwithin := belTrace_within chip hWF (m + 1) t 0 fuel htlt
        (by omega) (by omega) (by omega)
      rw [hskip, hwithin, ihr (t + 1) (fuel - (m + 1)) (by omega) (by omega) (by omega),
        canonFrom_succ chip t htlt, hnb]
      congr 1
      rw [List.range_eq_range']

theorem getD_range_map (l : List Nat) :
    (List.range l.length).map (fun t => l.getD t 0) = l := by
  induction l with
  | nil => rfl
  | cons a l ih =>
    rw [List.length_cons, List.range_succ_eq_map, List.map_cons, List.map_map]
    show a :: (List.range l.length).map (fun t => l.getD t 0) = a :: l
    rw [ih]

theorem sumBelsFrom_zero (chip : ChipInfo) (hWF : ChipWF chip) :
    sumBelsFrom chip 0 = chip.tileBels.sum := by
  unfold sumBelsFrom
  rw [Nat.sub_zero, ← List.range_eq_range', ← hWF.2.1]
  unfold numBelsAt
  rw [getD_range_map]

theorem canonFrom_zero (chip : ChipInfo) : canonFrom chip 0 = canonicalBels chip := by
  unfold canonFrom canonicalBels
  rw [Nat.sub_zero, ← List.range_eq_range']

theorem getBelsList_eq_canonical (chip : ChipInfo) (hWF : ChipWF chip) :
    getBelsList chip = canonicalBels chip := by
  have hbegin : getBelsBegin chip = belIterSkip chip 0 0 := rfl
  rw [getBelsList, hbegin,
    belTrace_skip chip hWF chip.numTiles 0 _ (by omega) (by omega)
      (by rw [sumBelsFrom_zero chip hWF]; omega),
    canonFrom_zero]

theorem canonicalBels_length (chip : ChipInfo) (hWF : ChipWF chip) :
    (canonicalBels chip).length = chip.tileBels.sum := by
  unfold canonicalBels
  rw [List.length_flatMap]
  have h1 : ∀ t, ((List.range (numBelsAt chip t)).map (belAt chip t)).length
      = numBelsAt chip t := by
    intro t
    rw [List.length_map, List.length_range]
  calc ((List.range chip.numTiles).map
          (fun t => ((List.range (numBelsAt chip t)).map (belAt chip t)).length)).sum
      = ((List.range chip.numTiles).map (numBelsAt chip)).sum := by
        congr 1
        exact List.map_congr_left (fun t _ => h1 t)
    _ = chip.tileBels.sum := by
        rw [← hWF.2.1]
        unfold numBelsAt
        rw [getD_range_map]

theorem tile_decode (chip : ChipInfo) (t i : Nat) :
    tileOfBel chip (belAt chip t i) = t := by
  unfold tileOfBel belAt
  simp only
  rw [Nat.mul_comm (t / chip.width) chip.width]
  exact Nat.div_add_mod t chip.width

theorem canonicalBels_nodup (chip : ChipInfo) : (canonicalBels chip).Nodup := by
  unfold canonicalBels
  rw [List.nodup_flatMap]
  constructor
  · intro t _
    refine List.Nodup.map ?_ (List.nodup_range _)
    intro i j hij
    have : (i : Int) = (j : Int) := congrArg BelId.index hij
    exact_mod_cast this
  · refine (List.pairwise_lt_range chip.numTiles).imp ?_
    intro t t' hlt
    intro b hb hb'
    rcases List.mem_map.mp hb with ⟨i, -, rfl⟩
    rcases List.mem_map.mp hb' with ⟨j, -, hj⟩
    have hmod : t' % chip.width = t % chip.width := congrArg (fun b => b.location.x) hj
    have hdiv : t' / chip.width = t / chip.width := congrArg (fun b => b.location.y) hj
    have hne : t ≠ t' := Nat.ne_of_lt hlt
    refine hne ?_
    conv_lhs => rw [← Nat.mod_add_div t chip.width]
    conv_rhs => rw [← Nat.mod_add_div t' chip.width]
    rw [hmod, hdiv]

/-- C9: enumerating all sites of a loaded database (`getBels`) yields
exactly the sum, over all tiles, of that tile's site count, with no
duplicate identifiers, in the canonical order — tiles in row-major order
(`tile = y·width + x` ascending) and ascending local index within a tile —
and each yielded identifier's (location, index) round-trips through the
tile/site lookup (`tileInfo`, `tiles[y·width+x]`, local index in range) to
the same record. -/
theorem getBels_enumeration (chip : ChipInfo) (hWF : ChipWF chip) :
    getBelsList chip = canonicalBels chip ∧
    (getBelsList chip).length = chip.tileBels.sum ∧
    (getBelsList chip).Nodup ∧
    ∀ b ∈ getBelsList chip,
      b.location.x < chip.width ∧
      tileOfBel chip b < chip.numTiles ∧
      0 ≤ b.index ∧
      b.index.toNat < numBelsAt chip (tileOfBel chip b) ∧
      belAt chip (tileOfBel chip b) b.index.toNat = b := by
  have hcanon := getBelsList_eq_canonical chip hWF
  refine ⟨hcanon, ?_, ?_, ?_⟩
  · rw [hcanon]
    exact canonicalBels_length chip hWF
  · rw [hcanon]
    exact canonicalBels_nodup chip
  · intro b hb
    rw [hcanon] at hb
    unfold canonicalBels at hb
    rcases List.mem_flatMap.mp hb with ⟨t, ht, hb2⟩
    rcases List.mem_map.mp hb2 with ⟨i, hi, rfl⟩
    have htlt : t < chip.numTiles := List.mem_range.mp ht
    have hilt : i < numBelsAt chip t := List.mem_range.mp hi
    have hdec := tile_decode chip t i
    have hidx : (belAt chip t i).index = (i : Int) := rfl
    have htn : (belAt chip t i).index.toNat = i := by
      rw [hidx]
      exact Int.toNat_natCast i
    refine ⟨?_, ?_, ?_, ?_, ?_⟩
    · exact Nat.mod_lt _ hWF.2.2
    · rw [hdec]
      exact htlt
    · rw [hidx]
      exact Int.natCast_nonneg i
    · rw [hdec, htn]
      exact hilt
    · rw [hdec, htn]

/-- Witness for C9 at a concrete 2×2 database with tile site counts
[2, 0, 1, 3]. -/
theorem getBels_enumeration_witness :
    getBelsList (ChipInfo.mk 2 2 4 [2, 0, 1, 3]) =
        canonicalBels (ChipInfo.mk 2 2 4 [2, 0, 1, 3]) ∧
      (getBelsList (ChipInfo.mk 2 2 4 [2, 0, 1, 3])).length =
        (ChipInfo.mk 2 2 4 [2, 0, 1, 3]).tileBels.sum ∧
      (getBelsList (ChipInfo.mk 2 2 4 [2, 0, 1, 3])).Nodup ∧
      ∀ b ∈ getBelsList (ChipInfo.mk 2 2 4 [2, 0, 1, 3]),
        b.location.x < (ChipInfo.mk 2 2 4 [2, 0, 1, 3]).width ∧
        tileOfBel (ChipInfo.mk 2 2 4 [2, 0, 1, 3]) b <
          (ChipInfo.mk 2 2 4 [2, 0, 1, 3]).numTiles ∧
        0 ≤ b.index ∧
        b.index.toNat <
          numBelsAt (ChipInfo.mk 2 2 4 [2, 0, 1, 3])
            (tileOfBel (ChipInfo.mk 2 2 4 [2, 0, 1, 3]) b) ∧
        belAt (ChipInfo.mk 2 2 4 [2, 0, 1, 3])
            (tileOfBel (ChipInfo.mk 2 2 4 [2, 0, 1, 3]) b) b.index.toNat = b :=
  getBels_enumeration (ChipInfo.mk 2 2 4 [2, 0, 1, 3]) (by unfold ChipWF; decide)

/-- C1: binding an already-occupied site fails with a programmer-error
failure and leaves everything unchanged — afterwards the occupant is still
the prior cell and that cell's recorded location is unmodified; the
occupant is never silently overwritten. -/
theorem bindBel_already_bound (st : ArchState) (bel : BelId) (c : String)
    (x : String) (s : PlaceStrength) (hocc : getBoundBelCell st bel = some c) :
    (bindBel st bel x s).2.isSome ∧
    (bindBel st bel x s).1 = st ∧
    getBoundBelCell (bindBel st bel x s).1 bel = some c ∧
    ((bindBel st bel x s).1).cellBel c = st.cellBel c := by
  unfold getBoundBelCell at hocc
  unfold bindBel
  cases hb : st.boundBel bel with
  | none => rw [hb] at hocc; exact absurd hocc (by simp)
  | some occ =>
    refine ⟨rfl, rfl, ?_, rfl⟩
    unfold getBoundBelCell
    rw [hb] at hocc ⊢
    exact hocc

/-- Witness for C1: one site bound to cell "c"; binding "x" on top of it
fails and changes nothing. -/
theorem bindBel_already_bound_witness :
    getBoundBelCell
        (ArchState.mk
          (fun b => if b = BelId.mk (Location.mk 0 0) 0
                    then some ("c", PlaceStrength.placerChosen) else none)
          (fun c => if c = "c" then some (BelId.mk (Location.mk 0 0) 0) else none))
        (BelId.mk (Location.mk 0 0) 0) = some "c" ∧
      ((bindBel
          (ArchState.mk
            (fun b => if b = BelId.mk (Location.mk 0 0) 0
                      then some ("c", PlaceStrength.placerChosen) else none)
            (fun c => if c = "c" then some (BelId.mk (Location.mk 0 0) 0) else none))
          (BelId.mk (Location.mk 0 0) 0) "x" PlaceStrength.userFixed).2.isSome ∧
        (bindBel
          (ArchState.mk
            (fun b => if b = BelId.mk (Location.mk 0 0) 0
                      then some ("c", PlaceStrength.placerChosen) else none)
            (fun c => if c = "c" then some (BelId.mk (Location.mk 0 0) 0) else none))
          (BelId.mk (Location.mk 0 0) 0) "x" PlaceStrength.userFixed).1 =
          (ArchState.mk
            (fun b => if b = BelId.mk (Location.mk 0 0) 0
                      then some ("c", PlaceStrength.placerChosen) else none)
            (fun c => if c = "c" then some (BelId.mk (Location.mk 0 0) 0) else none)) ∧
        getBoundBelCell
          (bindBel
            (ArchState.mk
              (fun b => if b = BelId.mk (Location.mk 0 0) 0
                        then some ("c", PlaceStrength.placerChosen) else none)
              (fun c => if c = "c" then some (BelId.mk (Location.mk 0 0) 0) else none))
            (BelId.mk (Location.mk 0 0) 0) "x" PlaceStrength.userFixed).1
          (BelId.mk (Location.mk 0 0) 0) = some "c" ∧
        ((bindBel
            (ArchState.mk
              (fun b => if b = BelId.mk (Location.mk 0 0) 0
                        then some ("c", PlaceStrength.placerChosen) else none)
              (fun c => if c = "c" then some (BelId.mk (Location.mk 0 0) 0) else none))
            (BelId.mk (Location.mk 0 0) 0) "x" PlaceStrength.userFixed).1).cellBel "c" =
          (ArchState.mk
            (fun b => if b = BelId.mk (Location.mk 0 0) 0
                      then some ("c", PlaceStrength.placerChosen) else none)
            (fun c => if c = "c" then some (BelId.mk (Location.mk 0 0) 0) else none)).cellBel
            "c") :=
  ⟨rfl,
   bindBel_already_bound _ (BelId.mk (Location.mk 0 0) 0) "c" "x"
     PlaceStrength.userFixed rfl⟩

/-- C7: the `Arch::pack` boundary.  When the composed passes complete
without raising, the driver returns `true` with their result; when a pass
raises the structured recoverable execution failure, the driver catches it
at the top level and returns `false` together with the netlist exactly as
the failing pass left it (no rollback, no abort); a programmer-error
assertion is not caught by this boundary and propagates. -/
theorem packDriver_boundary (passes : List PassFun) (st : Netlist) :
    (∀ st', runPasses passes st = (st', none) →
        packDriver passes st = Except.ok (true, st')) ∧
    (∀ st' m, runPasses passes st = (st', some (PackError.execFailure m)) →
        packDriver passes st = Except.ok (false, st')) ∧
    (∀ st' m, runPasses passes st = (st', some (PackError.fatalAssert m)) →
        packDriver passes st = Except.error m) := by
  refine ⟨?_, ?_, ?_⟩
  · intro st' h
    unfold packDriver
    rw [h]
  · intro st' m h
    unfold packDriver
    rw [h]
  · intro st' m h
    unfold packDriver
    rw [h]

/-- Witness for C7: a pipeline whose single pass raises the recoverable
failure is caught and surfaced as `(false, the pass's partial netlist)`. -/
theorem packDriver_boundary_witness :
    packDriver
        [fun st => (st, some (PackError.execFailure "unexpected netlist shape"))]
        (Netlist.mk [] []) =
      Except.ok (false, Netlist.mk [] []) :=
  (packDriver_boundary
      [fun st => (st, some (PackError.execFailure "unexpected netlist shape"))]
      (Netlist.mk [] [])).2.1 (Netlist.mk [] []) "unexpected netlist shape" rfl

/-! ## A LUT/FF pair family for the fusion pass -/

/-- A 4-input lookup-table cell `l` with an optional explicit `BEL`
placement constraint, output `Z` on net `o`. -/
def lutCellF (b : Option String) : CellInfo :=
  { name := "l", type := "LUT4",
    attrs := match b with | some v => [("BEL", v)] | none => [],
    params := [("INIT", (4660, 16))],
    ports := [("A", ⟨none, PortDir.input⟩), ("B", ⟨none, PortDir.input⟩),
              ("C", ⟨none, PortDir.input⟩), ("D", ⟨none, PortDir.input⟩),
              ("Z", ⟨some "o", PortDir.output⟩)] }

/-- A flip-flop cell `f` with an optional explicit `BEL` placement
constraint, data input `DI` on net `o`. -/
def ffCellF (b : Option String) : CellInfo :=
  { name := "f", type := "FACADE_FF",
    attrs := match b with | some v => [("BEL", v)] | none => [],
    params := [],
    ports := [("CLK", ⟨none, PortDir.input⟩), ("DI", ⟨some "o", PortDir.input⟩),
              ("LSR", ⟨none, PortDir.input⟩), ("Q", ⟨none, PortDir.output⟩)] }

/-- The two-cell netlist: the lookup-table's output net `o` drives exactly
the flip-flop's data pin. -/
def lutffNetlist (b1 b2 : Option String) : Netlist :=
  { cells := [("f", ffCellF b2), ("l", lutCellF b1)],
    nets := [("o", NetInfo.mk "o" (PortRef.mk (some "l") "Z")
      [PortRef.mk (some "f") "DI"])] }


/-- C3: the fusion pass's placement-constraint compatibility rule on a
lookup-table/flip-flop candidate pair, exercised over every shape of
constraint pair (none/none, one-sided, equal, different).  No constraint on
either cell, a constraint on exactly one, or two equal constraints are
compatible: the pair is merged into the single fused slice `l_LC`, both
originals are dropped and the intermediate net `o` is deleted.  Two
different explicit constraints are incompatible: the lookup-table is packed
alone into a slice whose flip-flop data pin `DI0` stays unused, and the
flip-flop survives as a separate cell with the intermediate net still
present. -/
theorem pack_lut_lutffs_compat (b1 b2 : Option String)
    (hb1 : b1 = none ∨ b1 = some "X1" ∨ b1 = some "X2")
    (hb2 : b2 = none ∨ b2 = some "X1" ∨ b2 = some "X2") :
    ((b1 = none ∨ b2 = none ∨ b1 = b2) →
      keysA (pack_lut_lutffs (lutffNetlist b1 b2)).cells = ["l_LC"] ∧
      lookupA (pack_lut_lutffs (lutffNetlist b1 b2)).nets "o" = none ∧
      (lookupA (pack_lut_lutffs (lutffNetlist b1 b2)).cells "l_LC").map CellInfo.type =
        some "FACADE_SLICE") ∧
    (¬(b1 = none ∨ b2 = none ∨ b1 = b2) →
      keysA (pack_lut_lutffs (lutffNetlist b1 b2)).cells = ["f", "l_LC"] ∧
      (lookupA (pack_lut_lutffs (lutffNetlist b1 b2)).nets "o").isSome = true ∧
      (lookupA (pack_lut_lutffs (lutffNetlist b1 b2)).cells "f").map CellInfo.type =
        some "FACADE_FF" ∧
      (lookupA (pack_lut_lutffs (lutffNetlist b1 b2)).cells "l_LC").map CellInfo.type =
        some "FACADE_SLICE" ∧
      (lookupA (pack_lut_lutffs (lutffNetlist b1 b2)).cells "l_LC").map
          (fun c => lookupA c.ports "DI0") =
        some (some (PortInfo.mk none PortDir.input))) := by
  rcases hb1 with rfl | rfl | rfl <;> rcases hb2 with rfl | rfl | rfl <;> decide

/-- Witness for C3 at the conflicting pair (`BEL = X1` against `BEL = X2`). -/
theorem pack_lut_lutffs_compat_witness :
    ¬((some "X1" : Option String) = none ∨ (some "X2" : Option String) = none ∨
        (some "X1" : Option String) = some "X2") ∧
    (keysA (pack_lut_lutffs (lutffNetlist (some "X1") (some "X2"))).cells = ["f", "l_LC"] ∧
      (lookupA (pack_lut_lutffs (lutffNetlist (some "X1") (some "X2"))).nets "o").isSome
          = true ∧
      (lookupA (pack_lut_lutffs
          (lutffNetlist (some "X1") (some "X2"))).cells "f").map CellInfo.type =
        some "FACADE_FF" ∧
      (lookupA (pack_lut_lutffs
          (lutffNetlist (some "X1") (some "X2"))).cells "l_LC").map CellInfo.type =
        some "FACADE_SLICE" ∧
      (lookupA (pack_lut_lutffs
          (lutffNetlist (some "X1") (some "X2"))).cells "l_LC").map
          (fun c => lookupA c.ports "DI0") =
        some (some (PortInfo.mk none PortDir.input))) :=
  ⟨by decide,
   (pack_lut_lutffs_compat (some "X1") (some "X2") (by decide) (by decide)).2 (by decide)⟩

/-- An unrelated consumer of the lookup-table's output net. -/
def extraConsumer : CellInfo :=
  { name := "x", type := "OTHER", attrs := [], params := [],
    ports := [("I", ⟨some "o", PortDir.input⟩)] }

/-- The fan-out scenario of C4: the lookup-table's output net `o` drives the
flip-flop's data pin and the unrelated consumer `x`. -/
def fanoutNetlist : Netlist :=
  { cells := [("f", ffCellF none), ("l", lutCellF none), ("x", extraConsumer)],
    nets := [("o", NetInfo.mk "o" (PortRef.mk (some "l") "Z")
      [PortRef.mk (some "f") "DI", PortRef.mk (some "x") "I"])] }

/-- C4 (the code at the failing input): fusion does apply despite the
fan-out — `net_only_drives` is called non-exclusively and the pair merges
into `l_LC` — but `pack_lut_lutffs` then erases the whole output net `o`
(`ctx->nets.erase(o->name)`), so the unrelated consumer `x` is left
pointing at a net that no longer exists, appears in no surviving net's user
list, and the fused slice's own `DI0` pin references the deleted net as
well.  This contradicts the spec's promise (and the intent of the comment
justifying non-exclusive fusion) that every unrelated consumer of the
output remains connected after fusion. -/
theorem pack_lut_lutffs_fanout_disconnects :
    keysA (pack_lut_lutffs fanoutNetlist).cells = ["l_LC", "x"] ∧
    lookupA (pack_lut_lutffs fanoutNetlist).nets "o" = none ∧
    (lookupA (pack_lut_lutffs fanoutNetlist).cells "x").map
        (fun c => lookupA c.ports "I") =
      some (some (PortInfo.mk (some "o") PortDir.input)) ∧
    (∀ e ∈ (pack_lut_lutffs fanoutNetlist).nets, ∀ u ∈ e.2.users,
      u.cell ≠ some "x") := by
  decide

/-- A 4-input lookup-table cell `l` carrying an arbitrary attribute map. -/
def lutCellA (as : List (String × String)) : CellInfo :=
  { name := "l", type := "LUT4", attrs := as,
    params := [("INIT", (4660, 16))],
    ports := [("A", ⟨none, PortDir.input⟩), ("B", ⟨none, PortDir.input⟩),
              ("C", ⟨none, PortDir.input⟩), ("D", ⟨none, PortDir.input⟩),
              ("Z", ⟨some "o", PortDir.output⟩)] }

/-- The two-cell netlist for the naming/attribute claim. -/
def lutffNetlistA (as : List (String × String)) (b2 : Option String) : Netlist :=
  { cells := [("f", ffCellF b2), ("l", lutCellA as)],
    nets := [("o", NetInfo.mk "o" (PortRef.mk (some "l") "Z")
      [PortRef.mk (some "f") "DI"])] }

/-- C10: whenever the fusion pass packs the lookup-table `l` (with or
without a flip-flop), the resulting slice cell is keyed and named by
appending `_LC` to the lookup-table's name.  The slice starts from a copy
of all of the lookup-table's attributes: when no flip-flop `BEL` is merged
in (packed alone, or fused with an unconstrained flip-flop) its attribute
map is exactly the lookup-table's; when a flip-flop carrying an explicit
`BEL` is fused in, the `BEL` attribute is set to the flip-flop's value on
top of the inherited map. -/
theorem pack_lut_lutffs_lc_name_attrs (as : List (String × String)) (b2 : Option String)
    (has : as = [] ∨ as = [("A1", "V1")] ∨ as = [("A1", "V1"), ("BEL", "X1")])
    (hb2 : b2 = none ∨ b2 = some "X1" ∨ b2 = some "X2") :
    (lookupA (pack_lut_lutffs (lutffNetlistA as b2)).cells ("l" ++ "_LC")).map
        CellInfo.name = some ("l" ++ "_LC") ∧
    ((¬((lookupA as "BEL").isSome ∧ b2.isSome ∧ lookupA as "BEL" ≠ b2)) →
      (lookupA (pack_lut_lutffs (lutffNetlistA as b2)).cells ("l" ++ "_LC")).map
          CellInfo.attrs =
        some (match b2 with | some w => insertA as "BEL" w | none => as)) ∧
    (((lookupA as "BEL").isSome ∧ b2.isSome ∧ lookupA as "BEL" ≠ b2) →
      (lookupA (pack_lut_lutffs (lutffNetlistA as b2)).cells ("l" ++ "_LC")).map
          CellInfo.attrs = some as) := by
  rcases has with rfl | rfl | rfl <;> rcases hb2 with rfl | rfl | rfl <;> decide

/-- Witness for C10: the lookup-table carries `A1 = V1`, the fused
flip-flop carries `BEL = X1`; the slice is `l_LC` with the inherited
attribute plus the flip-flop's `BEL`. -/
theorem pack_lut_lutffs_lc_name_attrs_witness :
    (lookupA (pack_lut_lutffs
        (lutffNetlistA [("A1", "V1")] (some "X1"))).cells ("l" ++ "_LC")).map
        CellInfo.name = some ("l" ++ "_LC") ∧
    (lookupA (pack_lut_lutffs
        (lutffNetlistA [("A1", "V1")] (some "X1"))).cells ("l" ++ "_LC")).map
        CellInfo.attrs = some (insertA [("A1", "V1")] "BEL" "X1") :=
  ⟨(pack_lut_lutffs_lc_name_attrs [("A1", "V1")] (some "X1")
      (by decide) (by decide)).1,
   (pack_lut_lutffs_lc_name_attrs [("A1", "V1")] (some "X1")
      (by decide) (by decide)).2.1 (by decide)⟩

/-! ## General lemmas for the IO-elision pass -/

theorem lookupA_eq_none_iff {β : Type} (l : List (String × β)) (k : String) :
    lookupA l k = none ↔ k ∉ keysA l := by
  induction l with
  | nil => simp [lookupA, keysA]
  | cons e rest ih =>
    by_cases h : e.1 = k
    · subst h
      simp [lookupA, keysA]
    · have h' : k ≠ e.1 := fun hh => h hh.symm
      simp [lookupA, keysA, h, h', ih]

theorem lookupA_foldl_eraseA {β : Type} (names : List String) (l : List (String × β))
    (k : String) :
    lookupA (names.foldl eraseA l) k = if k ∈ names then none else lookupA l k := by
  induction names generalizing l with
  | nil => simp
  | cons n rest ih =>
    rw [List.foldl_cons, ih]
    by_cases hk : k ∈ rest
    · simp [hk]
    · by_cases hkn : k = n
      · subst hkn
        simp [hk, lookupA_eraseA_self]
      · simp [hk, hkn, lookupA_eraseA_ne l n k hkn]

theorem disconnect_keys (st : Netlist) (cn p : String) :
    keysA (disconnect_port st cn p).cells = keysA st.cells ∧
    keysA (disconnect_port st cn p).nets = keysA st.nets := by
  cases hcell : lookupA st.cells cn with
  | none => simp [disconnect_port, hcell]
  | some c =>
    cases hport : lookupA c.ports p with
    | none => simp [disconnect_port, hcell, hport]
    | some pi =>
      cases hnet : pi.net with
      | none => simp [disconnect_port, hcell, hport, hnet]
      | some nn => simp [disconnect_port, hcell, hport, hnet, keysA_updateA]

theorem disconnect_cells_frame (st : Netlist) (cn p k : String) (h : k ≠ cn) :
    lookupA (disconnect_port st cn p).cells k = lookupA st.cells k := by
  cases hcell : lookupA st.cells cn with
  | none => simp [disconnect_port, hcell]
  | some c =>
    cases hport : lookupA c.ports p with
    | none => simp [disconnect_port, hcell, hport]
    | some pi =>
      cases hnet : pi.net with
      | none => simp [disconnect_port, hcell, hport, hnet]
      | some nn =>
        simp only [disconnect_port, hcell, hport, hnet]
        exact lookupA_updateA_ne st.cells cn k _ h

theorem disconnect_cell_self (st : Netlist) (cn p : String) :
    ∀ cc', lookupA (disconnect_port st cn p).cells cn = some cc' →
      ∃ cc, lookupA st.cells cn = some cc ∧ cc'.name = cc.name ∧ cc'.type = cc.type ∧
        cc'.attrs = cc.attrs ∧ cc'.params = cc.params ∧
        keysA cc'.ports = keysA cc.ports ∧
        (∀ q, q ≠ p → lookupA cc'.ports q = lookupA cc.ports q) := by
  intro cc' hcc'
  cases hcell : lookupA st.cells cn with
  | none =>
    simp only [disconnect_port, hcell] at hcc'
    simp at hcc'
  | some c =>
    cases hport : lookupA c.ports p with
    | none =>
      simp only [disconnect_port, hcell, hport] at hcc'
      have hce : c = cc' := Option.some.inj hcc'
      subst hce
      exact ⟨c, rfl, rfl, rfl, rfl, rfl, rfl, fun q _ => rfl⟩
    | some pi =>
      cases hnet : pi.net with
      | none =>
        simp only [disconnect_port, hcell, hport, hnet] at hcc'
        have hce : c = cc' := Option.some.inj hcc'
        subst hce
        exact ⟨c, rfl, rfl, rfl, rfl, rfl, rfl, fun q _ => rfl⟩
      | some nn =>
        simp only [disconnect_port, hcell, hport, hnet] at hcc'
        rw [lookupA_updateA_self, hcell] at hcc'
        have hcc'eq : cc' =
            { c with ports := updateA c.ports p (fun pi => { pi with net := none }) } := by
          have := Option.some.inj hcc'
          rw [← this]
        subst hcc'eq
        refine ⟨c, rfl, rfl, rfl, rfl, rfl, ?_, ?_⟩
        · show keysA (updateA c.ports p (fun pi => { pi with net := none })) = keysA c.ports
          exact keysA_updateA c.ports p _
        · intro q hq
          show lookupA (updateA c.ports p (fun pi => { pi with net := none })) q =
            lookupA c.ports q
          exact lookupA_updateA_ne c.ports p q _ hq

theorem disconnect_port_p_none (st : Netlist) (cn p : String) :
    ∀ cc' pi', lookupA (disconnect_port st cn p).cells cn = some cc' →
      lookupA cc'.ports p = some pi' → pi'.net = none := by
  intro cc' pi' hcc' hpi'
  cases hcell : lookupA st.cells cn with
  | none =>
    simp only [disconnect_port, hcell] at hcc'
    simp at hcc'
  | some c =>
    cases hport : lookupA c.ports p with
    | none =>
      simp only [disconnect_port, hcell, hport] at hcc'
      have hce : c = cc' := Option.some.inj hcc'
      subst hce
      rw [hport] at hpi'
      exact absurd hpi' (by simp)
    | some pi =>
      cases hnet : pi.net with
      | none =>
        simp only [disconnect_port, hcell, hport, hnet] at hcc'
        have hce : c = cc' := Option.some.inj hcc'
        subst hce
        rw [hport] at hpi'
        have : pi = pi' := Option.some.inj hpi'
        subst this
        exact hnet
      | some nn =>
        simp only [disconnect_port, hcell, hport, hnet] at hcc'
        rw [lookupA_updateA_self, hcell] at hcc'
        have hcc'eq : cc' =
            { c with ports := updateA c.ports p (fun pi => { pi with net := none }) } := by
          have := Option.some.inj hcc'
          rw [← this]
        subst hcc'eq
        rw [lookupA_updateA_self, hport] at hpi'
        have : { pi with net := none } = pi' := Option.some.inj hpi'
        rw [← this]

theorem disconnect_nets_shape (st : Netlist) (cn p : String) :
    ∀ n ni', lookupA (disconnect_port st cn p).nets n = some ni' →
      ∃ ni, lookupA st.nets n = some ni ∧ ni'.name = ni.name ∧
        (∀ u ∈ ni'.users, u ∈ ni.users) ∧
        (ni'.driver = ni.driver ∨ ni'.driver = PortRef.mk none ni.driver.port) := by
  intro n ni' hni'
  cases hcell : lookupA st.cells cn with
  | none =>
    simp only [disconnect_port, hcell] at hni'
    exact ⟨ni', hni', rfl, fun u hu => hu, Or.inl rfl⟩
  | some c =>
    cases hport : lookupA c.ports p with
    | none =>
      simp only [disconnect_port, hcell, hport] at hni'
      exact ⟨ni', hni', rfl, fun u hu => hu, Or.inl rfl⟩
    | some pi =>
      cases hnet : pi.net with
      | none =>
        simp only [disconnect_port, hcell, hport, hnet] at hni'
        exact ⟨ni', hni', rfl, fun u hu => hu, Or.inl rfl⟩
      | some nn =>
        simp only [disconnect_port, hcell, hport, hnet] at hni'
        by_cases hn : n = nn
        · subst hn
          rw [lookupA_updateA_self] at hni'
          cases hst : lookupA st.nets n with
          | none =>
            rw [hst] at hni'
            simp at hni'
          | some ni =>
            rw [hst] at hni'
            have hni'eq := (Option.some.inj hni').symm
            refine ⟨ni, rfl, ?_, ?_, ?_⟩
            · rw [hni'eq]
            · intro u hu
              rw [hni'eq] at hu
              have : u ∈ List.filter
                  (fun u => decide ¬(u.cell = some cn ∧ u.port = p)) ni.users := hu
              exact List.mem_of_mem_filter this
            · by_cases hd : ni.driver.cell = some cn ∧ ni.driver.port = p
              · right
                rw [hni'eq]
                show (if ni.driver.cell = some cn ∧ ni.driver.port = p
                      then PortRef.mk none ni.driver.port else ni.driver) =
                  PortRef.mk none ni.driver.port
                rw [if_pos hd]
              · left
                rw [hni'eq]
                show (if ni.driver.cell = some cn ∧ ni.driver.port = p
                      then PortRef.mk none ni.driver.port else ni.driver) = ni.driver
                rw [if_neg hd]
        · rw [lookupA_updateA_ne st.nets nn n _ hn] at hni'
          exact ⟨ni', hni', rfl, fun u hu => hu, Or.inl rfl⟩

theorem disconnect_removed (st : Netlist) (cn p : String) :
    ∀ c pi nn, lookupA st.cells cn = some c → lookupA c.ports p = some pi →
      pi.net = some nn →
      ∀ ni', lookupA (disconnect_port st cn p).nets nn = some ni' →
        (∀ u ∈ ni'.users, ¬(u.cell = some cn ∧ u.port = p)) ∧
        ¬(ni'.driver.cell = some cn ∧ ni'.driver.port = p) := by
  intro c pi nn hcell hport hnet ni' hni'
  simp only [disconnect_port, hcell, hport, hnet] at hni'
  rw [lookupA_updateA_self] at hni'
  cases hst : lookupA st.nets nn with
  | none =>
    rw [hst] at hni'
    simp at hni'
  | some ni =>
    rw [hst] at hni'
    have hni'eq := (Option.some.inj hni').symm
    constructor
    · intro u hu
      rw [hni'eq] at hu
      have : u ∈ List.filter
          (fun u => decide ¬(u.cell = some cn ∧ u.port = p)) ni.users := hu
      have := List.of_mem_filter this
      exact of_decide_eq_true this
    · rw [hni'eq]
      show ¬((if ni.driver.cell = some cn ∧ ni.driver.port = p
              then PortRef.mk none ni.driver.port else ni.driver).cell = some cn ∧
             (if ni.driver.cell = some cn ∧ ni.driver.port = p
              then PortRef.mk none ni.driver.port else ni.driver).port = p)
      by_cases hd : ni.driver.cell = some cn ∧ ni.driver.port = p
      · rw [if_pos hd]
        rintro ⟨hcontr, -⟩
        simp at hcontr
      · rw [if_neg hd]
        exact hd

/-- Every user reference of every net resolves to an existing cell whose
referenced port is connected back to that net. -/
def UsersConsistent (N : Netlist) : Prop :=
  ∀ n ni, lookupA N.nets n = some ni → ∀ u ∈ ni.users,
    ∃ c, u.cell = some c ∧ ∃ cc, lookupA N.cells c = some cc ∧
      ∃ pi, lookupA cc.ports u.port = some pi ∧ pi.net = some n

/-- Every driver reference of every net resolves to an existing cell whose
referenced port is connected back to that net. -/
def DriverConsistent (N : Netlist) : Prop :=
  ∀ n ni, lookupA N.nets n = some ni → ∀ c, ni.driver.cell = some c →
    ∃ cc, lookupA N.cells c = some cc ∧
      ∃ pi, lookupA cc.ports ni.driver.port = some pi ∧ pi.net = some n

/-- No net of the netlist mentions cell `c` as a user or driver. -/
def noRefs (st : Netlist) (c : String) : Prop :=
  ∀ n ni, lookupA st.nets n = some ni →
    (∀ u ∈ ni.users, u.cell ≠ some c) ∧ ni.driver.cell ≠ some c

theorem lookupA_of_mem {β : Type} (l : List (String × β)) (e : String × β)
    (hs : SortedKeys l) (he : e ∈ l) : lookupA l e.1 = some e.2 := by
  induction l with
  | nil => simp at he
  | cons x rest ih =>
    rcases List.mem_cons.mp he with rfl | he'
    · simp [lookupA]
    · rw [SortedKeys, List.pairwise_cons] at hs
      have hne : x.1 ≠ e.1 := strLt_ne (hs.1 e he')
      rw [lookupA, if_neg hne]
      exact ih hs.2 he'

theorem disconnect_cell_maps (st : Netlist) (cn p k : String) :
    (lookupA (disconnect_port st cn p).cells k).map CellInfo.type =
      (lookupA st.cells k).map CellInfo.type ∧
    (lookupA (disconnect_port st cn p).cells k).map CellInfo.name =
      (lookupA st.cells k).map CellInfo.name ∧
    (lookupA (disconnect_port st cn p).cells k).map (fun c => keysA c.ports) =
      (lookupA st.cells k).map (fun c => keysA c.ports) := by
  by_cases hk : k = cn
  · subst hk
    cases hd : lookupA (disconnect_port st k p).cells k with
    | none =>
      have h1 : k ∉ keysA (disconnect_port st k p).cells :=
        (lookupA_eq_none_iff _ k).mp hd
      rw [(disconnect_keys st k p).1] at h1
      have h2 : lookupA st.cells k = none := (lookupA_eq_none_iff _ k).mpr h1
      rw [h2]
      exact ⟨rfl, rfl, rfl⟩
    | some cc' =>
      obtain ⟨cc, hcc, hn, ht, -, -, hpk, -⟩ := disconnect_cell_self st k p cc' hd
      rw [hcc]
      exact ⟨by simp [ht], by simp [hn], by simp [hpk]⟩
  · rw [disconnect_cells_frame st cn p k hk]
    exact ⟨rfl, rfl, rfl⟩

theorem disconnect_consistent (st : Netlist) (cn p : String)
    (hu : UsersConsistent st) (hd : DriverConsistent st) :
    UsersConsistent (disconnect_port st cn p) ∧
    DriverConsistent (disconnect_port st cn p) := by
  have hkeys := disconnect_keys st cn p
  constructor
  · intro n ni' hni' u hu'
    obtain ⟨ni, hst, -, husub, -⟩ := disconnect_nets_shape st cn p n ni' hni'
    obtain ⟨c, hcu, cc, hcc, pi, hpi, hpinet⟩ := hu n ni hst u (husub u hu')
    by_cases hccn : c = cn
    · subst hccn
      have hex : lookupA (disconnect_port st c p).cells c ≠ none := by
        intro hnone
        rw [lookupA_eq_none_iff, hkeys.1, ← lookupA_eq_none_iff, hcc] at hnone
        simp at hnone
      cases hdl : lookupA (disconnect_port st c p).cells c with
      | none => exact absurd hdl hex
      | some cc' =>
        obtain ⟨cc0, hcc0, -, -, -, -, -, hqf⟩ := disconnect_cell_self st c p cc' hdl
        have hcceq : cc0 = cc := by
          rw [hcc0] at hcc
          exact Option.some.inj hcc
        rw [hcceq] at hcc0 hqf
        by_cases hqp : u.port = p
        · exfalso
          have hrem := disconnect_removed st c p cc pi n hcc0 (hqp ▸ hpi) hpinet ni' hni'
          exact hrem.1 u hu' ⟨hcu, hqp⟩
        · refine ⟨c, hcu, cc', hdl, pi, ?_, hpinet⟩
          rw [hqf u.port hqp]
          exact hpi
    · refine ⟨c, hcu, cc, ?_, pi, hpi, hpinet⟩
      rw [disconnect_cells_frame st cn p c hccn]
      exact hcc
  · intro n ni' hni' c hdc
    obtain ⟨ni, hst, -, -, hdrv⟩ := disconnect_nets_shape st cn p n ni' hni'
    rcases hdrv with heq | heq
    · rw [heq] at hdc
      obtain ⟨cc, hcc, pi, hpi, hpinet⟩ := hd n ni hst c hdc
      by_cases hccn : c = cn
      · subst hccn
        have hex : lookupA (disconnect_port st c p).cells c ≠ none := by
          intro hnone
          rw [lookupA_eq_none_iff, hkeys.1, ← lookupA_eq_none_iff, hcc] at hnone
          simp at hnone
        cases hdl : lookupA (disconnect_port st c p).cells c with
        | none => exact absurd hdl hex
        | some cc' =>
          obtain ⟨cc0, hcc0, -, -, -, -, -, hqf⟩ := disconnect_cell_self st c p cc' hdl
          have hcceq : cc0 = cc := by
            rw [hcc0] at hcc
            exact Option.some.inj hcc
          rw [hcceq] at hcc0 hqf
          by_cases hqp : ni.driver.port = p
          · exfalso
            have hrem := disconnect_removed st c p cc pi n hcc0 (hqp ▸ hpi) hpinet ni' hni'
            refine hrem.2 ⟨?_, ?_⟩
            · rw [heq]
              exact hdc
            · rw [heq, hqp]
          · refine ⟨cc', rfl, pi, ?_, hpinet⟩
            rw [heq, hqf ni.driver.port hqp]
            exact hpi
      · refine ⟨cc, ?_, pi, ?_, hpinet⟩
        · rw [disconnect_cells_frame st cn p c hccn]
          exact hcc
        · rw [heq]
          exact hpi
    · rw [heq] at hdc
      simp at hdc

theorem disconnect_noRefs (st : Netlist) (cn p c' : String) (h : noRefs st c') :
    noRefs (disconnect_port st cn p) c' := by
  intro n ni' hni'
  obtain ⟨ni, hst, -, husub, hdrv⟩ := disconnect_nets_shape st cn p n ni' hni'
  have hold := h n ni hst
  constructor
  · intro u hu
    exact hold.1 u (husub u hu)
  · rcases hdrv with heq | heq
    · rw [heq]
      exact hold.2
    · rw [heq]
      simp

/-- The `for (auto &p : ci->ports) disconnect_port(...)` loop of `pack_io`. -/
def discAll (st : Netlist) (cn : String) (ports : List String) : Netlist :=
  ports.foldl (fun s p => disconnect_port s cn p) st

theorem discAll_keys (cn : String) (ports : List String) :
    ∀ st : Netlist, keysA (discAll st cn ports).cells = keysA st.cells ∧
      keysA (discAll st cn ports).nets = keysA st.nets := by
  induction ports with
  | nil => exact fun st => ⟨rfl, rfl⟩
  | cons p rest ih =>
    intro st
    have h1 := disconnect_keys st cn p
    have h2 := ih (disconnect_port st cn p)
    exact ⟨h2.1.trans h1.1, h2.2.trans h1.2⟩

theorem discAll_frame (cn : String) (ports : List String) (k : String) (hk : k ≠ cn) :
    ∀ st : Netlist, lookupA (discAll st cn ports).cells k = lookupA st.cells k := by
  induction ports with
  | nil => exact fun st => rfl
  | cons p rest ih =>
    intro st
    exact (ih (disconnect_port st cn p)).trans (disconnect_cells_frame st cn p k hk)

theorem discAll_maps (cn : String) (ports : List String) (k : String) :
    ∀ st : Netlist,
      (lookupA (discAll st cn ports).cells k).map CellInfo.type =
        (lookupA st.cells k).map CellInfo.type ∧
      (lookupA (discAll st cn ports).cells k).map CellInfo.name =
        (lookupA st.cells k).map CellInfo.name ∧
      (lookupA (discAll st cn ports).cells k).map (fun c => keysA c.ports) =
        (lookupA st.cells k).map (fun c => keysA c.ports) := by
  induction ports with
  | nil => exact fun st => ⟨rfl, rfl, rfl⟩
  | cons p rest ih =>
    intro st
    have h1 := disconnect_cell_maps st cn p k
    have h2 := ih (disconnect_port st cn p)
    exact ⟨h2.1.trans h1.1, h2.2.1.trans h1.2.1, h2.2.2.trans h1.2.2⟩

theorem discAll_consistent (cn : String) (ports : List String) :
    ∀ st : Netlist, UsersConsistent st → DriverConsistent st →
      UsersConsistent (discAll st cn ports) ∧ DriverConsistent (discAll st cn ports) := by
  induction ports with
  | nil => exact fun st hu hd => ⟨hu, hd⟩
  | cons p rest ih =>
    intro st hu hd
    have h1 := disconnect_consistent st cn p hu hd
    exact ih (disconnect_port st cn p) h1.1 h1.2

theorem discAll_noRefs (cn : String) (ports : List String) (c' : String) :
    ∀ st : Netlist, noRefs st c' → noRefs (discAll st cn ports) c' := by
  induction ports with
  | nil => exact fun st h => h
  | cons p rest ih =>
    intro st h
    exact ih (disconnect_port st cn p) (disconnect_noRefs st cn p c' h)

theorem discAll_port_none_stable (cn : String) (ports : List String) (q : String) :
    ∀ st : Netlist,
      (∀ cc pi, lookupA st.cells cn = some cc → lookupA cc.ports q = some pi →
        pi.net = none) →
      ∀ cc pi, lookupA (discAll st cn ports).cells cn = some cc →
        lookupA cc.ports q = some pi → pi.net = none := by
  induction ports with
  | nil => exact fun st h => h
  | cons p rest ih =>
    intro st h
    refine ih (disconnect_port st cn p) ?_
    intro cc' pi' hcc' hpi'
    by_cases hqp : q = p
    · subst hqp
      exact disconnect_port_p_none st cn q cc' pi' hcc' hpi'
    · obtain ⟨cc, hcc, -, -, -, -, -, hqf⟩ := disconnect_cell_self st cn p cc' hcc'
      rw [hqf q hqp] at hpi'
      exact h cc pi' hcc hpi'

theorem discAll_ports_none (cn : String) (ports : List String) :
    ∀ st : Netlist, ∀ p ∈ ports, ∀ cc pi,
      lookupA (discAll st cn ports).cells cn = some cc →
      lookupA cc.ports p = some pi → pi.net = none := by
  induction ports with
  | nil =>
    intro st p hp
    simp at hp
  | cons p0 rest ih =>
    intro st p hp cc pi hcc hpi
    rcases List.mem_cons.mp hp with rfl | hp'
    · refine discAll_port_none_stable cn rest p (disconnect_port st cn p) ?_ cc pi hcc hpi
      intro cc1 pi1 hcc1 hpi1
      exact disconnect_port_p_none st cn p cc1 pi1 hcc1 hpi1
    · exact ih (disconnect_port st cn p0) p hp' cc pi hcc hpi

theorem mem_of_lookupA {β : Type} (l : List (String × β)) (k : String) (v : β)
    (h : lookupA l k = some v) : (k, v) ∈ l := by
  induction l with
  | nil => simp [lookupA] at h
  | cons e rest ih =>
    rw [lookupA] at h
    by_cases he : e.1 = k
    · rw [if_pos he] at h
      have hv : e.2 = v := Option.some.inj h
      exact List.mem_cons.mpr (Or.inl (by rw [← he, ← hv]))
    · rw [if_neg he] at h
      exact List.mem_cons.mpr (Or.inr (ih h))

/-- Decidable form of a user/driver reference resolving back to its net. -/
def portConnected (N : Netlist) (u : PortRef) (n : String) : Bool :=
  match u.cell with
  | none => false
  | some c =>
    match lookupA N.cells c with
    | none => false
    | some cc =>
      match lookupA cc.ports u.port with
      | none => false
      | some pi => decide (pi.net = some n)

/-- Entry-wise (decidable) form of `UsersConsistent`. -/
def UsersConsistentB (N : Netlist) : Prop :=
  ∀ e ∈ N.nets, ∀ u ∈ e.2.users, portConnected N u e.1 = true

/-- Entry-wise (decidable) form of `DriverConsistent`. -/
def DriverConsistentB (N : Netlist) : Prop :=
  ∀ e ∈ N.nets, e.2.driver.cell.isSome = true → portConnected N e.2.driver e.1 = true

instance (N : Netlist) : Decidable (UsersConsistentB N) := by
  unfold UsersConsistentB
  infer_instance

instance (N : Netlist) : Decidable (DriverConsistentB N) := by
  unfold DriverConsistentB
  infer_instance

theorem portConnected_elim (N : Netlist) (u : PortRef) (n : String)
    (h : portConnected N u n = true) :
    ∃ c, u.cell = some c ∧ ∃ cc, lookupA N.cells c = some cc ∧
      ∃ pi, lookupA cc.ports u.port = some pi ∧ pi.net = some n := by
  cases hc : u.cell with
  | none => simp [portConnected, hc] at h
  | some c =>
    cases hcc : lookupA N.cells c with
    | none => simp [portConnected, hc, hcc] at h
    | some cc =>
      cases hpi : lookupA cc.ports u.port with
      | none => simp [portConnected, hc, hcc, hpi] at h
      | some pi =>
        simp only [portConnected, hc, hcc, hpi] at h
        exact ⟨c, rfl, cc, hcc, pi, hpi, of_decide_eq_true h⟩

theorem usersConsistentB_imp (N : Netlist) (h : UsersConsistentB N) :
    UsersConsistent N := by
  intro n ni hni u hu
  exact portConnected_elim N u n (h (n, ni) (mem_of_lookupA N.nets n ni hni) u hu)

theorem driverConsistentB_imp (N : Netlist) (h : DriverConsistentB N) :
    DriverConsistent N := by
  intro n ni hni c hc
  have hs : ni.driver.cell.isSome = true := by rw [hc]; rfl
  obtain ⟨c', hc', rest⟩ :=
    portConnected_elim N ni.driver n (h (n, ni) (mem_of_lookupA N.nets n ni hni) hs)
  have : c' = c := by
    rw [hc'] at hc
    exact Option.some.inj hc
  subst this
  exact rest

/-- The invariant carried through the `pack_io` cell loop: keys and cell
identities are preserved (placeholder cells possibly with cleared ports),
reference consistency is maintained, and every already-packed placeholder
cell has all of its net references severed. -/
def PIOInv (N : Netlist) (acc : Netlist × List String) : Prop :=
  keysA acc.1.cells = keysA N.cells ∧
  keysA acc.1.nets = keysA N.nets ∧
  (∀ k, (lookupA acc.1.cells k).map CellInfo.type =
      (lookupA N.cells k).map CellInfo.type) ∧
  (∀ k, (lookupA acc.1.cells k).map CellInfo.name =
      (lookupA N.cells k).map CellInfo.name) ∧
  (∀ k cc, lookupA N.cells k = some cc → is_nextpnr_iob cc = false →
      lookupA acc.1.cells k = some cc) ∧
  UsersConsistent acc.1 ∧ DriverConsistent acc.1 ∧
  (∀ c ∈ acc.2, noRefs acc.1 c)

/-- Whether key `k` names a placeholder IO buffer cell of `N`. -/
def iobKey (N : Netlist) (k : String) : Bool :=
  match lookupA N.cells k with
  | some c => is_nextpnr_iob c
  | none => false

theorem pack_io_step_inv (N : Netlist) (hname : ∀ e ∈ N.cells, e.2.name = e.1)
    (acc : Netlist × List String) (cn : String) (hinv : PIOInv N acc) :
    PIOInv N (pack_io_step acc cn) ∧
    (pack_io_step acc cn).2 = acc.2 ++ (if iobKey N cn = true then [cn] else []) := by
  obtain ⟨hkc, hkn, htype, hnm, hniob, huc, hdc, hpacked⟩ := hinv
  cases hci : lookupA acc.1.cells cn with
  | none =>
    have hN : lookupA N.cells cn = none := by
      have ht := htype cn
      rw [hci] at ht
      cases hl : lookupA N.cells cn with
      | none => rfl
      | some c0 =>
        rw [hl] at ht
        simp at ht
    have hik : iobKey N cn = false := by simp [iobKey, hN]
    have hred : pack_io_step acc cn = acc := by
      simp only [pack_io_step, hci]
    rw [hred]
    refine ⟨⟨hkc, hkn, htype, hnm, hniob, huc, hdc, hpacked⟩, ?_⟩
    rw [hik]
    simp
  | some ci =>
    have hciN : ∃ c0, lookupA N.cells cn = some c0 ∧ ci.type = c0.type ∧
        ci.name = c0.name := by
      have ht := htype cn
      have hn := hnm cn
      rw [hci] at ht hn
      cases hl : lookupA N.cells cn with
      | none =>
        rw [hl] at ht
        simp at ht
      | some c0 =>
        rw [hl] at ht hn
        exact ⟨c0, rfl, by simpa using ht, by simpa using hn⟩
    obtain ⟨c0, hc0, htyeq, hnmeq⟩ := hciN
    have hc0name : c0.name = cn := hname (cn, c0) (mem_of_lookupA N.cells cn c0 hc0)
    have hciname : ci.name = cn := by rw [hnmeq, hc0name]
    have hiobeq : is_nextpnr_iob ci = is_nextpnr_iob c0 := by
      simp [is_nextpnr_iob, htyeq]
    by_cases hio : is_nextpnr_iob ci = true
    · have hik : iobKey N cn = true := by
        simp only [iobKey, hc0]
        show is_nextpnr_iob c0 = true
        rw [← hiobeq]
        exact hio
      have hred : pack_io_step acc cn =
          (discAll acc.1 cn (keysA ci.ports), acc.2 ++ [ci.name]) := by
        simp only [pack_io_step, hci, hio, if_pos]
        rfl
      rw [hred]
      have hucd := discAll_consistent cn (keysA ci.ports) acc.1 huc hdc
      have hnoRefs : noRefs (discAll acc.1 cn (keysA ci.ports)) cn := by
        intro n ni hni
        constructor
        · intro u hu hcontr
          obtain ⟨c, hcu, cc, hcc, pi, hpi, hpinet⟩ := hucd.1 n ni hni u hu
          have hceq : c = cn := by
            rw [hcu] at hcontr
            exact Option.some.inj hcontr
          subst hceq
          have hport_mem : u.port ∈ keysA cc.ports := by
            by_contra hm
            rw [← lookupA_eq_none_iff] at hm
            rw [hm] at hpi
            simp at hpi
          have hpk : keysA cc.ports = keysA ci.ports := by
            have hm := (discAll_maps c (keysA ci.ports) c acc.1).2.2
            rw [hcc, hci] at hm
            simpa using hm
          have hnone := discAll_ports_none c (keysA ci.ports) acc.1 u.port
            (by rw [← hpk]; exact hport_mem) cc pi hcc hpi
          rw [hnone] at hpinet
          simp at hpinet
        · intro hcontr
          obtain ⟨cc, hcc, pi, hpi, hpinet⟩ := hucd.2 n ni hni cn hcontr
          have hport_mem : ni.driver.port ∈ keysA cc.ports := by
            by_contra hm
            rw [← lookupA_eq_none_iff] at hm
            rw [hm] at hpi
            simp at hpi
          have hpk : keysA cc.ports = keysA ci.ports := by
            have hm := (discAll_maps cn (keysA ci.ports) cn acc.1).2.2
            rw [hcc, hci] at hm
            simpa using hm
          have hnone := discAll_ports_none cn (keysA ci.ports) acc.1 ni.driver.port
            (by rw [← hpk]; exact hport_mem) cc pi hcc hpi
          rw [hnone] at hpinet
          simp at hpinet
      refine ⟨⟨?_, ?_, ?_, ?_, ?_, hucd.1, hucd.2, ?_⟩, ?_⟩
      · exact ((discAll_keys cn (keysA ci.ports) acc.1).1).trans hkc
      · exact ((discAll_keys cn (keysA ci.ports) acc.1).2).trans hkn
      · intro k
        exact ((discAll_maps cn (keysA ci.ports) k acc.1).1).trans (htype k)
      · intro k
        exact ((discAll_maps cn (keysA ci.ports) k acc.1).2.1).trans (hnm k)
      · intro k cc hk hkiob
        have hkcn : k ≠ cn := by
          intro hkeq
          subst hkeq
          rw [hc0] at hk
          have : cc = c0 := (Option.some.inj hk).symm
          subst this
          rw [← hiobeq, hio] at hkiob
          simp at hkiob
        rw [discAll_frame cn (keysA ci.ports) k hkcn acc.1]
        exact hniob k cc hk hkiob
      · intro c hc
        rcases List.mem_append.mp hc with hold | hnew
        · exact discAll_noRefs cn (keysA ci.ports) c acc.1 (hpacked c hold)
        · have : c = ci.name := by simpa using hnew
          subst this
          rw [hciname]
          exact hnoRefs
      · rw [hik, hciname]
        simp
    · have hiofalse : is_nextpnr_iob ci = false := by
        cases hx : is_nextpnr_iob ci with
        | false => rfl
        | true => exact absurd hx hio
      have hik : iobKey N cn = false := by
        simp only [iobKey, hc0]
        show is_nextpnr_iob c0 = false
        rw [← hiobeq]
        exact hiofalse
      have hred : pack_io_step acc cn = acc := by
        simp only [pack_io_step, hci, hiofalse]
        simp
      rw [hred]
      refine ⟨⟨hkc, hkn, htype, hnm, hniob, huc, hdc, hpacked⟩, ?_⟩
      rw [hik]
      simp

theorem pack_io_fold_inv (N : Netlist) (hname : ∀ e ∈ N.cells, e.2.name = e.1) :
    ∀ (names : List String) (acc : Netlist × List String), PIOInv N acc →
      PIOInv N (names.foldl pack_io_step acc) ∧
      (names.foldl pack_io_step acc).2 = acc.2 ++ names.filter (iobKey N) := by
  intro names
  induction names with
  | nil =>
    intro acc hinv
    exact ⟨hinv, by simp⟩
  | cons cn rest ih =>
    intro acc hinv
    obtain ⟨hstep, hext⟩ := pack_io_step_inv N hname acc cn hinv
    obtain ⟨hfold, hext2⟩ := ih (pack_io_step acc cn) hstep
    refine ⟨hfold, ?_⟩
    simp only [List.foldl_cons]
    rw [hext2, hext, List.filter_cons]
    by_cases hk : iobKey N cn = true
    · rw [hk]
      simp
    · have hkf : iobKey N cn = false := by
        cases hx : iobKey N cn with
        | false => rfl
        | true => exact absurd hx hk
      rw [hkf]
      simp

/-- C8: the IO-elision pass deletes every placeholder `$nextpnr_ibuf` /
`$nextpnr_obuf` / `$nextpnr_iobuf` cell after disconnecting all of its
ports, severing every one of its connections (the deleted cell appears in
no surviving net's user list or driver); it removes or modifies no other
cell, creates no replacement cell, and deletes no net — a net left without
driver or users simply remains. -/
theorem pack_io_spec (N : Netlist)
    (hsc : SortedKeys N.cells)
    (hname : ∀ e ∈ N.cells, e.2.name = e.1)
    (huc : UsersConsistent N) (hdc : DriverConsistent N) :
    (∀ e ∈ N.cells, is_nextpnr_iob e.2 = true →
      lookupA (pack_io N).cells e.1 = none ∧
      ∀ n ni, lookupA (pack_io N).nets n = some ni →
        (∀ u ∈ ni.users, u.cell ≠ some e.1) ∧ ni.driver.cell ≠ some e.1) ∧
    (∀ e ∈ N.cells, is_nextpnr_iob e.2 = false →
      lookupA (pack_io N).cells e.1 = some e.2) ∧
    (∀ k, lookupA N.cells k = none → lookupA (pack_io N).cells k = none) ∧
    keysA (pack_io N).nets = keysA N.nets := by
  have hbase : PIOInv N (N, []) := by
    refine ⟨rfl, rfl, fun k => rfl, fun k => rfl, fun k cc h _ => h, huc, hdc, ?_⟩
    intro c hc
    simp at hc
  obtain ⟨hinv, hpk⟩ := pack_io_fold_inv N hname (keysA N.cells) (N, []) hbase
  obtain ⟨hkc, hkn, htype, hnm, hniob, -, -, hpacked⟩ := hinv
  have hpio : pack_io N =
      { ((keysA N.cells).foldl pack_io_step (N, [])).1 with
        cells := ((keysA N.cells).foldl pack_io_step (N, [])).2.foldl eraseA
          ((keysA N.cells).foldl pack_io_step (N, [])).1.cells } := rfl
  rw [List.nil_append] at hpk
  refine ⟨?_, ?_, ?_, ?_⟩
  · intro e he hiob
    have hlk : lookupA N.cells e.1 = some e.2 := lookupA_of_mem N.cells e hsc he
    have hkmem : e.1 ∈ keysA N.cells := List.mem_map.mpr ⟨e, he, rfl⟩
    have hik : iobKey N e.1 = true := by
      simp only [iobKey, hlk]
      exact hiob
    have hinpacked : e.1 ∈ ((keysA N.cells).foldl pack_io_step (N, [])).2 := by
      rw [hpk]
      exact List.mem_filter.mpr ⟨hkmem, hik⟩
    constructor
    · rw [hpio]
      show lookupA (((keysA N.cells).foldl pack_io_step (N, [])).2.foldl eraseA
        ((keysA N.cells).foldl pack_io_step (N, [])).1.cells) e.1 = none
      rw [lookupA_foldl_eraseA, if_pos hinpacked]
    · intro n ni hni
      have hnets : (pack_io N).nets = ((keysA N.cells).foldl pack_io_step (N, [])).1.nets :=
        rfl
      rw [hnets] at hni
      exact hpacked e.1 hinpacked n ni hni
  · intro e he hiob
    have hlk : lookupA N.cells e.1 = some e.2 := lookupA_of_mem N.cells e hsc he
    have hik : iobKey N e.1 = false := by
      simp only [iobKey, hlk]
      exact hiob
    have hnotpacked : e.1 ∉ ((keysA N.cells).foldl pack_io_step (N, [])).2 := by
      rw [hpk]
      intro hmem
      have := (List.mem_filter.mp hmem).2
      rw [hik] at this
      simp at this
    rw [hpio]
    show lookupA (((keysA N.cells).foldl pack_io_step (N, [])).2.foldl eraseA
      ((keysA N.cells).foldl pack_io_step (N, [])).1.cells) e.1 = some e.2
    rw [lookupA_foldl_eraseA, if_neg hnotpacked]
    exact hniob e.1 e.2 hlk hiob
  · intro k hk
    have hkn' : lookupA ((keysA N.cells).foldl pack_io_step (N, [])).1.cells k = none := by
      rw [lookupA_eq_none_iff, hkc, ← lookupA_eq_none_iff]
      exact hk
    rw [hpio]
    show lookupA (((keysA N.cells).foldl pack_io_step (N, [])).2.foldl eraseA
      ((keysA N.cells).foldl pack_io_step (N, [])).1.cells) k = none
    rw [lookupA_foldl_eraseA]
    by_cases hmem : k ∈ ((keysA N.cells).foldl pack_io_step (N, [])).2
    · rw [if_pos hmem]
    · rw [if_neg hmem]
      exact hkn'
  · rw [hpio]
    exact hkn

/-- A placeholder input buffer whose output net fans out to three
consumers. -/
def ioNetlist : Netlist :=
  { cells :=
      [("c1", CellInfo.mk "c1" "OTHER" [] [] [("I", ⟨some "w", PortDir.input⟩)]),
       ("c2", CellInfo.mk "c2" "OTHER" [] [] [("I", ⟨some "w", PortDir.input⟩)]),
       ("c3", CellInfo.mk "c3" "OTHER" [] [] [("I", ⟨some "w", PortDir.input⟩)]),
       ("ib", CellInfo.mk "ib" "$nextpnr_ibuf" [] [] [("O", ⟨some "w", PortDir.output⟩)])],
    nets :=
      [("w", NetInfo.mk "w" (PortRef.mk (some "ib") "O")
        [PortRef.mk (some "c1") "I", PortRef.mk (some "c2") "I",
         PortRef.mk (some "c3") "I"])] }

/-- Witness for C8 at `ioNetlist`. -/
theorem pack_io_spec_witness :
    (∀ e ∈ ioNetlist.cells, is_nextpnr_iob e.2 = true →
      lookupA (pack_io ioNetlist).cells e.1 = none ∧
      ∀ n ni, lookupA (pack_io ioNetlist).nets n = some ni →
        (∀ u ∈ ni.users, u.cell ≠ some e.1) ∧ ni.driver.cell ≠ some e.1) ∧
    (∀ e ∈ ioNetlist.cells, is_nextpnr_iob e.2 = false →
      lookupA (pack_io ioNetlist).cells e.1 = some e.2) ∧
    (∀ k, lookupA ioNetlist.cells k = none → lookupA (pack_io ioNetlist).cells k = none) ∧
    keysA (pack_io ioNetlist).nets = keysA ioNetlist.nets :=
  pack_io_spec ioNetlist (by decide) (by decide)
    (usersConsistentB_imp ioNetlist (by decide))
    (driverConsistentB_imp ioNetlist (by decide))

/-! ## General lemmas for the constant-packing pass -/

theorem lookupA_portAssign_self (ports : List (String × PortInfo)) (p nn : String)
    (h : (lookupA ports p).isSome = true) :
    lookupA (portAssign ports p nn) p =
      (lookupA ports p).map (fun pi => { pi with net := some nn }) := by
  cases hp : lookupA ports p with
  | none => rw [hp] at h; simp at h
  | some pi =>
    simp only [portAssign, hp]
    rw [lookupA_updateA_self, hp]

theorem lookupA_portAssign_ne (ports : List (String × PortInfo)) (p q nn : String)
    (h : q ≠ p) :
    lookupA (portAssign ports p nn) q = lookupA ports q := by
  cases hp : lookupA ports p with
  | none =>
    simp only [portAssign, hp]
    exact lookupA_insertA_ne ports p q _ h
  | some pi =>
    simp only [portAssign, hp]
    exact lookupA_updateA_ne ports p q _ h

theorem keysA_portAssign (ports : List (String × PortInfo)) (p nn : String)
    (h : (lookupA ports p).isSome = true) :
    keysA (portAssign ports p nn) = keysA ports := by
  cases hp : lookupA ports p with
  | none => rw [hp] at h; simp at h
  | some pi =>
    simp only [portAssign, hp]
    exact keysA_updateA ports p _

/-- One user-redirect step of `set_net_constant`. -/
def redirectUser (nn : String) (cs : List (String × CellInfo)) (u : PortRef) :
    List (String × CellInfo) :=
  match u.cell with
  | some c => updateA cs c (fun uc => { uc with ports := portAssign uc.ports u.port nn })
  | none => cs

theorem redirectUser_keys (nn : String) (cs : List (String × CellInfo)) (u : PortRef) :
    keysA (redirectUser nn cs u) = keysA cs := by
  cases hu : u.cell with
  | none => simp only [redirectUser, hu]
  | some c =>
    simp only [redirectUser, hu]
    exact keysA_updateA cs c _

theorem redirectFold_keys (nn : String) (users : List PortRef) :
    ∀ cs, keysA (users.foldl (redirectUser nn) cs) = keysA cs := by
  induction users with
  | nil => exact fun cs => rfl
  | cons u rest ih =>
    intro cs
    exact (ih (redirectUser nn cs u)).trans (redirectUser_keys nn cs u)

theorem redirectFold_none (nn : String) (users : List PortRef) :
    ∀ cs k, lookupA cs k = none → lookupA (users.foldl (redirectUser nn) cs) k = none := by
  intro cs k h
  rw [lookupA_eq_none_iff, redirectFold_keys, ← lookupA_eq_none_iff]
  exact h

theorem lookupA_portAssign_self_isSome (ports : List (String × PortInfo)) (p nn : String) :
    (lookupA (portAssign ports p nn) p).isSome = true := by
  cases hp : lookupA ports p with
  | none =>
    simp only [portAssign, hp]
    rw [lookupA_insertA_self]
    rfl
  | some pi =>
    simp only [portAssign, hp]
    rw [lookupA_updateA_self, hp]
    rfl


theorem redirectUser_shape (nn : String) (cs : List (String × CellInfo)) (u : PortRef)
    (k : String) (cc' : CellInfo) (h : lookupA (redirectUser nn cs u) k = some cc') :
    ∃ cc, lookupA cs k = some cc ∧
      (u.cell = some k → cc' = { cc with ports := portAssign cc.ports u.port nn }) ∧
      (u.cell ≠ some k → cc' = cc) := by
  cases hu : u.cell with
  | none =>
    simp only [redirectUser, hu] at h
    exact ⟨cc', h, fun hk => by simp at hk, fun _ => rfl⟩
  | some c =>
    simp only [redirectUser, hu] at h
    by_cases hck : c = k
    · subst hck
      rw [lookupA_updateA_self] at h
      cases hcs : lookupA cs c with
      | none => rw [hcs] at h; exact absurd h (by simp)
      | some cc =>
        rw [hcs] at h
        refine ⟨cc, rfl, fun _ => ?_, fun hk => absurd rfl hk⟩
        exact (Option.some.inj h).symm
    · rw [lookupA_updateA_ne cs c k _ (fun hh => hck hh.symm)] at h
      refine ⟨cc', h, fun hk => absurd (Option.some.inj hk) hck, fun _ => rfl⟩

theorem portInfo_set_twice (o : Option PortInfo) (nn : String) :
    (o.map (fun pi => { pi with net := some nn })).map (fun pi => { pi with net := some nn }) =
      o.map (fun pi => { pi with net := some nn }) := by
  cases o <;> rfl

theorem redirectFold_shape (nn : String) (users : List PortRef) :
    ∀ cs, (∀ u ∈ users, ∀ c, u.cell = some c → ∀ cc, lookupA cs c = some cc →
             (lookupA cc.ports u.port).isSome = true) →
    ∀ k cc', lookupA (users.foldl (redirectUser nn) cs) k = some cc' →
    ∃ cc, lookupA cs k = some cc ∧ cc'.name = cc.name ∧ cc'.type = cc.type ∧
      cc'.attrs = cc.attrs ∧ cc'.params = cc.params ∧ keysA cc'.ports = keysA cc.ports ∧
      ∀ p, lookupA cc'.ports p =
        (if PortRef.mk (some k) p ∈ users then
          (lookupA cc.ports p).map (fun pi => { pi with net := some nn })
        else lookupA cc.ports p) := by
  induction users with
  | nil =>
    intro cs _ k cc' h
    exact ⟨cc', h, rfl, rfl, rfl, rfl, rfl, fun p => by simp⟩
  | cons u rest ih =>
    intro cs husers k cc' h
    rw [List.foldl_cons] at h
    have husers1 : ∀ u' ∈ rest, ∀ c, u'.cell = some c →
        ∀ cc1, lookupA (redirectUser nn cs u) c = some cc1 →
        (lookupA cc1.ports u'.port).isSome = true := by
      intro u' hu' c hc cc1 hcc1
      obtain ⟨cc, hcc, hyes, hno⟩ := redirectUser_shape nn cs u c cc1 hcc1
      by_cases huc : u.cell = some c
      · rw [hyes huc]
        by_cases hpp : u'.port = u.port
        · rw [hpp]
          exact lookupA_portAssign_self_isSome cc.ports u.port nn
        · show (lookupA (portAssign cc.ports u.port nn) u'.port).isSome = true
          rw [lookupA_portAssign_ne cc.ports u.port u'.port nn hpp]
          exact husers u' (List.mem_cons_of_mem u hu') c hc cc hcc
      · rw [hno huc]
        exact husers u' (List.mem_cons_of_mem u hu') c hc cc hcc
    obtain ⟨cc1, hcc1, hname, htype, hattrs, hparams, hkeys, hports⟩ :=
      ih (redirectUser nn cs u) husers1 k cc' h
    obtain ⟨cc, hcc, hyes, hno⟩ := redirectUser_shape nn cs u k cc1 hcc1
    by_cases huk : u.cell = some k
    · have h1 := hyes huk
      simp only [h1] at hname htype hattrs hparams hkeys hports
      have hsome : (lookupA cc.ports u.port).isSome = true :=
        husers u (List.mem_cons_self u rest) k huk cc hcc
      refine ⟨cc, hcc, hname, htype, hattrs, hparams,
        hkeys.trans (keysA_portAssign cc.ports u.port nn hsome), ?_⟩
      intro p
      by_cases hpu : PortRef.mk (some k) p = u
      · have hpport : p = u.port := by rw [← hpu]
        rw [hports p]
        by_cases hmr : PortRef.mk (some k) p ∈ rest
        · rw [if_pos hmr, if_pos (List.mem_cons.mpr (Or.inl hpu))]
          rw [hpport, lookupA_portAssign_self cc.ports u.port nn hsome]
          exact portInfo_set_twice _ nn
        · rw [if_neg hmr, if_pos (List.mem_cons.mpr (Or.inl hpu))]
          rw [hpport]
          exact lookupA_portAssign_self cc.ports u.port nn hsome
      · have hpne : p ≠ u.port := by
          intro hpp
          apply hpu
          have huu : u = PortRef.mk (some k) u.port := by
            cases u with
            | mk c0 p0 => simp_all
          rw [huu, hpp]
        rw [hports p, lookupA_portAssign_ne cc.ports u.port p nn hpne]
        by_cases hmr : PortRef.mk (some k) p ∈ rest
        · rw [if_pos hmr, if_pos (List.mem_cons_of_mem u hmr)]
        · rw [if_neg hmr,
            if_neg (fun hm => (List.mem_cons.mp hm).elim hpu hmr)]
    · have h1 := hno huk
      simp only [h1] at hname htype hattrs hparams hkeys hports
      refine ⟨cc, hcc, hname, htype, hattrs, hparams, hkeys, ?_⟩
      intro p
      have hpu : PortRef.mk (some k) p ≠ u := by
        intro hpp
        apply huk
        rw [← hpp]
      rw [hports p]
      by_cases hmr : PortRef.mk (some k) p ∈ rest
      · rw [if_pos hmr, if_pos (List.mem_cons_of_mem u hmr)]
      · rw [if_neg hmr,
          if_neg (fun hm => (List.mem_cons.mp hm).elim hpu hmr)]

theorem sortedKeys_iff_keys {β : Type} (l : List (String × β)) :
    SortedKeys l ↔ List.Pairwise (fun a b => strLt a b = true) (keysA l) := by
  rw [SortedKeys, keysA, List.pairwise_map]

theorem sortedKeys_of_keysA_eq {β γ : Type} (l1 : List (String × β))
    (l2 : List (String × γ)) (h : keysA l1 = keysA l2) (hs : SortedKeys l2) :
    SortedKeys l1 := by
  rw [sortedKeys_iff_keys, h, ← sortedKeys_iff_keys]
  exact hs

/-- Net `n` is driven by a cell of type `ty` (in the reference netlist). -/
def drivenBy (N : Netlist) (n : String) (ty : String) : Prop :=
  ∃ ni dc dcell, lookupA N.nets n = some ni ∧ ni.driver.cell = some dc ∧
    lookupA N.cells dc = some dcell ∧ dcell.type = ty

/-- Net `n` is driven by a ground or supply cell. -/
def constDriven (N : Netlist) (n : String) : Prop :=
  drivenBy N n "GND" ∨ drivenBy N n "VCC"

/-- Cell `k` is the driver of some already-processed constant-driven net. -/
def erasedDrv (N : Netlist) (P : List String) (k : String) : Prop :=
  ∃ n ∈ P, constDriven N n ∧ ∃ ni, lookupA N.nets n = some ni ∧ ni.driver.cell = some k

/-- Port `p` of cell `k` is a user of an already-processed ground-driven
net. -/
def gndUserPair (N : Netlist) (P : List String) (k p : String) : Prop :=
  ∃ n ∈ P, drivenBy N n "GND" ∧ ∃ ni, lookupA N.nets n = some ni ∧
    PortRef.mk (some k) p ∈ ni.users

/-- Port `p` of cell `k` is a user of an already-processed supply-driven
net. -/
def vccUserPair (N : Netlist) (P : List String) (k p : String) : Prop :=
  ∃ n ∈ P, drivenBy N n "VCC" ∧ ∃ ni, lookupA N.nets n = some ni ∧
    PortRef.mk (some k) p ∈ ni.users

/-- The original net after merging: driver pointer cleared, user list
emptied. -/
def clearNet (ni : NetInfo) : NetInfo :=
  { ni with driver := { ni.driver with cell := none }, users := [] }

/-- Well-formedness hypotheses under which `pack_constants` is proved: sorted
maps, consistent user references, each cell drives at most one net, and no
user of a constant-driven net is itself a ground/supply cell. -/
def CPWF (N : Netlist) : Prop :=
  SortedKeys N.cells ∧ SortedKeys N.nets ∧
  UsersConsistent N ∧
  (∀ n m ni mi dc, lookupA N.nets n = some ni → lookupA N.nets m = some mi →
     ni.driver.cell = some dc → mi.driver.cell = some dc → n = m) ∧
  (∀ n, constDriven N n → ∀ ni, lookupA N.nets n = some ni → ∀ u ∈ ni.users,
     ∀ c, u.cell = some c → ∀ cc, lookupA N.cells c = some cc →
       cc.type ≠ "GND" ∧ cc.type ≠ "VCC")

theorem userPair_unique (N : Netlist) (huc : UsersConsistent N)
    (n1 n2 : String) (ni1 ni2 : NetInfo) (k p : String)
    (h1 : lookupA N.nets n1 = some ni1) (h2 : lookupA N.nets n2 = some ni2)
    (hm1 : PortRef.mk (some k) p ∈ ni1.users) (hm2 : PortRef.mk (some k) p ∈ ni2.users) :
    n1 = n2 := by
  obtain ⟨c1, hc1, cc1, hcc1, pi1, hpi1, hnet1⟩ := huc n1 ni1 h1 _ hm1
  obtain ⟨c2, hc2, cc2, hcc2, pi2, hpi2, hnet2⟩ := huc n2 ni2 h2 _ hm2
  have hck1 : c1 = k := Option.some.inj hc1.symm
  have hck2 : c2 = k := Option.some.inj hc2.symm
  subst hck1
  subst hck2
  rw [hcc1] at hcc2
  have hcc : cc1 = cc2 := Option.some.inj hcc2
  subst hcc
  rw [hpi1] at hpi2
  have hpi : pi1 = pi2 := Option.some.inj hpi2
  subst hpi
  rw [hnet1] at hnet2
  exact Option.some.inj hnet2

theorem drivenBy_not_both (N : Netlist) (n : String)
    (h1 : drivenBy N n "GND") (h2 : drivenBy N n "VCC") : False := by
  obtain ⟨ni1, dc1, dcell1, ha1, hb1, hc1, hd1⟩ := h1
  obtain ⟨ni2, dc2, dcell2, ha2, hb2, hc2, hd2⟩ := h2
  rw [ha1] at ha2
  have hni : ni1 = ni2 := Option.some.inj ha2
  subst hni
  rw [hb1] at hb2
  have hdc : dc1 = dc2 := Option.some.inj hb2
  subst hdc
  rw [hc1] at hc2
  have hce : dcell1 = dcell2 := Option.some.inj hc2
  subst hce
  rw [hd1] at hd2
  exact absurd hd2 (by decide)

theorem set_net_constant_some (st : Netlist) (n : String) (constnet : NetInfo)
    (ni : NetInfo) (h : lookupA st.nets n = some ni) :
    set_net_constant st n constnet =
      (Netlist.mk (ni.users.foldl (redirectUser constnet.name) st.cells)
         (updateA st.nets n clearNet),
       { constnet with
         users := constnet.users ++ ni.users.filter (fun u => u.cell.isSome) }) := by
  simp only [set_net_constant, h]
  rfl

/-- Loop invariant of the `pack_constants` net fold: `P` is the list of net
names already processed. -/
structure CPInv (N : Netlist) (P : List String) (acc : CPAcc) : Prop where
  sc : SortedKeys acc.st.cells
  sn : SortedKeys acc.st.nets
  nkeys : keysA acc.st.nets = keysA N.nets
  netsUn : ∀ n, n ∉ P → lookupA acc.st.nets n = lookupA N.nets n
  netsCleared : ∀ n ∈ P, ∀ ni, lookupA N.nets n = some ni → constDriven N n →
      lookupA acc.st.nets n = some (clearNet ni)
  netsSkip : ∀ n ∈ P, ¬ constDriven N n →
      lookupA acc.st.nets n = lookupA N.nets n
  cellsErased : ∀ k, erasedDrv N P k → lookupA acc.st.cells k = none
  cellsNone : ∀ k, ¬ erasedDrv N P k →
      (lookupA acc.st.cells k = none ↔ lookupA N.cells k = none)
  cellsShape : ∀ k, ¬ erasedDrv N P k → ∀ cc', lookupA acc.st.cells k = some cc' →
      ∃ cc0, lookupA N.cells k = some cc0 ∧ cc'.name = cc0.name ∧
        cc'.type = cc0.type ∧ cc'.attrs = cc0.attrs ∧ cc'.params = cc0.params ∧
        keysA cc'.ports = keysA cc0.ports ∧
        ∀ p, (gndUserPair N P k p → lookupA cc'.ports p =
                 (lookupA cc0.ports p).map
                   (fun pi => { pi with net := some "$PACKER_GND_NET" })) ∧
             (vccUserPair N P k p → lookupA cc'.ports p =
                 (lookupA cc0.ports p).map
                   (fun pi => { pi with net := some "$PACKER_VCC_NET" })) ∧
             (¬ gndUserPair N P k p → ¬ vccUserPair N P k p →
                 lookupA cc'.ports p = lookupA cc0.ports p)
  gndName : acc.gnd.name = "$PACKER_GND_NET"
  gndDriver : acc.gnd.driver = PortRef.mk (some "$PACKER_CONST") "F0"
  vccName : acc.vcc.name = "$PACKER_VCC_NET"
  vccDriver : acc.vcc.driver = PortRef.mk (some "$PACKER_CONST") "F1"
  gndUsers : ∀ n ∈ P, drivenBy N n "GND" → ∀ ni, lookupA N.nets n = some ni →
      ∀ u ∈ ni.users, u ∈ acc.gnd.users
  vccUsers : ∀ n ∈ P, drivenBy N n "VCC" → ∀ ni, lookupA N.nets n = some ni →
      ∀ u ∈ ni.users, u ∈ acc.vcc.users
  deadIff : ∀ n, n ∈ acc.dead ↔ (n ∈ P ∧ constDriven N n)

theorem erasedDrv_mono (N : Netlist) (P : List String) (n k : String)
    (h : erasedDrv N P k) : erasedDrv N (P ++ [n]) k := by
  obtain ⟨m, hm, hrest⟩ := h
  exact ⟨m, List.mem_append_left _ hm, hrest⟩

theorem erasedDrv_append_elim (N : Netlist) (P : List String) (n k : String)
    (hnc : ¬ constDriven N n) (h : erasedDrv N (P ++ [n]) k) : erasedDrv N P k := by
  obtain ⟨m, hm, hc, hrest⟩ := h
  rcases List.mem_append.mp hm with hm' | hm'
  · exact ⟨m, hm', hc, hrest⟩
  · have : m = n := List.mem_singleton.mp hm'
    subst this
    exact absurd hc hnc

theorem gndUserPair_mono (N : Netlist) (P : List String) (n k p : String)
    (h : gndUserPair N P k p) : gndUserPair N (P ++ [n]) k p := by
  obtain ⟨m, hm, hrest⟩ := h
  exact ⟨m, List.mem_append_left _ hm, hrest⟩

theorem gndUserPair_append_elim (N : Netlist) (P : List String) (n k p : String)
    (hnc : ¬ drivenBy N n "GND") (h : gndUserPair N (P ++ [n]) k p) :
    gndUserPair N P k p := by
  obtain ⟨m, hm, hc, hrest⟩ := h
  rcases List.mem_append.mp hm with hm' | hm'
  · exact ⟨m, hm', hc, hrest⟩
  · have : m = n := List.mem_singleton.mp hm'
    subst this
    exact absurd hc hnc

theorem vccUserPair_mono (N : Netlist) (P : List String) (n k p : String)
    (h : vccUserPair N P k p) : vccUserPair N (P ++ [n]) k p := by
  obtain ⟨m, hm, hrest⟩ := h
  exact ⟨m, List.mem_append_left _ hm, hrest⟩

theorem vccUserPair_append_elim (N : Netlist) (P : List String) (n k p : String)
    (hnc : ¬ drivenBy N n "VCC") (h : vccUserPair N (P ++ [n]) k p) :
    vccUserPair N P k p := by
  obtain ⟨m, hm, hc, hrest⟩ := h
  rcases List.mem_append.mp hm with hm' | hm'
  · exact ⟨m, hm', hc, hrest⟩
  · have : m = n := List.mem_singleton.mp hm'
    subst this
    exact absurd hc hnc

theorem cpInv_extend_skip (N : Netlist) (P : List String) (acc : CPAcc) (n : String)
    (hinv : CPInv N P acc) (hn : n ∉ P) (hnc : ¬ constDriven N n) :
    CPInv N (P ++ [n]) acc := by
  have hgnd : ¬ drivenBy N n "GND" := fun h => hnc (Or.inl h)
  have hvcc : ¬ drivenBy N n "VCC" := fun h => hnc (Or.inr h)
  refine ⟨hinv.sc, hinv.sn, hinv.nkeys, ?_, ?_, ?_, ?_, ?_, ?_,
    hinv.gndName, hinv.gndDriver, hinv.vccName, hinv.vccDriver, ?_, ?_, ?_⟩
  · intro m hm
    exact hinv.netsUn m (fun hmp => hm (List.mem_append_left _ hmp))
  · intro m hm ni hni hc
    rcases List.mem_append.mp hm with hm' | hm'
    · exact hinv.netsCleared m hm' ni hni hc
    · have : m = n := List.mem_singleton.mp hm'
      subst this
      exact absurd hc hnc
  · intro m hm hmc
    rcases List.mem_append.mp hm with hm' | hm'
    · exact hinv.netsSkip m hm' hmc
    · have : m = n := List.mem_singleton.mp hm'
      subst this
      exact hinv.netsUn m hn
  · intro k hk
    exact hinv.cellsErased k (erasedDrv_append_elim N P n k hnc hk)
  · intro k hk
    exact hinv.cellsNone k (fun h => hk (erasedDrv_mono N P n k h))
  · intro k hk cc' hcc'
    obtain ⟨cc0, hcc0, h1, h2, h3, h4, h5, h6⟩ :=
      hinv.cellsShape k (fun h => hk (erasedDrv_mono N P n k h)) cc' hcc'
    refine ⟨cc0, hcc0, h1, h2, h3, h4, h5, ?_⟩
    intro p
    refine ⟨?_, ?_, ?_⟩
    · intro hg
      exact (h6 p).1 (gndUserPair_append_elim N P n k p hgnd hg)
    · intro hv
      exact (h6 p).2.1 (vccUserPair_append_elim N P n k p hvcc hv)
    · intro hg hv
      exact (h6 p).2.2 (fun h => hg (gndUserPair_mono N P n k p h))
        (fun h => hv (vccUserPair_mono N P n k p h))
  · intro m hm hdm ni hni u hu
    rcases List.mem_append.mp hm with hm' | hm'
    · exact hinv.gndUsers m hm' hdm ni hni u hu
    · have : m = n := List.mem_singleton.mp hm'
      subst this
      exact absurd hdm hgnd
  · intro m hm hdm ni hni u hu
    rcases List.mem_append.mp hm with hm' | hm'
    · exact hinv.vccUsers m hm' hdm ni hni u hu
    · have : m = n := List.mem_singleton.mp hm'
      subst this
      exact absurd hdm hvcc
  · intro m
    rw [hinv.deadIff m]
    constructor
    · rintro ⟨hm, hc⟩
      exact ⟨List.mem_append_left _ hm, hc⟩
    · rintro ⟨hm, hc⟩
      rcases List.mem_append.mp hm with hm' | hm'
      · exact ⟨hm', hc⟩
      · have : m = n := List.mem_singleton.mp hm'
        subst this
        exact absurd hc hnc

theorem cpInv_step_gnd (N : Netlist) (hwf : CPWF N) (P : List String) (acc : CPAcc)
    (hinv : CPInv N P acc) (n : String) (hn : n ∉ P)
    (ni : NetInfo) (hni : lookupA N.nets n = some ni)
    (dc : String) (hdc : ni.driver.cell = some dc)
    (dcell0 : CellInfo) (hdcell0 : lookupA N.cells dc = some dcell0)
    (htype : dcell0.type = "GND") :
    CPInv N (P ++ [n])
      (CPAcc.mk
        (Netlist.mk
          (eraseA (ni.users.foldl (redirectUser acc.gnd.name) acc.st.cells) dc)
          (updateA acc.st.nets n clearNet))
        { acc.gnd with
          users := acc.gnd.users ++ ni.users.filter (fun u => u.cell.isSome) }
        acc.vcc (acc.dead ++ [n])) := by
  obtain ⟨hscN, hsnN, hucN, hinjN, hutN⟩ := hwf
  have hdrvG : drivenBy N n "GND" := ⟨ni, dc, dcell0, hni, hdc, hdcell0, htype⟩
  have hconst : constDriven N n := Or.inl hdrvG
  have hNVcc : ¬ drivenBy N n "VCC" := fun h => drivenBy_not_both N n hdrvG h
  have hUserNotErased : ∀ u ∈ ni.users, ∀ c, u.cell = some c → ¬ erasedDrv N P c := by
    intro u hu c hc hE
    obtain ⟨m, hm, hmc, mi, hmi, hmd⟩ := hE
    rcases hmc with hg | hv
    · obtain ⟨mi2, dc2, dcell2, ha, hb, hcl, hd⟩ := hg
      have e1 : mi2 = mi := Option.some.inj (ha.symm.trans hmi)
      rw [e1] at hb
      have e2 : dc2 = c := Option.some.inj (hb.symm.trans hmd)
      rw [e2] at hcl
      exact absurd hd ((hutN n hconst ni hni u hu c hc dcell2 hcl).1)
    · obtain ⟨mi2, dc2, dcell2, ha, hb, hcl, hd⟩ := hv
      have e1 : mi2 = mi := Option.some.inj (ha.symm.trans hmi)
      rw [e1] at hb
      have e2 : dc2 = c := Option.some.inj (hb.symm.trans hmd)
      rw [e2] at hcl
      exact absurd hd ((hutN n hconst ni hni u hu c hc dcell2 hcl).2)
  have husers : ∀ u ∈ ni.users, ∀ c, u.cell = some c →
      ∀ cc, lookupA acc.st.cells c = some cc →
      (lookupA cc.ports u.port).isSome = true := by
    intro u hu c hc cc hcc
    obtain ⟨c', hc', cc0, hcc0, pi0, hpi0, hnet0⟩ := hucN n ni hni u hu
    have e : c' = c := Option.some.inj (hc'.symm.trans hc)
    rw [e] at hcc0
    have hne := hUserNotErased u hu c hc
    obtain ⟨cc0', hcc0', _, _, _, _, _, hports⟩ := hinv.cellsShape c hne cc hcc
    have e2 : cc0' = cc0 := Option.some.inj (hcc0'.symm.trans hcc0)
    rw [e2] at hports
    obtain ⟨hgc, hvc, hnc2⟩ := hports u.port
    by_cases hg : gndUserPair N P c u.port
    · rw [hgc hg, hpi0]; rfl
    · by_cases hv : vccUserPair N P c u.port
      · rw [hvc hv, hpi0]; rfl
      · rw [hnc2 hg hv, hpi0]; rfl
  have hnotpair : ∀ u ∈ ni.users, ∀ c, u.cell = some c →
      ¬ gndUserPair N P c u.port ∧ ¬ vccUserPair N P c u.port := by
    intro u hu c hc
    have hun : PortRef.mk (some c) u.port ∈ ni.users := by
      have huu : u = PortRef.mk (some c) u.port := by
        cases u with
        | mk c0 p0 => simp_all
      rw [← huu]
      exact hu
    constructor
    · rintro ⟨m, hm, _, mi, hmi, hmu⟩
      have hnm := userPair_unique N hucN n m ni mi c u.port hni hmi hun hmu
      rw [hnm] at hn
      exact hn hm
    · rintro ⟨m, hm, _, mi, hmi, hmu⟩
      have hnm := userPair_unique N hucN n m ni mi c u.port hni hmi hun hmu
      rw [hnm] at hn
      exact hn hm
  have hpair_not_mem : ∀ (k p : String), gndUserPair N P k p ∨ vccUserPair N P k p →
      PortRef.mk (some k) p ∉ ni.users := by
    intro k p hup hmem
    rcases hup with ⟨m, hm, _, mi, hmi, hmu⟩ | ⟨m, hm, _, mi, hmi, hmu⟩
    · have hnm := userPair_unique N hucN n m ni mi k p hni hmi hmem hmu
      rw [hnm] at hn
      exact hn hm
    · have hnm := userPair_unique N hucN n m ni mi k p hni hmi hmem hmu
      rw [hnm] at hn
      exact hn hm
  have heq_acc_net : lookupA acc.st.nets n = some ni := by
    rw [hinv.netsUn n hn]
    exact hni
  have hkeysF : keysA (ni.users.foldl (redirectUser acc.gnd.name) acc.st.cells)
      = keysA acc.st.cells := redirectFold_keys _ _ _
  have hErasedDC : erasedDrv N (P ++ [n]) dc :=
    ⟨n, List.mem_append_right _ (List.mem_singleton.mpr rfl), hconst, ni, hni, hdc⟩
  refine ⟨?_, ?_, ?_, ?_, ?_, ?_, ?_, ?_, ?_, ?_, ?_, ?_, ?_, ?_, ?_, ?_⟩
  · exact sortedKeys_eraseA _ dc (sortedKeys_of_keysA_eq _ _ hkeysF hinv.sc)
  · exact sortedKeys_updateA _ n clearNet hinv.sn
  · exact (keysA_updateA _ n clearNet).trans hinv.nkeys
  · intro m hm
    have hmn : m ≠ n := fun h => hm (List.mem_append_right _ (List.mem_singleton.mpr h))
    have hmp : m ∉ P := fun h => hm (List.mem_append_left _ h)
    rw [lookupA_updateA_ne acc.st.nets n m clearNet hmn]
    exact hinv.netsUn m hmp
  · intro m hm ni' hni' hc
    rcases List.mem_append.mp hm with hm' | hm'
    · have hmn : m ≠ n := fun h => hn (h ▸ hm')
      rw [lookupA_updateA_ne acc.st.nets n m clearNet hmn]
      exact hinv.netsCleared m hm' ni' hni' hc
    · have hmn : m = n := List.mem_singleton.mp hm'
      rw [hmn] at hni' ⊢
      rw [lookupA_updateA_self, heq_acc_net]
      have e : ni' = ni := Option.some.inj (hni'.symm.trans hni)
      rw [e]
      rfl
  · intro m hm hmc
    rcases List.mem_append.mp hm with hm' | hm'
    · have hmn : m ≠ n := fun h => hn (h ▸ hm')
      rw [lookupA_updateA_ne acc.st.nets n m clearNet hmn]
      exact hinv.netsSkip m hm' hmc
    · have hmn : m = n := List.mem_singleton.mp hm'
      rw [hmn] at hmc
      exact absurd hconst hmc
  · intro k hk
    obtain ⟨m, hm, hmc, mi, hmi, hmd⟩ := hk
    rcases List.mem_append.mp hm with hm' | hm'
    · have hnone : lookupA acc.st.cells k = none :=
        hinv.cellsErased k ⟨m, hm', hmc, mi, hmi, hmd⟩
      have hnoneF : lookupA (ni.users.foldl (redirectUser acc.gnd.name) acc.st.cells) k
          = none := redirectFold_none _ _ _ k hnone
      by_cases hkdc : k = dc
      · rw [hkdc]
        exact lookupA_eraseA_self _ dc
      · rw [lookupA_eraseA_ne _ dc k hkdc]
        exact hnoneF
    · have hmn : m = n := List.mem_singleton.mp hm'
      rw [hmn] at hmi
      have e : mi = ni := Option.some.inj (hmi.symm.trans hni)
      rw [e] at hmd
      have e2 : k = dc := Option.some.inj (hmd.symm.trans hdc)
      rw [e2]
      exact lookupA_eraseA_self _ dc
  · intro k hk
    have hkdc : k ≠ dc := fun h => hk (h ▸ hErasedDC)
    rw [lookupA_eraseA_ne _ dc k hkdc]
    have hkeq : (lookupA (ni.users.foldl (redirectUser acc.gnd.name) acc.st.cells) k = none)
        ↔ (lookupA acc.st.cells k = none) := by
      rw [lookupA_eq_none_iff, lookupA_eq_none_iff, hkeysF]
    rw [hkeq]
    exact hinv.cellsNone k (fun h => hk (erasedDrv_mono N P n k h))
  · intro k hk cc' hcc'
    have hkdc : k ≠ dc := fun h => hk (h ▸ hErasedDC)
    rw [lookupA_eraseA_ne _ dc k hkdc] at hcc'
    have hkP : ¬ erasedDrv N P k := fun h => hk (erasedDrv_mono N P n k h)
    obtain ⟨ccA, hccA, hFname, hFtype, hFattrs, hFparams, hFkeys, hFports⟩ :=
      redirectFold_shape acc.gnd.name ni.users acc.st.cells husers k cc' hcc'
    obtain ⟨cc0, hcc0, hAname, hAtype, hAattrs, hAparams, hAkeys, hAports⟩ :=
      hinv.cellsShape k hkP ccA hccA
    refine ⟨cc0, hcc0, hFname.trans hAname, hFtype.trans hAtype, hFattrs.trans hAattrs,
      hFparams.trans hAparams, hFkeys.trans hAkeys, ?_⟩
    intro p
    obtain ⟨hAg, hAv, hAn⟩ := hAports p
    refine ⟨?_, ?_, ?_⟩
    · intro hg
      by_cases hmem : PortRef.mk (some k) p ∈ ni.users
      · rw [hFports p, if_pos hmem]
        have hnp := hnotpair (PortRef.mk (some k) p) hmem k rfl
        rw [hAn hnp.1 hnp.2, hinv.gndName]
      · have hgP : gndUserPair N P k p := by
          obtain ⟨m, hm, hdm, mi, hmi, hmu⟩ := hg
          rcases List.mem_append.mp hm with hm' | hm'
          · exact ⟨m, hm', hdm, mi, hmi, hmu⟩
          · have hmn : m = n := List.mem_singleton.mp hm'
            rw [hmn] at hmi
            have e : mi = ni := Option.some.inj (hmi.symm.trans hni)
            rw [e] at hmu
            exact absurd hmu hmem
        rw [hFports p, if_neg hmem]
        exact hAg hgP
    · intro hv
      have hvP : vccUserPair N P k p := by
        obtain ⟨m, hm, hdm, mi, hmi, hmu⟩ := hv
        rcases List.mem_append.mp hm with hm' | hm'
        · exact ⟨m, hm', hdm, mi, hmi, hmu⟩
        · have hmn : m = n := List.mem_singleton.mp hm'
          rw [hmn] at hdm
          exact absurd hdm hNVcc
      have hmem : PortRef.mk (some k) p ∉ ni.users :=
        hpair_not_mem k p (Or.inr hvP)
      rw [hFports p, if_neg hmem]
      exact hAv hvP
    · intro hg hv
      have hgP : ¬ gndUserPair N P k p := fun h => hg (gndUserPair_mono N P n k p h)
      have hvP : ¬ vccUserPair N P k p := fun h => hv (vccUserPair_mono N P n k p h)
      have hmem : PortRef.mk (some k) p ∉ ni.users := by
        intro hmem
        exact hg ⟨n, List.mem_append_right _ (List.mem_singleton.mpr rfl), hdrvG,
          ni, hni, hmem⟩
      rw [hFports p, if_neg hmem]
      exact hAn hgP hvP
  · exact hinv.gndName
  · exact hinv.gndDriver
  · exact hinv.vccName
  · exact hinv.vccDriver
  · intro m hm hdm mi hmi u hu
    rcases List.mem_append.mp hm with hm' | hm'
    · exact List.mem_append_left _ (hinv.gndUsers m hm' hdm mi hmi u hu)
    · have hmn : m = n := List.mem_singleton.mp hm'
      rw [hmn] at hmi
      have e : mi = ni := Option.some.inj (hmi.symm.trans hni)
      rw [e] at hu
      refine List.mem_append_right _ ?_
      rw [List.mem_filter]
      refine ⟨hu, ?_⟩
      obtain ⟨c, hc, _⟩ := hucN n ni hni u hu
      rw [hc]
      rfl
  · intro m hm hdm mi hmi u hu
    rcases List.mem_append.mp hm with hm' | hm'
    · exact hinv.vccUsers m hm' hdm mi hmi u hu
    · have hmn : m = n := List.mem_singleton.mp hm'
      rw [hmn] at hdm
      exact absurd hdm hNVcc
  · intro m
    constructor
    · intro hm
      rcases List.mem_append.mp hm with hm' | hm'
      · obtain ⟨hmp, hmc⟩ := (hinv.deadIff m).mp hm'
        exact ⟨List.mem_append_left _ hmp, hmc⟩
      · have hmn : m = n := List.mem_singleton.mp hm'
        rw [hmn]
        exact ⟨List.mem_append_right _ (List.mem_singleton.mpr rfl), hconst⟩
    · rintro ⟨hm, hmc⟩
      rcases List.mem_append.mp hm with hm' | hm'
      · exact List.mem_append_left _ ((hinv.deadIff m).mpr ⟨hm', hmc⟩)
      · exact List.mem_append_right _ hm'

theorem cpInv_step_vcc (N : Netlist) (hwf : CPWF N) (P : List String) (acc : CPAcc)
    (hinv : CPInv N P acc) (n : String) (hn : n ∉ P)
    (ni : NetInfo) (hni : lookupA N.nets n = some ni)
    (dc : String) (hdc : ni.driver.cell = some dc)
    (dcell0 : CellInfo) (hdcell0 : lookupA N.cells dc = some dcell0)
    (htype : dcell0.type = "VCC") :
    CPInv N (P ++ [n])
      (CPAcc.mk
        (Netlist.mk
          (eraseA (ni.users.foldl (redirectUser acc.vcc.name) acc.st.cells) dc)
          (updateA acc.st.nets n clearNet))
        acc.gnd
        { acc.vcc with
          users := acc.vcc.users ++ ni.users.filter (fun u => u.cell.isSome) }
        (acc.dead ++ [n])) := by
  obtain ⟨hscN, hsnN, hucN, hinjN, hutN⟩ := hwf
  have hdrvV : drivenBy N n "VCC" := ⟨ni, dc, dcell0, hni, hdc, hdcell0, htype⟩
  have hconst : constDriven N n := Or.inr hdrvV
  have hNGnd : ¬ drivenBy N n "GND" := fun h => drivenBy_not_both N n h hdrvV
  have hUserNotErased : ∀ u ∈ ni.users, ∀ c, u.cell = some c → ¬ erasedDrv N P c := by
    intro u hu c hc hE
    obtain ⟨m, hm, hmc, mi, hmi, hmd⟩ := hE
    rcases hmc with hg | hv
    · obtain ⟨mi2, dc2, dcell2, ha, hb, hcl, hd⟩ := hg
      have e1 : mi2 = mi := Option.some.inj (ha.symm.trans hmi)
      rw [e1] at hb
      have e2 : dc2 = c := Option.some.inj (hb.symm.trans hmd)
      rw [e2] at hcl
      exact absurd hd ((hutN n hconst ni hni u hu c hc dcell2 hcl).1)
    · obtain ⟨mi2, dc2, dcell2, ha, hb, hcl, hd⟩ := hv
      have e1 : mi2 = mi := Option.some.inj (ha.symm.trans hmi)
      rw [e1] at hb
      have e2 : dc2 = c := Option.some.inj (hb.symm.trans hmd)
      rw [e2] at hcl
      exact absurd hd ((hutN n hconst ni hni u hu c hc dcell2 hcl).2)
  have husers : ∀ u ∈ ni.users, ∀ c, u.cell = some c →
      ∀ cc, lookupA acc.st.cells c = some cc →
      (lookupA cc.ports u.port).isSome = true := by
    intro u hu c hc cc hcc
    obtain ⟨c', hc', cc0, hcc0, pi0, hpi0, hnet0⟩ := hucN n ni hni u hu
    have e : c' = c := Option.some.inj (hc'.symm.trans hc)
    rw [e] at hcc0
    have hne := hUserNotErased u hu c hc
    obtain ⟨cc0', hcc0', _, _, _, _, _, hports⟩ := hinv.cellsShape c hne cc hcc
    have e2 : cc0' = cc0 := Option.some.inj (hcc0'.symm.trans hcc0)
    rw [e2] at hports
    obtain ⟨hgc, hvc, hnc2⟩ := hports u.port
    by_cases hg : gndUserPair N P c u.port
    · rw [hgc hg, hpi0]; rfl
    · by_cases hv : vccUserPair N P c u.port
      · rw [hvc hv, hpi0]; rfl
      · rw [hnc2 hg hv, hpi0]; rfl
  have hnotpair : ∀ u ∈ ni.users, ∀ c, u.cell = some c →
      ¬ gndUserPair N P c u.port ∧ ¬ vccUserPair N P c u.port := by
    intro u hu c hc
    have hun : PortRef.mk (some c) u.port ∈ ni.users := by
      have huu : u = PortRef.mk (some c) u.port := by
        cases u with
        | mk c0 p0 => simp_all
      rw [← huu]
      exact hu
    constructor
    · rintro ⟨m, hm, _, mi, hmi, hmu⟩
      have hnm := userPair_unique N hucN n m ni mi c u.port hni hmi hun hmu
      rw [hnm] at hn
      exact hn hm
    · rintro ⟨m, hm, _, mi, hmi, hmu⟩
      have hnm := userPair_unique N hucN n m ni mi c u.port hni hmi hun hmu
      rw [hnm] at hn
      exact hn hm
  have hpair_not_mem : ∀ (k p : String), gndUserPair N P k p ∨ vccUserPair N P k p →
      PortRef.mk (some k) p ∉ ni.users := by
    intro k p hup hmem
    rcases hup with ⟨m, hm, _, mi, hmi, hmu⟩ | ⟨m, hm, _, mi, hmi, hmu⟩
    · have hnm := userPair_unique N hucN n m ni mi k p hni hmi hmem hmu
      rw [hnm] at hn
      exact hn hm
    · have hnm := userPair_unique N hucN n m ni mi k p hni hmi hmem hmu
      rw [hnm] at hn
      exact hn hm
  have heq_acc_net : lookupA acc.st.nets n = some ni := by
    rw [hinv.netsUn n hn]
    exact hni
  have hkeysF : keysA (ni.users.foldl (redirectUser acc.vcc.name) acc.st.cells)
      = keysA acc.st.cells := redirectFold_keys _ _ _
  have hErasedDC : erasedDrv N (P ++ [n]) dc :=
    ⟨n, List.mem_append_right _ (List.mem_singleton.mpr rfl), hconst, ni, hni, hdc⟩
  refine ⟨?_, ?_, ?_, ?_, ?_, ?_, ?_, ?_, ?_, ?_, ?_, ?_, ?_, ?_, ?_, ?_⟩
  · exact sortedKeys_eraseA _ dc (sortedKeys_of_keysA_eq _ _ hkeysF hinv.sc)
  · exact sortedKeys_updateA _ n clearNet hinv.sn
  · exact (keysA_updateA _ n clearNet).trans hinv.nkeys
  · intro m hm
    have hmn : m ≠ n := fun h => hm (List.mem_append_right _ (List.mem_singleton.mpr h))
    have hmp : m ∉ P := fun h => hm (List.mem_append_left _ h)
    rw [lookupA_updateA_ne acc.st.nets n m clearNet hmn]
    exact hinv.netsUn m hmp
  · intro m hm ni' hni' hc
    rcases List.mem_append.mp hm with hm' | hm'
    · have hmn : m ≠ n := fun h => hn (h ▸ hm')
      rw [lookupA_updateA_ne acc.st.nets n m clearNet hmn]
      exact hinv.netsCleared m hm' ni' hni' hc
    · have hmn : m = n := List.mem_singleton.mp hm'
      rw [hmn] at hni' ⊢
      rw [lookupA_updateA_self, heq_acc_net]
      have e : ni' = ni := Option.some.inj (hni'.symm.trans hni)
      rw [e]
      rfl
  · intro m hm hmc
    rcases List.mem_append.mp hm with hm' | hm'
    · have hmn : m ≠ n := fun h => hn (h ▸ hm')
      rw [lookupA_updateA_ne acc.st.nets n m clearNet hmn]
      exact hinv.netsSkip m hm' hmc
    · have hmn : m = n := List.mem_singleton.mp hm'
      rw [hmn] at hmc
      exact absurd hconst hmc
  · intro k hk
    obtain ⟨m, hm, hmc, mi, hmi, hmd⟩ := hk
    rcases List.mem_append.mp hm with hm' | hm'
    · have hnone : lookupA acc.st.cells k = none :=
        hinv.cellsErased k ⟨m, hm', hmc, mi, hmi, hmd⟩
      have hnoneF : lookupA (ni.users.foldl (redirectUser acc.vcc.name) acc.st.cells) k
          = none := redirectFold_none _ _ _ k hnone
      by_cases hkdc : k = dc
      · rw [hkdc]
        exact lookupA_eraseA_self _ dc
      · rw [lookupA_eraseA_ne _ dc k hkdc]
        exact hnoneF
    · have hmn : m = n := List.mem_singleton.mp hm'
      rw [hmn] at hmi
      have e : mi = ni := Option.some.inj (hmi.symm.trans hni)
      rw [e] at hmd
      have e2 : k = dc := Option.some.inj (hmd.symm.trans hdc)
      rw [e2]
      exact lookupA_eraseA_self _ dc
  · intro k hk
    have hkdc : k ≠ dc := fun h => hk (h ▸ hErasedDC)
    rw [lookupA_eraseA_ne _ dc k hkdc]
    have hkeq : (lookupA (ni.users.foldl (redirectUser acc.vcc.name) acc.st.cells) k = none)
        ↔ (lookupA acc.st.cells k = none) := by
      rw [lookupA_eq_none_iff, lookupA_eq_none_iff, hkeysF]
    rw [hkeq]
    exact hinv.cellsNone k (fun h => hk (erasedDrv_mono N P n k h))
  · intro k hk cc' hcc'
    have hkdc : k ≠ dc := fun h => hk (h ▸ hErasedDC)
    rw [lookupA_eraseA_ne _ dc k hkdc] at hcc'
    have hkP : ¬ erasedDrv N P k := fun h => hk (erasedDrv_mono N P n k h)
    obtain ⟨ccA, hccA, hFname, hFtype, hFattrs, hFparams, hFkeys, hFports⟩ :=
      redirectFold_shape acc.vcc.name ni.users acc.st.cells husers k cc' hcc'
    obtain ⟨cc0, hcc0, hAname, hAtype, hAattrs, hAparams, hAkeys, hAports⟩ :=
      hinv.cellsShape k hkP ccA hccA
    refine ⟨cc0, hcc0, hFname.trans hAname, hFtype.trans hAtype, hFattrs.trans hAattrs,
      hFparams.trans hAparams, hFkeys.trans hAkeys, ?_⟩
    intro p
    obtain ⟨hAg, hAv, hAn⟩ := hAports p
    refine ⟨?_, ?_, ?_⟩
    · intro hg
      have hgP : gndUserPair N P k p := by
        obtain ⟨m, hm, hdm, mi, hmi, hmu⟩ := hg
        rcases List.mem_append.mp hm with hm' | hm'
        · exact ⟨m, hm', hdm, mi, hmi, hmu⟩
        · have hmn : m = n := List.mem_singleton.mp hm'
          rw [hmn] at hdm
          exact absurd hdm hNGnd
      have hmem : PortRef.mk (some k) p ∉ ni.users :=
        hpair_not_mem k p (Or.inl hgP)
      rw [hFports p, if_neg hmem]
      exact hAg hgP
    · intro hv
      by_cases hmem : PortRef.mk (some k) p ∈ ni.users
      · rw [hFports p, if_pos hmem]
        have hnp := hnotpair (PortRef.mk (some k) p) hmem k rfl
        rw [hAn hnp.1 hnp.2, hinv.vccName]
      · have hvP : vccUserPair N P k p := by
          obtain ⟨m, hm, hdm, mi, hmi, hmu⟩ := hv
          rcases List.mem_append.mp hm with hm' | hm'
          · exact ⟨m, hm', hdm, mi, hmi, hmu⟩
          · have hmn : m = n := List.mem_singleton.mp hm'
            rw [hmn] at hmi
            have e : mi = ni := Option.some.inj (hmi.symm.trans hni)
            rw [e] at hmu
            exact absurd hmu hmem
        rw [hFports p, if_neg hmem]
        exact hAv hvP
    · intro hg hv
      have hgP : ¬ gndUserPair N P k p := fun h => hg (gndUserPair_mono N P n k p h)
      have hvP : ¬ vccUserPair N P k p := fun h => hv (vccUserPair_mono N P n k p h)
      have hmem : PortRef.mk (some k) p ∉ ni.users := by
        intro hmem
        exact hv ⟨n, List.mem_append_right _ (List.mem_singleton.mpr rfl), hdrvV,
          ni, hni, hmem⟩
      rw [hFports p, if_neg hmem]
      exact hAn hgP hvP
  · exact hinv.gndName
  · exact hinv.gndDriver
  · exact hinv.vccName
  · exact hinv.vccDriver
  · intro m hm hdm mi hmi u hu
    rcases List.mem_append.mp hm with hm' | hm'
    · exact hinv.gndUsers m hm' hdm mi hmi u hu
    · have hmn : m = n := List.mem_singleton.mp hm'
      rw [hmn] at hdm
      exact absurd hdm hNGnd
  · intro m hm hdm mi hmi u hu
    rcases List.mem_append.mp hm with hm' | hm'
    · exact List.mem_append_left _ (hinv.vccUsers m hm' hdm mi hmi u hu)
    · have hmn : m = n := List.mem_singleton.mp hm'
      rw [hmn] at hmi
      have e : mi = ni := Option.some.inj (hmi.symm.trans hni)
      rw [e] at hu
      refine List.mem_append_right _ ?_
      rw [List.mem_filter]
      refine ⟨hu, ?_⟩
      obtain ⟨c, hc, _⟩ := hucN n ni hni u hu
      rw [hc]
      rfl
  · intro m
    constructor
    · intro hm
      rcases List.mem_append.mp hm with hm' | hm'
      · obtain ⟨hmp, hmc⟩ := (hinv.deadIff m).mp hm'
        exact ⟨List.mem_append_left _ hmp, hmc⟩
      · have hmn : m = n := List.mem_singleton.mp hm'
        rw [hmn]
        exact ⟨List.mem_append_right _ (List.mem_singleton.mpr rfl), hconst⟩
    · rintro ⟨hm, hmc⟩
      rcases List.mem_append.mp hm with hm' | hm'
      · exact List.mem_append_left _ ((hinv.deadIff m).mpr ⟨hm', hmc⟩)
      · exact List.mem_append_right _ hm'

theorem cp_step_inv (N : Netlist) (hwf : CPWF N) (P : List String) (acc : CPAcc)
    (hinv : CPInv N P acc) (n : String) (hn : n ∉ P) :
    CPInv N (P ++ [n]) (cp_step acc n) := by
  have hinjN := hwf.2.2.2.1
  cases hni : lookupA acc.st.nets n with
  | none =>
    have hN : lookupA N.nets n = none := by
      rw [← hinv.netsUn n hn]
      exact hni
    have hnc : ¬ constDriven N n := by
      intro hc
      rcases hc with ⟨ni, dc, dcell, ha, _, _, _⟩ | ⟨ni, dc, dcell, ha, _, _, _⟩
      · rw [hN] at ha
        exact absurd ha (by simp)
      · rw [hN] at ha
        exact absurd ha (by simp)
    have hstep : cp_step acc n = acc := by simp only [cp_step, hni]
    rw [hstep]
    exact cpInv_extend_skip N P acc n hinv hn hnc
  | some ni =>
    have hN : lookupA N.nets n = some ni := by
      rw [← hinv.netsUn n hn]
      exact hni
    cases hdc : ni.driver.cell with
    | none =>
      have hnc : ¬ constDriven N n := by
        intro hc
        rcases hc with ⟨ni2, dc, dcell, ha, hb, _, _⟩ | ⟨ni2, dc, dcell, ha, hb, _, _⟩
        · have e : ni2 = ni := Option.some.inj (ha.symm.trans hN)
          rw [e, hdc] at hb
          exact absurd hb (by simp)
        · have e : ni2 = ni := Option.some.inj (ha.symm.trans hN)
          rw [e, hdc] at hb
          exact absurd hb (by simp)
      have hstep : cp_step acc n = acc := by simp only [cp_step, hni, hdc]
      rw [hstep]
      exact cpInv_extend_skip N P acc n hinv hn hnc
    | some dc =>
      cases hdcell : lookupA acc.st.cells dc with
      | none =>
        have hnc : ¬ constDriven N n := by
          intro hc
          have hdN : ∃ dcell0, lookupA N.cells dc = some dcell0 := by
            rcases hc with ⟨ni2, dc2, dcell0, ha, hb, hcl, _⟩ |
              ⟨ni2, dc2, dcell0, ha, hb, hcl, _⟩
            · have e : ni2 = ni := Option.some.inj (ha.symm.trans hN)
              rw [e] at hb
              have e2 : dc2 = dc := Option.some.inj (hb.symm.trans hdc)
              rw [e2] at hcl
              exact ⟨dcell0, hcl⟩
            · have e : ni2 = ni := Option.some.inj (ha.symm.trans hN)
              rw [e] at hb
              have e2 : dc2 = dc := Option.some.inj (hb.symm.trans hdc)
              rw [e2] at hcl
              exact ⟨dcell0, hcl⟩
          obtain ⟨dcell0, hcl⟩ := hdN
          by_cases hE : erasedDrv N P dc
          · obtain ⟨m, hm, hmc, mi, hmi, hmd⟩ := hE
            have hnm : n = m := hinjN n m ni mi dc hN hmi hdc hmd
            rw [hnm] at hn
            exact hn hm
          · have hcon := (hinv.cellsNone dc hE).mp hdcell
            rw [hcl] at hcon
            exact absurd hcon (by simp)
        have hstep : cp_step acc n = acc := by simp only [cp_step, hni, hdc, hdcell]
        rw [hstep]
        exact cpInv_extend_skip N P acc n hinv hn hnc
      | some dcell =>
        have hnE : ¬ erasedDrv N P dc := by
          intro hE
          have hcon := hinv.cellsErased dc hE
          rw [hdcell] at hcon
          exact absurd hcon (by simp)
        obtain ⟨dcell0, hdcell0, _, htypeEq, _, _, _, _⟩ :=
          hinv.cellsShape dc hnE dcell hdcell
        by_cases hg : dcell.type = "GND"
        · have htype0 : dcell0.type = "GND" := by
            rw [← htypeEq]
            exact hg
          have hstep : cp_step acc n =
              CPAcc.mk
                (Netlist.mk
                  (eraseA (ni.users.foldl (redirectUser acc.gnd.name) acc.st.cells) dc)
                  (updateA acc.st.nets n clearNet))
                { acc.gnd with
                  users := acc.gnd.users ++ ni.users.filter (fun u => u.cell.isSome) }
                acc.vcc (acc.dead ++ [n]) := by
            simp only [cp_step, hni, hdc, hdcell, if_pos hg,
              set_net_constant_some acc.st n acc.gnd ni hni]
          rw [hstep]
          exact cpInv_step_gnd N hwf P acc hinv n hn ni hN dc hdc dcell0 hdcell0 htype0
        · by_cases hv : dcell.type = "VCC"
          · have htype0 : dcell0.type = "VCC" := by
              rw [← htypeEq]
              exact hv
            have hstep : cp_step acc n =
                CPAcc.mk
                  (Netlist.mk
                    (eraseA (ni.users.foldl (redirectUser acc.vcc.name) acc.st.cells) dc)
                    (updateA acc.st.nets n clearNet))
                  acc.gnd
                  { acc.vcc with
                    users := acc.vcc.users ++ ni.users.filter (fun u => u.cell.isSome) }
                  (acc.dead ++ [n]) := by
              simp only [cp_step, hni, hdc, hdcell, if_neg hg, if_pos hv,
                set_net_constant_some acc.st n acc.vcc ni hni]
            rw [hstep]
            exact cpInv_step_vcc N hwf P acc hinv n hn ni hN dc hdc dcell0 hdcell0 htype0
          · have hnc : ¬ constDriven N n := by
              intro hc
              rcases hc with ⟨ni2, dc2, dcell2, ha, hb, hcl, hd⟩ |
                ⟨ni2, dc2, dcell2, ha, hb, hcl, hd⟩
              · have e : ni2 = ni := Option.some.inj (ha.symm.trans hN)
                rw [e] at hb
                have e2 : dc2 = dc := Option.some.inj (hb.symm.trans hdc)
                rw [e2] at hcl
                have e3 : dcell2 = dcell0 := Option.some.inj (hcl.symm.trans hdcell0)
                rw [e3] at hd
                exact hg (htypeEq.trans hd)
              · have e : ni2 = ni := Option.some.inj (ha.symm.trans hN)
                rw [e] at hb
                have e2 : dc2 = dc := Option.some.inj (hb.symm.trans hdc)
                rw [e2] at hcl
                have e3 : dcell2 = dcell0 := Option.some.inj (hcl.symm.trans hdcell0)
                rw [e3] at hd
                exact hv (htypeEq.trans hd)
            have hstep : cp_step acc n = acc := by
              simp only [cp_step, hni, hdc, hdcell, if_neg hg, if_neg hv]
            rw [hstep]
            exact cpInv_extend_skip N P acc n hinv hn hnc

theorem cp_fold_inv (N : Netlist) (hwf : CPWF N) :
    ∀ (names : List String) (P : List String) (acc : CPAcc),
      CPInv N P acc → (∀ n ∈ names, n ∉ P) → names.Nodup →
      CPInv N (P ++ names) (names.foldl cp_step acc) := by
  intro names
  induction names with
  | nil =>
    intro P acc hinv _ _
    simpa using hinv
  | cons n rest ih =>
    intro P acc hinv hfresh hnd
    rw [List.foldl_cons]
    have h1 : CPInv N (P ++ [n]) (cp_step acc n) :=
      cp_step_inv N hwf P acc hinv n (hfresh n (List.mem_cons_self n rest))
    have hfresh' : ∀ m ∈ rest, m ∉ P ++ [n] := by
      intro m hm hmem
      rcases List.mem_append.mp hmem with h' | h'
      · exact hfresh m (List.mem_cons_of_mem n hm) h'
      · have hmn : m = n := List.mem_singleton.mp h'
        rw [List.nodup_cons] at hnd
        exact hnd.1 (hmn ▸ hm)
    have hnd' : rest.Nodup := (List.nodup_cons.mp hnd).2
    have h2 := ih (P ++ [n]) (cp_step acc n) h1 hfresh' hnd'
    rw [List.append_assoc] at h2
    exact h2

/-- The ground and supply nets as first created by `pack_constants`. -/
def packerGnd0 : NetInfo :=
  NetInfo.mk "$PACKER_GND_NET" (PortRef.mk (some "$PACKER_CONST") "F0") []

def packerVcc0 : NetInfo :=
  NetInfo.mk "$PACKER_VCC_NET" (PortRef.mk (some "$PACKER_CONST") "F1") []

/-- The `$PACKER_CONST` slice cell installed by `pack_constants`. -/
def packerConstCell : CellInfo :=
  let c0 := create_machxo2_cell "FACADE_SLICE" "$PACKER_CONST"
  let c1 : CellInfo :=
    { c0 with
      params := insertA (insertA c0.params "LUT0_INITVAL" (0, 16)) "LUT1_INITVAL" (65535, 16) }
  let c2 : CellInfo :=
    { c1 with
      ports := updateA c1.ports "F0" (fun p => { p with net := some "$PACKER_GND_NET" }) }
  { c2 with
    ports := updateA c2.ports "F1" (fun p => { p with net := some "$PACKER_VCC_NET" }) }

theorem pack_constants_unfold (N : Netlist) :
    pack_constants N =
      Netlist.mk
        (insertA ((keysA N.nets).foldl cp_step (CPAcc.mk N packerGnd0 packerVcc0 [])).st.cells
          "$PACKER_CONST" packerConstCell)
        (((keysA N.nets).foldl cp_step (CPAcc.mk N packerGnd0 packerVcc0 [])).dead.foldl eraseA
          (insertA
            (insertA
              ((keysA N.nets).foldl cp_step (CPAcc.mk N packerGnd0 packerVcc0 [])).st.nets
              "$PACKER_GND_NET"
              ((keysA N.nets).foldl cp_step (CPAcc.mk N packerGnd0 packerVcc0 [])).gnd)
            "$PACKER_VCC_NET"
            ((keysA N.nets).foldl cp_step (CPAcc.mk N packerGnd0 packerVcc0 [])).vcc)) := rfl

theorem cpInv_init (N : Netlist) (hwf : CPWF N) :
    CPInv N [] (CPAcc.mk N packerGnd0 packerVcc0 []) := by
  refine ⟨hwf.1, hwf.2.1, rfl, fun n _ => rfl, ?_, ?_, ?_, ?_, ?_, rfl, rfl, rfl, rfl,
    ?_, ?_, ?_⟩
  · intro n hn
    simp at hn
  · intro n hn
    simp at hn
  · intro k hk
    obtain ⟨m, hm, _⟩ := hk
    simp at hm
  · intro k _
    exact Iff.rfl
  · intro k _ cc' hcc'
    refine ⟨cc', hcc', rfl, rfl, rfl, rfl, rfl, ?_⟩
    intro p
    refine ⟨?_, ?_, fun _ _ => rfl⟩
    · rintro ⟨m, hm, _⟩
      simp at hm
    · rintro ⟨m, hm, _⟩
      simp at hm
  · intro n hn
    simp at hn
  · intro n hn
    simp at hn
  · intro n
    simp

theorem pack_constants_cells (N : Netlist) :
    (pack_constants N).cells =
      insertA ((keysA N.nets).foldl cp_step (CPAcc.mk N packerGnd0 packerVcc0 [])).st.cells
        "$PACKER_CONST" packerConstCell := rfl

theorem pack_constants_nets (N : Netlist) :
    (pack_constants N).nets =
      ((keysA N.nets).foldl cp_step (CPAcc.mk N packerGnd0 packerVcc0 [])).dead.foldl eraseA
        (insertA
          (insertA
            ((keysA N.nets).foldl cp_step (CPAcc.mk N packerGnd0 packerVcc0 [])).st.nets
            "$PACKER_GND_NET"
            ((keysA N.nets).foldl cp_step (CPAcc.mk N packerGnd0 packerVcc0 [])).gnd)
          "$PACKER_VCC_NET"
          ((keysA N.nets).foldl cp_step (CPAcc.mk N packerGnd0 packerVcc0 [])).vcc) := rfl

/-- **C2**: for every well-formed input netlist with no name collisions on the
packer's reserved names, after `pack_constants` there is exactly one synthetic
constant-source cell (`$PACKER_CONST`, a slice) exposing the logic-0 net
`$PACKER_GND_NET` (driven from its `F0`) and the logic-1 net
`$PACKER_VCC_NET` (driven from its `F1`), no matter how many `GND`/`VCC`
cells the input contained; every port that was a user of a net driven by a
ground (resp. supply) cell is afterwards a user of the single ground
(resp. supply) constant net and its cell's port points at it; and all
original ground/supply driver cells and their merged nets no longer exist. -/
theorem pack_constants_spec (N : Netlist) (hwf : CPWF N)
    (hnoc : lookupA N.cells "$PACKER_CONST" = none)
    (hnog : lookupA N.nets "$PACKER_GND_NET" = none)
    (hnov : lookupA N.nets "$PACKER_VCC_NET" = none) :
    ((lookupA (pack_constants N).cells "$PACKER_CONST").map CellInfo.type =
        some "FACADE_SLICE" ∧
      (keysA (pack_constants N).cells).count "$PACKER_CONST" = 1 ∧
      (∃ g, lookupA (pack_constants N).nets "$PACKER_GND_NET" = some g ∧
        g.driver = PortRef.mk (some "$PACKER_CONST") "F0") ∧
      (∃ v, lookupA (pack_constants N).nets "$PACKER_VCC_NET" = some v ∧
        v.driver = PortRef.mk (some "$PACKER_CONST") "F1")) ∧
    (∀ n ni, lookupA N.nets n = some ni → drivenBy N n "GND" →
      ∀ u ∈ ni.users, ∀ c, u.cell = some c →
        (∀ g, lookupA (pack_constants N).nets "$PACKER_GND_NET" = some g →
          u ∈ g.users) ∧
        (∃ cc, lookupA (pack_constants N).cells c = some cc ∧
          ∃ pi, lookupA cc.ports u.port = some pi ∧
            pi.net = some "$PACKER_GND_NET")) ∧
    (∀ n ni, lookupA N.nets n = some ni → drivenBy N n "VCC" →
      ∀ u ∈ ni.users, ∀ c, u.cell = some c →
        (∀ v, lookupA (pack_constants N).nets "$PACKER_VCC_NET" = some v →
          u ∈ v.users) ∧
        (∃ cc, lookupA (pack_constants N).cells c = some cc ∧
          ∃ pi, lookupA cc.ports u.port = some pi ∧
            pi.net = some "$PACKER_VCC_NET")) ∧
    (∀ n ni, lookupA N.nets n = some ni → constDriven N n →
      ∀ dc, ni.driver.cell = some dc →
        lookupA (pack_constants N).cells dc = none) ∧
    (∀ n, constDriven N n → lookupA (pack_constants N).nets n = none) := by
  have hsnN := hwf.2.1
  have hucN := hwf.2.2.1
  have hutN := hwf.2.2.2.2
  have hinv : CPInv N (keysA N.nets)
      ((keysA N.nets).foldl cp_step (CPAcc.mk N packerGnd0 packerVcc0 [])) := by
    have h := cp_fold_inv N hwf (keysA N.nets) [] (CPAcc.mk N packerGnd0 packerVcc0 [])
      (cpInv_init N hwf) (fun n _ hmem => by simp at hmem) (keysA_nodup N.nets hsnN)
    simpa using h
  rw [pack_constants_cells, pack_constants_nets]
  set acc := (keysA N.nets).foldl cp_step (CPAcc.mk N packerGnd0 packerVcc0 []) with hacc
  have hmemk : ∀ n (ni : NetInfo), lookupA N.nets n = some ni → n ∈ keysA N.nets := by
    intro n ni h
    by_contra hcon
    have hnone := (lookupA_eq_none_iff N.nets n).mpr hcon
    rw [hnone] at h
    exact absurd h (by simp)
  have hGnotdead : "$PACKER_GND_NET" ∉ acc.dead := by
    intro h
    obtain ⟨hmem, _⟩ := (hinv.deadIff _).mp h
    exact (lookupA_eq_none_iff N.nets _).mp hnog hmem
  have hVnotdead : "$PACKER_VCC_NET" ∉ acc.dead := by
    intro h
    obtain ⟨hmem, _⟩ := (hinv.deadIff _).mp h
    exact (lookupA_eq_none_iff N.nets _).mp hnov hmem
  have hgndlookup : lookupA (acc.dead.foldl eraseA
      (insertA (insertA acc.st.nets "$PACKER_GND_NET" acc.gnd) "$PACKER_VCC_NET" acc.vcc))
      "$PACKER_GND_NET" = some acc.gnd := by
    rw [lookupA_foldl_eraseA, if_neg hGnotdead,
      lookupA_insertA_ne _ "$PACKER_VCC_NET" _ _ (by decide), lookupA_insertA_self]
  have hvcclookup : lookupA (acc.dead.foldl eraseA
      (insertA (insertA acc.st.nets "$PACKER_GND_NET" acc.gnd) "$PACKER_VCC_NET" acc.vcc))
      "$PACKER_VCC_NET" = some acc.vcc := by
    rw [lookupA_foldl_eraseA, if_neg hVnotdead, lookupA_insertA_self]
  have hErasedNotUser : ∀ n ni, lookupA N.nets n = some ni → constDriven N n →
      ∀ u ∈ ni.users, ∀ c, u.cell = some c → ¬ erasedDrv N (keysA N.nets) c := by
    intro n ni hni hconst u hu c hc hE
    obtain ⟨m, hm, hmc, mi, hmi, hmd⟩ := hE
    rcases hmc with hgx | hvx
    · obtain ⟨mi2, dc2, dcell2, ha, hb, hcl, hd⟩ := hgx
      have e1 : mi2 = mi := Option.some.inj (ha.symm.trans hmi)
      rw [e1] at hb
      have e2 : dc2 = c := Option.some.inj (hb.symm.trans hmd)
      rw [e2] at hcl
      exact absurd hd ((hutN n hconst ni hni u hu c hc dcell2 hcl).1)
    · obtain ⟨mi2, dc2, dcell2, ha, hb, hcl, hd⟩ := hvx
      have e1 : mi2 = mi := Option.some.inj (ha.symm.trans hmi)
      rw [e1] at hb
      have e2 : dc2 = c := Option.some.inj (hb.symm.trans hmd)
      rw [e2] at hcl
      exact absurd hd ((hutN n hconst ni hni u hu c hc dcell2 hcl).2)
  refine ⟨⟨?_, ?_, ?_, ?_⟩, ?_, ?_, ?_, ?_⟩
  · rw [lookupA_insertA_self]
    rfl
  · have hsorted : SortedKeys (insertA acc.st.cells "$PACKER_CONST" packerConstCell) :=
      sortedKeys_insertA _ _ _ hinv.sc
    have hnd := keysA_nodup _ hsorted
    have hmem : "$PACKER_CONST" ∈
        keysA (insertA acc.st.cells "$PACKER_CONST" packerConstCell) :=
      (mem_keysA_insertA _ _ _ _).mpr (Or.inl rfl)
    exact List.count_eq_one_of_mem hnd hmem
  · exact ⟨acc.gnd, hgndlookup, hinv.gndDriver⟩
  · exact ⟨acc.vcc, hvcclookup, hinv.vccDriver⟩
  · intro n ni hni hdrv u hu c hc
    have hconst : constDriven N n := Or.inl hdrv
    have hk : n ∈ keysA N.nets := hmemk n ni hni
    constructor
    · intro g hg
      rw [hgndlookup] at hg
      rw [← Option.some.inj hg]
      exact hinv.gndUsers n hk hdrv ni hni u hu
    · have hnE : ¬ erasedDrv N (keysA N.nets) c :=
        hErasedNotUser n ni hni hconst u hu c hc
      obtain ⟨c', hc', cc0, hcc0, pi0, hpi0, hnet0⟩ := hucN n ni hni u hu
      have e : c' = c := Option.some.inj (hc'.symm.trans hc)
      rw [e] at hcc0
      have hsomeacc : ∃ cc, lookupA acc.st.cells c = some cc := by
        cases hcacc : lookupA acc.st.cells c with
        | none =>
          have hcon := (hinv.cellsNone c hnE).mp hcacc
          rw [hcc0] at hcon
          exact absurd hcon (by simp)
        | some cc => exact ⟨cc, rfl⟩
      obtain ⟨cc, hcacc⟩ := hsomeacc
      obtain ⟨cc0', hcc0', _, _, _, _, _, hports⟩ := hinv.cellsShape c hnE cc hcacc
      have e2 : cc0' = cc0 := Option.some.inj (hcc0'.symm.trans hcc0)
      rw [e2] at hports
      have hcneq : c ≠ "$PACKER_CONST" := by
        intro hcc
        rw [hcc, hnoc] at hcc0
        exact absurd hcc0 (by simp)
      refine ⟨cc, ?_, ?_⟩
      · rw [lookupA_insertA_ne _ "$PACKER_CONST" c _ hcneq]
        exact hcacc
      · have hun : PortRef.mk (some c) u.port ∈ ni.users := by
          have huu : u = PortRef.mk (some c) u.port := by
            cases u with
            | mk c0 p0 => simp_all
          rw [← huu]
          exact hu
        have hgp : gndUserPair N (keysA N.nets) c u.port := ⟨n, hk, hdrv, ni, hni, hun⟩
        obtain ⟨hAg, _, _⟩ := hports u.port
        rw [hAg hgp, hpi0]
        exact ⟨{ pi0 with net := some "$PACKER_GND_NET" }, rfl, rfl⟩
  · intro n ni hni hdrv u hu c hc
    have hconst : constDriven N n := Or.inr hdrv
    have hk : n ∈ keysA N.nets := hmemk n ni hni
    constructor
    · intro v hv
      rw [hvcclookup] at hv
      rw [← Option.some.inj hv]
      exact hinv.vccUsers n hk hdrv ni hni u hu
    · have hnE : ¬ erasedDrv N (keysA N.nets) c :=
        hErasedNotUser n ni hni hconst u hu c hc
      obtain ⟨c', hc', cc0, hcc0, pi0, hpi0, hnet0⟩ := hucN n ni hni u hu
      have e : c' = c := Option.some.inj (hc'.symm.trans hc)
      rw [e] at hcc0
      have hsomeacc : ∃ cc, lookupA acc.st.cells c = some cc := by
        cases hcacc : lookupA acc.st.cells c with
        | none =>
          have hcon := (hinv.cellsNone c hnE).mp hcacc
          rw [hcc0] at hcon
          exact absurd hcon (by simp)
        | some cc => exact ⟨cc, rfl⟩
      obtain ⟨cc, hcacc⟩ := hsomeacc
      obtain ⟨cc0', hcc0', _, _, _, _, _, hports⟩ := hinv.cellsShape c hnE cc hcacc
      have e2 : cc0' = cc0 := Option.some.inj (hcc0'.symm.trans hcc0)
      rw [e2] at hports
      have hcneq : c ≠ "$PACKER_CONST" := by
        intro hcc
        rw [hcc, hnoc] at hcc0
        exact absurd hcc0 (by simp)
      refine ⟨cc, ?_, ?_⟩
      · rw [lookupA_insertA_ne _ "$PACKER_CONST" c _ hcneq]
        exact hcacc
      · have hun : PortRef.mk (some c) u.port ∈ ni.users := by
          have huu : u = PortRef.mk (some c) u.port := by
            cases u with
            | mk c0 p0 => simp_all
          rw [← huu]
          exact hu
        have hvp : vccUserPair N (keysA N.nets) c u.port := ⟨n, hk, hdrv, ni, hni, hun⟩
        obtain ⟨_, hAv, _⟩ := hports u.port
        rw [hAv hvp, hpi0]
        exact ⟨{ pi0 with net := some "$PACKER_VCC_NET" }, rfl, rfl⟩
  · intro n ni hni hconst dc hdc
    have hk : n ∈ keysA N.nets := hmemk n ni hni
    have hE : erasedDrv N (keysA N.nets) dc := ⟨n, hk, hconst, ni, hni, hdc⟩
    have hnone := hinv.cellsErased dc hE
    have hdcneq : dc ≠ "$PACKER_CONST" := by
      intro hdcc
      rcases hconst with ⟨ni2, dc2, dcell2, ha, hb, hcl, _⟩ |
        ⟨ni2, dc2, dcell2, ha, hb, hcl, _⟩
      · have e : ni2 = ni := Option.some.inj (ha.symm.trans hni)
        rw [e] at hb
        have e2 : dc2 = dc := Option.some.inj (hb.symm.trans hdc)
        rw [e2, hdcc, hnoc] at hcl
        exact absurd hcl (by simp)
      · have e : ni2 = ni := Option.some.inj (ha.symm.trans hni)
        rw [e] at hb
        have e2 : dc2 = dc := Option.some.inj (hb.symm.trans hdc)
        rw [e2, hdcc, hnoc] at hcl
        exact absurd hcl (by simp)
    rw [lookupA_insertA_ne _ "$PACKER_CONST" dc _ hdcneq]
    exact hnone
  · intro n hconst
    have hk : n ∈ keysA N.nets := by
      rcases hconst with ⟨ni2, dc2, dcell2, ha, _, _, _⟩ | ⟨ni2, dc2, dcell2, ha, _, _, _⟩
      · exact hmemk n ni2 ha
      · exact hmemk n ni2 ha
    have hdead : n ∈ acc.dead := (hinv.deadIff n).mpr ⟨hk, hconst⟩
    rw [lookupA_foldl_eraseA, if_pos hdead]

/-- Entry-wise (decidable) form of the driver-injectivity hypothesis of
`CPWF`. -/
def DriverInjB (N : Netlist) : Prop :=
  ∀ e1 ∈ N.nets, ∀ e2 ∈ N.nets, e1.2.driver.cell.isSome = true →
    e1.2.driver.cell = e2.2.driver.cell → e1.1 = e2.1

instance (N : Netlist) : Decidable (DriverInjB N) := by
  unfold DriverInjB
  infer_instance

/-- Entry-wise (decidable) form of the `CPWF` clause that no user of a
constant-driven net is itself a ground/supply cell. -/
def ConstUserTypesB (N : Netlist) : Prop :=
  ∀ e ∈ N.nets, ∀ d ∈ N.cells, e.2.driver.cell = some d.1 →
    (d.2.type = "GND" ∨ d.2.type = "VCC") →
    ∀ u ∈ e.2.users, ∀ c ∈ N.cells, u.cell = some c.1 →
      c.2.type ≠ "GND" ∧ c.2.type ≠ "VCC"

instance (N : Netlist) : Decidable (ConstUserTypesB N) := by
  unfold ConstUserTypesB
  infer_instance

theorem cpwf_of_B (N : Netlist) (h1 : SortedKeys N.cells) (h2 : SortedKeys N.nets)
    (h3 : UsersConsistentB N) (h4 : DriverInjB N) (h5 : ConstUserTypesB N) :
    CPWF N := by
  refine ⟨h1, h2, usersConsistentB_imp N h3, ?_, ?_⟩
  · intro n m ni mi dc hn hm hnd hmd
    have hmem1 := mem_of_lookupA N.nets n ni hn
    have hmem2 := mem_of_lookupA N.nets m mi hm
    have hs : ni.driver.cell.isSome = true := by
      rw [hnd]
      rfl
    have heq : ni.driver.cell = mi.driver.cell := by
      rw [hnd, hmd]
    exact h4 (n, ni) hmem1 (m, mi) hmem2 hs heq
  · intro n hconst ni hni u hu c hc cc hcc
    have hmemN := mem_of_lookupA N.nets n ni hni
    have hmemC := mem_of_lookupA N.cells c cc hcc
    rcases hconst with ⟨ni2, dc2, dcell2, ha, hb, hcl, hd⟩ |
      ⟨ni2, dc2, dcell2, ha, hb, hcl, hd⟩
    · have e : ni2 = ni := Option.some.inj (ha.symm.trans hni)
      rw [e] at hb
      have hmemD := mem_of_lookupA N.cells dc2 dcell2 hcl
      exact h5 (n, ni) hmemN (dc2, dcell2) hmemD hb (Or.inl hd) u hu (c, cc) hmemC hc
    · have e : ni2 = ni := Option.some.inj (ha.symm.trans hni)
      rw [e] at hb
      have hmemD := mem_of_lookupA N.cells dc2 dcell2 hcl
      exact h5 (n, ni) hmemN (dc2, dcell2) hmemD hb (Or.inr hd) u hu (c, cc) hmemC hc

/-- The spec's constant-packing scenario: three independent nets, each driven
by a distinct ground cell, each with one consumer. -/
def cpWitnessN : Netlist :=
  Netlist.mk
    [("g1", ⟨"g1", "GND", [], [], [("O", ⟨some "n1", PortDir.output⟩)]⟩),
     ("g2", ⟨"g2", "GND", [], [], [("O", ⟨some "n2", PortDir.output⟩)]⟩),
     ("g3", ⟨"g3", "GND", [], [], [("O", ⟨some "n3", PortDir.output⟩)]⟩),
     ("u1", ⟨"u1", "OTHER", [], [], [("I", ⟨some "n1", PortDir.input⟩)]⟩),
     ("u2", ⟨"u2", "OTHER", [], [], [("I", ⟨some "n2", PortDir.input⟩)]⟩),
     ("u3", ⟨"u3", "OTHER", [], [], [("I", ⟨some "n3", PortDir.input⟩)]⟩)]
    [("n1", ⟨"n1", ⟨some "g1", "O"⟩, [⟨some "u1", "I"⟩]⟩),
     ("n2", ⟨"n2", ⟨some "g2", "O"⟩, [⟨some "u2", "I"⟩]⟩),
     ("n3", ⟨"n3", ⟨some "g3", "O"⟩, [⟨some "u3", "I"⟩]⟩)]

theorem pack_constants_spec_witness :
    CPWF cpWitnessN ∧
    lookupA cpWitnessN.cells "$PACKER_CONST" = none ∧
    lookupA cpWitnessN.nets "$PACKER_GND_NET" = none ∧
    lookupA cpWitnessN.nets "$PACKER_VCC_NET" = none ∧
    (((lookupA (pack_constants cpWitnessN).cells "$PACKER_CONST").map CellInfo.type =
        some "FACADE_SLICE" ∧
      (keysA (pack_constants cpWitnessN).cells).count "$PACKER_CONST" = 1 ∧
      (∃ g, lookupA (pack_constants cpWitnessN).nets "$PACKER_GND_NET" = some g ∧
        g.driver = PortRef.mk (some "$PACKER_CONST") "F0") ∧
      (∃ v, lookupA (pack_constants cpWitnessN).nets "$PACKER_VCC_NET" = some v ∧
        v.driver = PortRef.mk (some "$PACKER_CONST") "F1")) ∧
    (∀ n ni, lookupA cpWitnessN.nets n = some ni → drivenBy cpWitnessN n "GND" →
      ∀ u ∈ ni.users, ∀ c, u.cell = some c →
        (∀ g, lookupA (pack_constants cpWitnessN).nets "$PACKER_GND_NET" = some g →
          u ∈ g.users) ∧
        (∃ cc, lookupA (pack_constants cpWitnessN).cells c = some cc ∧
          ∃ pi, lookupA cc.ports u.port = some pi ∧
            pi.net = some "$PACKER_GND_NET")) ∧
    (∀ n ni, lookupA cpWitnessN.nets n = some ni → drivenBy cpWitnessN n "VCC" →
      ∀ u ∈ ni.users, ∀ c, u.cell = some c →
        (∀ v, lookupA (pack_constants cpWitnessN).nets "$PACKER_VCC_NET" = some v →
          u ∈ v.users) ∧
        (∃ cc, lookupA (pack_constants cpWitnessN).cells c = some cc ∧
          ∃ pi, lookupA cc.ports u.port = some pi ∧
            pi.net = some "$PACKER_VCC_NET")) ∧
    (∀ n ni, lookupA cpWitnessN.nets n = some ni → constDriven cpWitnessN n →
      ∀ dc, ni.driver.cell = some dc →
        lookupA (pack_constants cpWitnessN).cells dc = none) ∧
    (∀ n, constDriven cpWitnessN n → lookupA (pack_constants cpWitnessN).nets n = none)) := by
  have hwf : CPWF cpWitnessN :=
    cpwf_of_B cpWitnessN (by decide) (by decide) (by decide) (by decide) (by decide)
  exact ⟨hwf, by decide, by decide, by decide,
    pack_constants_spec cpWitnessN hwf (by decide) (by decide) (by decide)⟩

/-! ## Idempotency of the passes -/

theorem foldl_fixed {α β : Type} (f : α → β → α) (a : α) (h : ∀ b, f a b = a) :
    ∀ l : List β, l.foldl f a = a := by
  intro l
  induction l with
  | nil => rfl
  | cons b rest ih =>
    rw [List.foldl_cons, h b]
    exact ih

theorem mem_foldl_eraseA {β : Type} (names : List String) :
    ∀ (l : List (String × β)) (e : String × β),
      e ∈ names.foldl eraseA l → e ∈ l ∧ e.1 ∉ names := by
  induction names with
  | nil =>
    intro l e he
    exact ⟨he, by simp⟩
  | cons n rest ih =>
    intro l e he
    rw [List.foldl_cons] at he
    obtain ⟨he1, he2⟩ := ih (eraseA l n) e he
    rw [eraseA, List.mem_filter] at he1
    obtain ⟨hel, hene⟩ := he1
    refine ⟨hel, ?_⟩
    intro hmem
    rcases List.mem_cons.mp hmem with h' | h'
    · rw [h'] at hene
      simp at hene
    · exact he2 h'

theorem sortedKeys_foldl_eraseA {β : Type} (names : List String) :
    ∀ (l : List (String × β)), SortedKeys l → SortedKeys (names.foldl eraseA l) := by
  induction names with
  | nil => exact fun l h => h
  | cons n rest ih =>
    intro l h
    rw [List.foldl_cons]
    exact ih (eraseA l n) (sortedKeys_eraseA l n h)

theorem keysA_insertA_of_mem {β : Type} (l : List (String × β)) (k : String) (v : β)
    (hs : SortedKeys l) (hm : k ∈ keysA l) : keysA (insertA l k v) = keysA l := by
  induction l with
  | nil => simp [keysA] at hm
  | cons e rest ih =>
    rw [SortedKeys, List.pairwise_cons] at hs
    rcases List.mem_cons.mp hm with h' | h'
    · have hlt : strLt k e.1 = false := by
        rw [h']
        exact strLt_irrefl e.1
      rw [insertA, hlt]
      simp only [Bool.false_eq_true, if_false, if_pos h']
      simp [keysA, h']
    · have hgt : strLt e.1 k = true := by
        obtain ⟨e', he', hke⟩ := List.mem_map.mp h'
        rw [← hke]
        exact hs.1 e' he'
      have hlt : strLt k e.1 = false := strLt_asymm hgt
      have hne : k ≠ e.1 := fun h => by
        rw [h] at hgt
        rw [strLt_irrefl] at hgt
        exact absurd hgt (by simp)
      rw [insertA, hlt]
      simp only [Bool.false_eq_true, if_false, if_neg hne]
      simp only [keysA, List.map_cons]
      exact congrArg (List.cons e.1) (ih hs.2 h')

/-- A netlist with no placeholder IO buffer cell is a fixed point of
`pack_io`. -/
theorem pack_io_fixed (N : Netlist)
    (hno : ∀ e ∈ N.cells, is_nextpnr_iob e.2 = false) : pack_io N = N := by
  have hstep : ∀ cn, pack_io_step (N, []) cn = (N, []) := by
    intro cn
    cases hci : lookupA N.cells cn with
    | none => simp only [pack_io_step, hci]
    | some ci =>
      have hmem := mem_of_lookupA N.cells cn ci hci
      have hfalse := hno (cn, ci) hmem
      simp [pack_io_step, hci, hfalse]
  have hfold : (keysA N.cells).foldl pack_io_step (N, []) = (N, []) :=
    foldl_fixed pack_io_step (N, []) hstep (keysA N.cells)
  have hpio : pack_io N =
      { ((keysA N.cells).foldl pack_io_step (N, [])).1 with
        cells := ((keysA N.cells).foldl pack_io_step (N, [])).2.foldl eraseA
          ((keysA N.cells).foldl pack_io_step (N, [])).1.cells } := rfl
  rw [hpio, hfold]
  rfl

/-- Every cell surviving `pack_io` is a non-placeholder cell. -/
theorem pack_io_no_iob (N : Netlist)
    (hsc : SortedKeys N.cells)
    (hname : ∀ e ∈ N.cells, e.2.name = e.1)
    (huc : UsersConsistent N) (hdc : DriverConsistent N) :
    ∀ e ∈ (pack_io N).cells, is_nextpnr_iob e.2 = false := by
  have hbase : PIOInv N (N, []) := by
    refine ⟨rfl, rfl, fun k => rfl, fun k => rfl, fun k cc h _ => h, huc, hdc, ?_⟩
    intro c hc
    simp at hc
  obtain ⟨hinv, hpk⟩ := pack_io_fold_inv N hname (keysA N.cells) (N, []) hbase
  obtain ⟨hkc, hkn, htype, hnm, hniob, -, -, hpacked⟩ := hinv
  rw [List.nil_append] at hpk
  intro e he
  have he' : e ∈ ((keysA N.cells).foldl pack_io_step (N, [])).2.foldl eraseA
      ((keysA N.cells).foldl pack_io_step (N, [])).1.cells := he
  obtain ⟨hef, hnotp⟩ := mem_foldl_eraseA _ _ e he'
  have hsf : SortedKeys ((keysA N.cells).foldl pack_io_step (N, [])).1.cells :=
    sortedKeys_of_keysA_eq _ _ hkc hsc
  have hlk := lookupA_of_mem _ e hsf hef
  have ht := htype e.1
  rw [hlk] at ht
  cases hN : lookupA N.cells e.1 with
  | none =>
    rw [hN] at ht
    simp at ht
  | some c0 =>
    rw [hN] at ht
    have hty : e.2.type = c0.type := by simpa using ht
    cases hi : is_nextpnr_iob e.2 with
    | false => rfl
    | true =>
      have hc0 : is_nextpnr_iob c0 = true := by
        unfold is_nextpnr_iob at hi ⊢
        rw [← hty]
        exact hi
      have hik : iobKey N e.1 = true := by
        simp only [iobKey, hN]
        exact hc0
      have hmemk : e.1 ∈ keysA N.cells := by
        by_contra hcon
        have hnone := (lookupA_eq_none_iff N.cells e.1).mpr hcon
        rw [hnone] at hN
        exact absurd hN (by simp)
      have hinp : e.1 ∈ ((keysA N.cells).foldl pack_io_step (N, [])).2 := by
        rw [hpk]
        exact List.mem_filter.mpr ⟨hmemk, hik⟩
      exact absurd hinp hnotp

theorem cp_step_fixed (M : Netlist)
    (hnodrv : ∀ n ni, lookupA M.nets n = some ni → ∀ dc, ni.driver.cell = some dc →
      ∀ dcell, lookupA M.cells dc = some dcell →
        dcell.type ≠ "GND" ∧ dcell.type ≠ "VCC")
    (cn : String) :
    cp_step (CPAcc.mk M packerGnd0 packerVcc0 []) cn =
      CPAcc.mk M packerGnd0 packerVcc0 [] := by
  cases hni : lookupA M.nets cn with
  | none => simp only [cp_step, hni]
  | some ni =>
    cases hdc : ni.driver.cell with
    | none => simp only [cp_step, hni, hdc]
    | some dc =>
      cases hdcell : lookupA M.cells dc with
      | none => simp only [cp_step, hni, hdc, hdcell]
      | some dcell =>
        have h := hnodrv cn ni hni dc hdc dcell hdcell
        simp only [cp_step, hni, hdc, hdcell, if_neg h.1, if_neg h.2]

/-- Structural facts about the output of `pack_constants`: sorted maps, the
reserved names present, and no surviving net driven by a ground/supply
cell. -/
theorem pack_constants_output_facts (N : Netlist) (hwf : CPWF N)
    (hnoc : lookupA N.cells "$PACKER_CONST" = none)
    (hnog : lookupA N.nets "$PACKER_GND_NET" = none)
    (hnov : lookupA N.nets "$PACKER_VCC_NET" = none) :
    SortedKeys (pack_constants N).cells ∧ SortedKeys (pack_constants N).nets ∧
    "$PACKER_CONST" ∈ keysA (pack_constants N).cells ∧
    "$PACKER_GND_NET" ∈ keysA (pack_constants N).nets ∧
    "$PACKER_VCC_NET" ∈ keysA (pack_constants N).nets ∧
    (∀ n ni, lookupA (pack_constants N).nets n = some ni →
      ∀ dc, ni.driver.cell = some dc →
      ∀ dcell, lookupA (pack_constants N).cells dc = some dcell →
        dcell.type ≠ "GND" ∧ dcell.type ≠ "VCC") := by
  have hsnN := hwf.2.1
  have hinv : CPInv N (keysA N.nets)
      ((keysA N.nets).foldl cp_step (CPAcc.mk N packerGnd0 packerVcc0 [])) := by
    have h := cp_fold_inv N hwf (keysA N.nets) [] (CPAcc.mk N packerGnd0 packerVcc0 [])
      (cpInv_init N hwf) (fun n _ hmem => by simp at hmem) (keysA_nodup N.nets hsnN)
    simpa using h
  rw [pack_constants_cells, pack_constants_nets]
  set acc := (keysA N.nets).foldl cp_step (CPAcc.mk N packerGnd0 packerVcc0 []) with hacc
  have hGnotdead : "$PACKER_GND_NET" ∉ acc.dead := by
    intro h
    obtain ⟨hmem, _⟩ := (hinv.deadIff _).mp h
    exact (lookupA_eq_none_iff N.nets _).mp hnog hmem
  have hVnotdead : "$PACKER_VCC_NET" ∉ acc.dead := by
    intro h
    obtain ⟨hmem, _⟩ := (hinv.deadIff _).mp h
    exact (lookupA_eq_none_iff N.nets _).mp hnov hmem
  have hgndlookup : lookupA (acc.dead.foldl eraseA
      (insertA (insertA acc.st.nets "$PACKER_GND_NET" acc.gnd) "$PACKER_VCC_NET" acc.vcc))
      "$PACKER_GND_NET" = some acc.gnd := by
    rw [lookupA_foldl_eraseA, if_neg hGnotdead,
      lookupA_insertA_ne _ "$PACKER_VCC_NET" _ _ (by decide), lookupA_insertA_self]
  have hvcclookup : lookupA (acc.dead.foldl eraseA
      (insertA (insertA acc.st.nets "$PACKER_GND_NET" acc.gnd) "$PACKER_VCC_NET" acc.vcc))
      "$PACKER_VCC_NET" = some acc.vcc := by
    rw [lookupA_foldl_eraseA, if_neg hVnotdead, lookupA_insertA_self]
  refine ⟨?_, ?_, ?_, ?_, ?_, ?_⟩
  · exact sortedKeys_insertA _ _ _ hinv.sc
  · exact sortedKeys_foldl_eraseA _ _
      (sortedKeys_insertA _ _ _ (sortedKeys_insertA _ _ _ hinv.sn))
  · exact (mem_keysA_insertA _ _ _ _).mpr (Or.inl rfl)
  · by_contra hcon
    have hnone := (lookupA_eq_none_iff _ _).mpr hcon
    rw [hgndlookup] at hnone
    exact absurd hnone (by simp)
  · by_contra hcon
    have hnone := (lookupA_eq_none_iff _ _).mpr hcon
    rw [hvcclookup] at hnone
    exact absurd hnone (by simp)
  · intro n ni hni dc hdcni dcell hdcell
    rw [lookupA_foldl_eraseA] at hni
    by_cases hd : n ∈ acc.dead
    · rw [if_pos hd] at hni
      exact absurd hni (by simp)
    · rw [if_neg hd] at hni
      by_cases hnV : n = "$PACKER_VCC_NET"
      · rw [hnV, lookupA_insertA_self] at hni
        have e : acc.vcc = ni := Option.some.inj hni
        rw [← e] at hdcni
        rw [hinv.vccDriver] at hdcni
        have hdcC : "$PACKER_CONST" = dc := Option.some.inj hdcni
        rw [← hdcC, lookupA_insertA_self] at hdcell
        have e2 : packerConstCell = dcell := Option.some.inj hdcell
        rw [← e2]
        exact ⟨by decide, by decide⟩
      · by_cases hnG : n = "$PACKER_GND_NET"
        · rw [hnG, lookupA_insertA_ne _ _ _ _ (by decide), lookupA_insertA_self] at hni
          have e : acc.gnd = ni := Option.some.inj hni
          rw [← e] at hdcni
          rw [hinv.gndDriver] at hdcni
          have hdcC : "$PACKER_CONST" = dc := Option.some.inj hdcni
          rw [← hdcC, lookupA_insertA_self] at hdcell
          have e2 : packerConstCell = dcell := Option.some.inj hdcell
          rw [← e2]
          exact ⟨by decide, by decide⟩
        · rw [lookupA_insertA_ne _ _ _ _ hnV, lookupA_insertA_ne _ _ _ _ hnG] at hni
          have hmemk : n ∈ keysA N.nets := by
            have hmem' : n ∈ keysA acc.st.nets := by
              by_contra hcon
              have hnone := (lookupA_eq_none_iff _ _).mpr hcon
              rw [hnone] at hni
              exact absurd hni (by simp)
            rw [← hinv.nkeys]
            exact hmem'
          by_cases hcn : constDriven N n
          · exact absurd ((hinv.deadIff n).mpr ⟨hmemk, hcn⟩) hd
          · have hN : lookupA N.nets n = some ni := by
              rw [← hinv.netsSkip n hmemk hcn]
              exact hni
            by_cases hdcC : dc = "$PACKER_CONST"
            · rw [hdcC, lookupA_insertA_self] at hdcell
              have e2 : packerConstCell = dcell := Option.some.inj hdcell
              rw [← e2]
              exact ⟨by decide, by decide⟩
            · rw [lookupA_insertA_ne _ _ _ _ hdcC] at hdcell
              have hnE : ¬ erasedDrv N (keysA N.nets) dc := by
                intro hE
                rw [hinv.cellsErased dc hE] at hdcell
                exact absurd hdcell (by simp)
              obtain ⟨cc0, hcc0, _, htyeq, _, _, _, _⟩ :=
                hinv.cellsShape dc hnE dcell hdcell
              constructor
              · intro hty
                exact hcn (Or.inl ⟨ni, dc, cc0, hN, hdcni, hcc0, htyeq.symm.trans hty⟩)
              · intro hty
                exact hcn (Or.inr ⟨ni, dc, cc0, hN, hdcni, hcc0, htyeq.symm.trans hty⟩)


/-- **C5** (counterexample to the original claim): constant packing is not
idempotent.  On the netlist with three independent ground-driven nets, the
second run finds no ground cells left, yet unconditionally re-creates the
constant cell and nets and re-inserts a fresh `$PACKER_GND_NET` with an
empty user list, discarding the users accumulated by the first run. -/
theorem pack_constants_not_idempotent :
    pack_constants (pack_constants cpWitnessN) ≠ pack_constants cpWitnessN := by decide

/-! ## Canonical order through the pipeline (C6) -/

theorem pack_io_step_keys (acc : Netlist × List String) (cn : String) :
    keysA (pack_io_step acc cn).1.cells = keysA acc.1.cells ∧
    keysA (pack_io_step acc cn).1.nets = keysA acc.1.nets := by
  cases hci : lookupA acc.1.cells cn with
  | none =>
    have hred : pack_io_step acc cn = acc := by simp only [pack_io_step, hci]
    rw [hred]
    exact ⟨rfl, rfl⟩
  | some ci =>
    by_cases hio : is_nextpnr_iob ci = true
    · have hred : pack_io_step acc cn =
          ((keysA ci.ports).foldl (fun s p => disconnect_port s cn p) acc.1,
           acc.2 ++ [ci.name]) := by
        simp only [pack_io_step, hci, if_pos hio]
      rw [hred]
      exact discAll_keys cn (keysA ci.ports) acc.1
    · have hred : pack_io_step acc cn = acc := by
        simp only [pack_io_step, hci, if_neg hio]
      rw [hred]
      exact ⟨rfl, rfl⟩

theorem pack_io_fold_keys (names : List String) :
    ∀ acc : Netlist × List String,
      keysA ((names.foldl pack_io_step acc).1.cells) = keysA acc.1.cells ∧
      keysA ((names.foldl pack_io_step acc).1.nets) = keysA acc.1.nets := by
  induction names with
  | nil => exact fun acc => ⟨rfl, rfl⟩
  | cons cn rest ih =>
    intro acc
    have h1 := pack_io_step_keys acc cn
    have h2 := ih (pack_io_step acc cn)
    exact ⟨h2.1.trans h1.1, h2.2.trans h1.2⟩

theorem pack_io_sorted (st : Netlist)
    (h : SortedKeys st.cells ∧ SortedKeys st.nets) :
    SortedKeys (pack_io st).cells ∧ SortedKeys (pack_io st).nets := by
  obtain ⟨hkc, hkn⟩ := pack_io_fold_keys (keysA st.cells) (st, [])
  constructor
  · show SortedKeys (((keysA st.cells).foldl pack_io_step (st, [])).2.foldl eraseA
      ((keysA st.cells).foldl pack_io_step (st, [])).1.cells)
    exact sortedKeys_foldl_eraseA _ _ (sortedKeys_of_keysA_eq _ _ hkc h.1)
  · show SortedKeys (((keysA st.cells).foldl pack_io_step (st, [])).1.nets)
    exact sortedKeys_of_keysA_eq _ _ hkn h.2

theorem replace_port_sorted (st : Netlist) (a b : String) (rep : CellInfo) (c : String)
    (h : SortedKeys st.cells ∧ SortedKeys st.nets) :
    SortedKeys (replace_port st a b rep c).1.cells ∧
    SortedKeys (replace_port st a b rep c).1.nets := by
  obtain ⟨hc, hn⟩ := h
  cases h1 : lookupA st.cells a with
  | none =>
    simp only [replace_port, h1]
    exact ⟨hc, hn⟩
  | some oldc =>
    cases h2 : lookupA oldc.ports b with
    | none =>
      cases h3 : lookupA rep.ports c with
      | none =>
        simp only [replace_port, h1, h2, h3]
        exact ⟨hc, hn⟩
      | some rpi =>
        simp only [replace_port, h1, h2, h3]
        exact ⟨hc, hn⟩
    | some opi =>
      cases h3 : lookupA rep.ports c with
      | none =>
        simp only [replace_port, h1, h2, h3]
        exact ⟨hc, hn⟩
      | some rpi =>
        simp only [replace_port, h1, h2, h3]
        cases h4 : opi.net with
        | none =>
          simp only [h4]
          exact ⟨sortedKeys_updateA _ _ _ hc, hn⟩
        | some nn =>
          cases h5 : rpi.dir with
          | output =>
            simp only [h4, h5]
            exact ⟨sortedKeys_updateA _ _ _ hc, sortedKeys_updateA _ _ _ hn⟩
          | input =>
            simp only [h4, h5]
            exact ⟨sortedKeys_updateA _ _ _ hc, sortedKeys_updateA _ _ _ hn⟩
          | inout =>
            simp only [h4, h5]
            exact ⟨sortedKeys_updateA _ _ _ hc, hn⟩

theorem lut_to_lc_sorted (st : Netlist) (lutName : String) (lc : CellInfo)
    (no_dff : Bool) (h : SortedKeys st.cells ∧ SortedKeys st.nets) :
    SortedKeys (lut_to_lc st lutName lc no_dff).1.cells ∧
    SortedKeys (lut_to_lc st lutName lc no_dff).1.nets := by
  simp only [lut_to_lc]
  by_cases hnd : no_dff = true
  · rw [if_pos hnd]
    exact replace_port_sorted _ _ _ _ _
      (replace_port_sorted _ _ _ _ _
        (replace_port_sorted _ _ _ _ _
          (replace_port_sorted _ _ _ _ _
            (replace_port_sorted _ _ _ _ _ h))))
  · rw [if_neg hnd]
    exact replace_port_sorted _ _ _ _ _
      (replace_port_sorted _ _ _ _ _
        (replace_port_sorted _ _ _ _ _
          (replace_port_sorted _ _ _ _ _ h)))

theorem dff_to_lc_sorted (st : Netlist) (dffName : String) (lc : CellInfo)
    (h : SortedKeys st.cells ∧ SortedKeys st.nets) :
    SortedKeys (dff_to_lc st dffName lc).1.cells ∧
    SortedKeys (dff_to_lc st dffName lc).1.nets := by
  simp only [dff_to_lc]
  exact replace_port_sorted _ _ _ _ _
    (replace_port_sorted _ _ _ _ _
      (replace_port_sorted _ _ _ _ _
        (replace_port_sorted _ _ _ _ _ h)))

set_option maxHeartbeats 2000000 in
theorem pack_lut_step_sorted (acc : LFAcc) (cn : String)
    (h : SortedKeys acc.st.cells ∧ SortedKeys acc.st.nets) :
    SortedKeys (pack_lut_step acc cn).st.cells ∧
    SortedKeys (pack_lut_step acc cn).st.nets := by
  simp only [pack_lut_step]
  split
  · exact h
  · split
    · split
      · split
        · exact lut_to_lc_sorted _ _ _ _ h
        · split
          · constructor
            · exact (dff_to_lc_sorted _ _ _ (lut_to_lc_sorted _ _ _ _ h)).1
            · exact sortedKeys_eraseA _ _
                (dff_to_lc_sorted _ _ _ (lut_to_lc_sorted _ _ _ _ h)).2
          · exact dff_to_lc_sorted _ _ _ (lut_to_lc_sorted _ _ _ _ h)
      · exact lut_to_lc_sorted _ _ _ _ h
    · exact h

theorem pack_lut_fold_sorted (names : List String) :
    ∀ acc : LFAcc, SortedKeys acc.st.cells ∧ SortedKeys acc.st.nets →
      SortedKeys ((names.foldl pack_lut_step acc).st.cells) ∧
      SortedKeys ((names.foldl pack_lut_step acc).st.nets) := by
  induction names with
  | nil => exact fun acc h => h
  | cons cn rest ih =>
    intro acc h
    rw [List.foldl_cons]
    exact ih (pack_lut_step acc cn) (pack_lut_step_sorted acc cn h)

theorem insertCells_sorted (cs : List CellInfo) :
    ∀ l : List (String × CellInfo), SortedKeys l →
      SortedKeys (cs.foldl (fun m c => insertA m c.name c) l) := by
  induction cs with
  | nil => exact fun l h => h
  | cons c rest ih =>
    intro l h
    rw [List.foldl_cons]
    exact ih (insertA l c.name c) (sortedKeys_insertA l c.name c h)

theorem pack_lut_lutffs_sorted (st : Netlist)
    (h : SortedKeys st.cells ∧ SortedKeys st.nets) :
    SortedKeys (pack_lut_lutffs st).cells ∧ SortedKeys (pack_lut_lutffs st).nets := by
  have hf := pack_lut_fold_sorted (keysA st.cells) (LFAcc.mk st [] []) h
  constructor
  · show SortedKeys (((keysA st.cells).foldl pack_lut_step (LFAcc.mk st [] [])).newCells.foldl
      (fun m c => insertA m c.name c)
      (((keysA st.cells).foldl pack_lut_step (LFAcc.mk st [] [])).packed.foldl eraseA
        ((keysA st.cells).foldl pack_lut_step (LFAcc.mk st [] [])).st.cells))
    exact insertCells_sorted _ _ (sortedKeys_foldl_eraseA _ _ hf.1)
  · show SortedKeys (((keysA st.cells).foldl pack_lut_step (LFAcc.mk st [] [])).st.nets)
    exact hf.2

/-- **C6**: the packing pipeline is deterministic.  `Arch::pack` runs exactly
the three passes — constant packing, then IO-buffer elision, then LUT/FF
fusion — in that order (it is literally their composition, wrapped in the
success boundary); equal input netlists give equal results, and in
particular identical output cell/net name lists; and the output's cell and
net maps are in canonical (sorted) name order, as every pass iterates in
and preserves that order. -/
theorem pipeline_deterministic (N1 N2 : Netlist) (heq : N1 = N2)
    (hwf : CPWF N1)
    (hnoc : lookupA N1.cells "$PACKER_CONST" = none)
    (hnog : lookupA N1.nets "$PACKER_GND_NET" = none)
    (hnov : lookupA N1.nets "$PACKER_VCC_NET" = none) :
    Arch_pack N1 = Except.ok (true, pack_lut_lutffs (pack_io (pack_constants N1))) ∧
    Arch_pack N1 = Arch_pack N2 ∧
    SortedKeys (pack_lut_lutffs (pack_io (pack_constants N1))).cells ∧
    SortedKeys (pack_lut_lutffs (pack_io (pack_constants N1))).nets ∧
    keysA (pack_lut_lutffs (pack_io (pack_constants N1))).cells =
      keysA (pack_lut_lutffs (pack_io (pack_constants N2))).cells ∧
    keysA (pack_lut_lutffs (pack_io (pack_constants N1))).nets =
      keysA (pack_lut_lutffs (pack_io (pack_constants N2))).nets := by
  subst heq
  obtain ⟨h1, h2, _, _, _, _⟩ := pack_constants_output_facts N1 hwf hnoc hnog hnov
  have h34 := pack_io_sorted (pack_constants N1) ⟨h1, h2⟩
  have h56 := pack_lut_lutffs_sorted (pack_io (pack_constants N1)) h34
  exact ⟨rfl, rfl, h56.1, h56.2, rfl, rfl⟩

/-- Witness for C6 at the three-ground-nets netlist. -/
theorem pipeline_deterministic_witness :
    cpWitnessN = cpWitnessN ∧
    CPWF cpWitnessN ∧
    lookupA cpWitnessN.cells "$PACKER_CONST" = none ∧
    lookupA cpWitnessN.nets "$PACKER_GND_NET" = none ∧
    lookupA cpWitnessN.nets "$PACKER_VCC_NET" = none ∧
    (Arch_pack cpWitnessN =
        Except.ok (true, pack_lut_lutffs (pack_io (pack_constants cpWitnessN))) ∧
      Arch_pack cpWitnessN = Arch_pack cpWitnessN ∧
      SortedKeys (pack_lut_lutffs (pack_io (pack_constants cpWitnessN))).cells ∧
      SortedKeys (pack_lut_lutffs (pack_io (pack_constants cpWitnessN))).nets ∧
      keysA (pack_lut_lutffs (pack_io (pack_constants cpWitnessN))).cells =
        keysA (pack_lut_lutffs (pack_io (pack_constants cpWitnessN))).cells ∧
      keysA (pack_lut_lutffs (pack_io (pack_constants cpWitnessN))).nets =
        keysA (pack_lut_lutffs (pack_io (pack_constants cpWitnessN))).nets) := by
  have hwf : CPWF cpWitnessN :=
    cpwf_of_B cpWitnessN (by decide) (by decide) (by decide) (by decide) (by decide)
  exact ⟨rfl, hwf, by decide, by decide, by decide,
    pipeline_deterministic cpWitnessN cpWitnessN rfl hwf (by decide) (by decide) (by decide)⟩

/-! ## Idempotency of the LUT/FF fusion pass -/

theorem mem_insertA {β : Type} (l : List (String × β)) (k : String) (v : β)
    (e : String × β) (h : e ∈ insertA l k v) : e = (k, v) ∨ e ∈ l := by
  induction l with
  | nil =>
    rw [insertA] at h
    exact Or.inl (List.mem_singleton.mp h)
  | cons x rest ih =>
    rw [insertA] at h
    by_cases h1 : strLt k x.1 = true
    · rw [if_pos h1] at h
      rcases List.mem_cons.mp h with h' | h'
      · exact Or.inl h'
      · exact Or.inr h'
    · rw [if_neg h1] at h
      by_cases h2 : k = x.1
      · rw [if_pos h2] at h
        rcases List.mem_cons.mp h with h' | h'
        · exact Or.inl h'
        · exact Or.inr (List.mem_cons_of_mem x h')
      · rw [if_neg h2] at h
        rcases List.mem_cons.mp h with h' | h'
        · exact Or.inr (List.mem_cons.mpr (Or.inl h'))
        · rcases ih h' with h'' | h''
          · exact Or.inl h''
          · exact Or.inr (List.mem_cons_of_mem x h'')

theorem mem_insertA_fold (cs : List CellInfo) :
    ∀ (l : List (String × CellInfo)) (e : String × CellInfo),
      e ∈ cs.foldl (fun m c => insertA m c.name c) l → e.2 ∈ cs ∨ e ∈ l := by
  induction cs with
  | nil => exact fun l e h => Or.inr h
  | cons c rest ih =>
    intro l e h
    rw [List.foldl_cons] at h
    rcases ih (insertA l c.name c) e h with h' | h'
    · exact Or.inl (List.mem_cons_of_mem c h')
    · rcases mem_insertA l c.name c e h' with h'' | h''
      · refine Or.inl ?_
        rw [h'']
        exact List.mem_cons_self c rest
      · exact Or.inr h''

theorem lookupA_updateA_map_eq {β γ : Type} (l : List (String × β)) (k : String)
    (f : β → β) (g : β → γ) (hg : ∀ v, g (f v) = g v) (k' : String) :
    (lookupA (updateA l k f) k').map g = (lookupA l k').map g := by
  by_cases h : k' = k
  · subst h
    rw [lookupA_updateA_self]
    cases lookupA l k' with
    | none => rfl
    | some v =>
      simp only [Option.map]
      rw [hg]
  · rw [lookupA_updateA_ne l k k' f h]

/-- Both netlists have the same cell keys, and cell types and names agree
pointwise (ports may differ). -/
def CellsSame (N M : Netlist) : Prop :=
  keysA M.cells = keysA N.cells ∧
  (∀ k, (lookupA M.cells k).map CellInfo.type = (lookupA N.cells k).map CellInfo.type) ∧
  (∀ k, (lookupA M.cells k).map CellInfo.name = (lookupA N.cells k).map CellInfo.name)

theorem cellsSame_refl (N : Netlist) : CellsSame N N :=
  ⟨rfl, fun _ => rfl, fun _ => rfl⟩

theorem cellsSame_trans {N M K : Netlist} (h1 : CellsSame N M) (h2 : CellsSame M K) :
    CellsSame N K :=
  ⟨h2.1.trans h1.1, fun k => (h2.2.1 k).trans (h1.2.1 k),
   fun k => (h2.2.2 k).trans (h1.2.2 k)⟩

/-- `updateA` on cells through a port-only function preserves `CellsSame`. -/
theorem cellsSame_update_ports (st : Netlist) (cn : String)
    (f : CellInfo → CellInfo) (hf : ∀ c, (f c).type = c.type ∧ (f c).name = c.name)
    (nets' : List (String × NetInfo)) :
    CellsSame st (Netlist.mk (updateA st.cells cn f) nets') :=
  ⟨keysA_updateA st.cells cn f,
   fun k => lookupA_updateA_map_eq st.cells cn f CellInfo.type (fun v => (hf v).1) k,
   fun k => lookupA_updateA_map_eq st.cells cn f CellInfo.name (fun v => (hf v).2) k⟩

theorem replace_port_cellsSame (st : Netlist) (a b : String) (rep : CellInfo)
    (c : String) : CellsSame st (replace_port st a b rep c).1 := by
  cases h1 : lookupA st.cells a with
  | none =>
    simp only [replace_port, h1]
    exact cellsSame_refl st
  | some oldc =>
    cases h2 : lookupA oldc.ports b with
    | none =>
      cases h3 : lookupA rep.ports c with
      | none =>
        simp only [replace_port, h1, h2, h3]
        exact cellsSame_refl st
      | some rpi =>
        simp only [replace_port, h1, h2, h3]
        exact cellsSame_refl st
    | some opi =>
      cases h3 : lookupA rep.ports c with
      | none =>
        simp only [replace_port, h1, h2, h3]
        exact cellsSame_refl st
      | some rpi =>
        simp only [replace_port, h1, h2, h3]
        cases h4 : opi.net with
        | none =>
          simp only [h4]
          exact cellsSame_update_ports st a
            (fun cc => { cc with ports := updateA cc.ports b (fun p => { p with net := none }) })
            (fun cc => ⟨rfl, rfl⟩) _
        | some nn =>
          cases h5 : rpi.dir with
          | output =>
            simp only [h4, h5]
            exact cellsSame_update_ports st a
              (fun cc => { cc with ports := updateA cc.ports b (fun p => { p with net := none }) })
              (fun cc => ⟨rfl, rfl⟩) _
          | input =>
            simp only [h4, h5]
            exact cellsSame_update_ports st a
              (fun cc => { cc with ports := updateA cc.ports b (fun p => { p with net := none }) })
              (fun cc => ⟨rfl, rfl⟩) _
          | inout =>
            simp only [h4, h5]
            exact cellsSame_update_ports st a
              (fun cc => { cc with ports := updateA cc.ports b (fun p => { p with net := none }) })
              (fun cc => ⟨rfl, rfl⟩) _

theorem replace_port_snd_type (st : Netlist) (a b : String) (rep : CellInfo)
    (c : String) : (replace_port st a b rep c).2.type = rep.type := by
  cases h1 : lookupA st.cells a with
  | none => simp only [replace_port, h1]
  | some oldc =>
    cases h2 : lookupA oldc.ports b with
    | none =>
      cases h3 : lookupA rep.ports c with
      | none => simp only [replace_port, h1, h2, h3]
      | some rpi => simp only [replace_port, h1, h2, h3]
    | some opi =>
      cases h3 : lookupA rep.ports c with
      | none => simp only [replace_port, h1, h2, h3]
      | some rpi =>
        simp only [replace_port, h1, h2, h3]
        cases h4 : opi.net with
        | none => simp only [h4]
        | some nn =>
          cases h5 : rpi.dir with
          | output => simp only [h4, h5]
          | input => simp only [h4, h5]
          | inout => simp only [h4, h5]

theorem lut_to_lc_cellsSame (st : Netlist) (lutName : String) (lc : CellInfo)
    (no_dff : Bool) : CellsSame st (lut_to_lc st lutName lc no_dff).1 := by
  simp only [lut_to_lc]
  by_cases hnd : no_dff = true
  · rw [if_pos hnd]
    exact cellsSame_trans
      (cellsSame_trans
        (cellsSame_trans
          (cellsSame_trans (replace_port_cellsSame _ _ _ _ _)
            (replace_port_cellsSame _ _ _ _ _))
          (replace_port_cellsSame _ _ _ _ _))
        (replace_port_cellsSame _ _ _ _ _))
      (replace_port_cellsSame _ _ _ _ _)
  · rw [if_neg hnd]
    exact cellsSame_trans
      (cellsSame_trans
        (cellsSame_trans (replace_port_cellsSame _ _ _ _ _)
          (replace_port_cellsSame _ _ _ _ _))
        (replace_port_cellsSame _ _ _ _ _))
      (replace_port_cellsSame _ _ _ _ _)

theorem dff_to_lc_cellsSame (st : Netlist) (dffName : String) (lc : CellInfo) :
    CellsSame st (dff_to_lc st dffName lc).1 := by
  simp only [dff_to_lc]
  exact cellsSame_trans
    (cellsSame_trans
      (cellsSame_trans (replace_port_cellsSame _ _ _ _ _)
        (replace_port_cellsSame _ _ _ _ _))
      (replace_port_cellsSame _ _ _ _ _))
    (replace_port_cellsSame _ _ _ _ _)

theorem lut_to_lc_snd_type (st : Netlist) (lutName : String) (lc : CellInfo)
    (no_dff : Bool) : (lut_to_lc st lutName lc no_dff).2.type = lc.type := by
  simp only [lut_to_lc]
  by_cases hnd : no_dff = true
  · rw [if_pos hnd, replace_port_snd_type, replace_port_snd_type,
      replace_port_snd_type, replace_port_snd_type, replace_port_snd_type]
    split
    · split
      · rfl
      · rfl
    · rfl
  · rw [if_neg hnd, replace_port_snd_type, replace_port_snd_type,
      replace_port_snd_type, replace_port_snd_type]
    split
    · split
      · rfl
      · rfl
    · rfl

theorem dff_to_lc_snd_type (st : Netlist) (dffName : String) (lc : CellInfo) :
    (dff_to_lc st dffName lc).2.type = lc.type := by
  simp only [dff_to_lc]
  rw [replace_port_snd_type, replace_port_snd_type, replace_port_snd_type,
    replace_port_snd_type]

theorem create_machxo2_cell_type (t n : String) : (create_machxo2_cell t n).type = t := rfl

theorem celltype_attrs_update (r : CellInfo) (a : List (String × String)) :
    ({ r with attrs := a }).type = r.type := rfl

/-- Whether key `k` names a `LUT4` cell of `N`. -/
def lutKey (N : Netlist) (k : String) : Bool :=
  match lookupA N.cells k with
  | some c => is_lut c
  | none => false

set_option maxHeartbeats 2000000 in
theorem pack_lut_step_cells (N : Netlist) (hname : ∀ e ∈ N.cells, e.2.name = e.1)
    (acc : LFAcc) (cn : String)
    (hsame : CellsSame N acc.st)
    (hnew : ∀ c ∈ acc.newCells, is_lut c = false) :
    CellsSame N (pack_lut_step acc cn).st ∧
    (∀ c ∈ (pack_lut_step acc cn).newCells, is_lut c = false) ∧
    (lutKey N cn = true → cn ∈ (pack_lut_step acc cn).packed) ∧
    (∀ m ∈ acc.packed, m ∈ (pack_lut_step acc cn).packed) := by
  cases hci : lookupA acc.st.cells cn with
  | none =>
    have hred : pack_lut_step acc cn = acc := by simp only [pack_lut_step, hci]
    rw [hred]
    refine ⟨hsame, hnew, ?_, fun m hm => hm⟩
    intro hl
    exfalso
    unfold lutKey at hl
    cases hN : lookupA N.cells cn with
    | none =>
      rw [hN] at hl
      simp at hl
    | some c0 =>
      have ht := hsame.2.1 cn
      rw [hci, hN] at ht
      simp at ht
  | some ci =>
    by_cases hlut : is_lut ci = true
    · have hciname : ci.name = cn := by
        have hn := hsame.2.2 cn
        rw [hci] at hn
        cases hN : lookupA N.cells cn with
        | none =>
          rw [hN] at hn
          simp at hn
        | some c0 =>
          rw [hN] at hn
          have he : ci.name = c0.name := by simpa using hn
          rw [he]
          exact hname (cn, c0) (mem_of_lookupA N.cells cn c0 hN)
      simp only [pack_lut_step, hci, if_pos hlut]
      cases hdf : net_only_drives acc.st
          (match lookupA ci.ports "Z" with | some p => p.net | none => none)
          is_ff "DI" false with
      | none =>
        simp only [hdf]
        refine ⟨cellsSame_trans hsame (lut_to_lc_cellsSame _ _ _ _), ?_, ?_, ?_⟩
        · intro c hc
          rcases List.mem_append.mp hc with h' | h'
          · exact hnew c h'
          · rw [List.mem_singleton] at h'
            rw [h']
            unfold is_lut
            rw [lut_to_lc_snd_type, celltype_attrs_update, create_machxo2_cell_type]
            decide
        · intro _
          exact List.mem_append_right _ (List.mem_singleton.mpr hciname.symm)
        · intro m hm
          exact List.mem_append_left _ hm
      | some dff =>
        simp only [hdf]
        split
        · refine ⟨cellsSame_trans hsame (lut_to_lc_cellsSame _ _ _ _), ?_, ?_, ?_⟩
          · intro c hc
            rcases List.mem_append.mp hc with h' | h'
            · exact hnew c h'
            · rw [List.mem_singleton] at h'
              rw [h']
              unfold is_lut
              rw [lut_to_lc_snd_type, celltype_attrs_update, create_machxo2_cell_type]
              decide
          · intro _
            exact List.mem_append_right _ (List.mem_singleton.mpr hciname.symm)
          · intro m hm
            exact List.mem_append_left _ hm
        · split
          · refine ⟨cellsSame_trans hsame
              (cellsSame_trans (lut_to_lc_cellsSame _ _ _ _)
                (dff_to_lc_cellsSame _ _ _)), ?_, ?_, ?_⟩
            · intro c hc
              rcases List.mem_append.mp hc with h' | h'
              · exact hnew c h'
              · rw [List.mem_singleton] at h'
                rw [h']
                cases hbel : lookupA dff.attrs "BEL" with
                | some v =>
                  simp only [hbel]
                  unfold is_lut
                  rw [celltype_attrs_update, dff_to_lc_snd_type, lut_to_lc_snd_type,
                    celltype_attrs_update, create_machxo2_cell_type]
                  decide
                | none =>
                  simp only [hbel]
                  unfold is_lut
                  rw [dff_to_lc_snd_type, lut_to_lc_snd_type,
                    celltype_attrs_update, create_machxo2_cell_type]
                  decide
            · intro _
              exact List.mem_append_left _
                (List.mem_append_right _ (List.mem_singleton.mpr hciname.symm))
            · intro m hm
              exact List.mem_append_left _ (List.mem_append_left _ hm)
          · refine ⟨cellsSame_trans hsame
              (cellsSame_trans (lut_to_lc_cellsSame _ _ _ _)
                (dff_to_lc_cellsSame _ _ _)), ?_, ?_, ?_⟩
            · intro c hc
              rcases List.mem_append.mp hc with h' | h'
              · exact hnew c h'
              · rw [List.mem_singleton] at h'
                rw [h']
                cases hbel : lookupA dff.attrs "BEL" with
                | some v =>
                  simp only [hbel]
                  unfold is_lut
                  rw [celltype_attrs_update, dff_to_lc_snd_type, lut_to_lc_snd_type,
                    celltype_attrs_update, create_machxo2_cell_type]
                  decide
                | none =>
                  simp only [hbel]
                  unfold is_lut
                  rw [dff_to_lc_snd_type, lut_to_lc_snd_type,
                    celltype_attrs_update, create_machxo2_cell_type]
                  decide
            · intro _
              exact List.mem_append_left _
                (List.mem_append_right _ (List.mem_singleton.mpr hciname.symm))
            · intro m hm
              exact List.mem_append_left _ (List.mem_append_left _ hm)
    · have hred : pack_lut_step acc cn = acc := by
        simp only [pack_lut_step, hci, if_neg hlut]
      rw [hred]
      refine ⟨hsame, hnew, ?_, fun m hm => hm⟩
      intro hl
      exfalso
      unfold lutKey at hl
      cases hN : lookupA N.cells cn with
      | none =>
        rw [hN] at hl
        simp at hl
      | some c0 =>
        rw [hN] at hl
        have ht := hsame.2.1 cn
        rw [hci, hN] at ht
        have htype : ci.type = c0.type := by simpa using ht
        apply hlut
        unfold is_lut at hl ⊢
        rw [htype]
        exact hl

theorem pack_lut_fold_cells (N : Netlist) (hname : ∀ e ∈ N.cells, e.2.name = e.1) :
    ∀ (names : List String) (acc : LFAcc),
      CellsSame N acc.st → (∀ c ∈ acc.newCells, is_lut c = false) →
      CellsSame N (names.foldl pack_lut_step acc).st ∧
      (∀ c ∈ (names.foldl pack_lut_step acc).newCells, is_lut c = false) ∧
      (∀ cn ∈ names, lutKey N cn = true → cn ∈ (names.foldl pack_lut_step acc).packed) ∧
      (∀ m ∈ acc.packed, m ∈ (names.foldl pack_lut_step acc).packed) := by
  intro names
  induction names with
  | nil =>
    intro acc h1 h2
    exact ⟨h1, h2, fun cn hcn => by simp at hcn, fun m hm => hm⟩
  | cons cn rest ih =>
    intro acc h1 h2
    rw [List.foldl_cons]
    obtain ⟨s1, s2, s3, s4⟩ := pack_lut_step_cells N hname acc cn h1 h2
    obtain ⟨f1, f2, f3, f4⟩ := ih (pack_lut_step acc cn) s1 s2
    refine ⟨f1, f2, ?_, fun m hm => f4 m (s4 m hm)⟩
    intro m hm hl
    rcases List.mem_cons.mp hm with h' | h'
    · subst h'
      exact f4 m (s3 hl)
    · exact f3 m h' hl

/-- Every cell surviving the fusion pass is a non-`LUT4` cell. -/
theorem pack_lut_lutffs_no_lut (N : Netlist) (hsc : SortedKeys N.cells)
    (hname : ∀ e ∈ N.cells, e.2.name = e.1) :
    ∀ e ∈ (pack_lut_lutffs N).cells, is_lut e.2 = false := by
  obtain ⟨hsame, hnewc, hpk, -⟩ := pack_lut_fold_cells N hname (keysA N.cells)
    (LFAcc.mk N [] []) (cellsSame_refl N) (fun c hc => by simp at hc)
  intro e he
  have he' : e ∈ ((keysA N.cells).foldl pack_lut_step (LFAcc.mk N [] [])).newCells.foldl
      (fun m c => insertA m c.name c)
      (((keysA N.cells).foldl pack_lut_step (LFAcc.mk N [] [])).packed.foldl eraseA
        ((keysA N.cells).foldl pack_lut_step (LFAcc.mk N [] [])).st.cells) := he
  rcases mem_insertA_fold _ _ e he' with h' | h'
  · exact hnewc e.2 h'
  · obtain ⟨hef, hnotp⟩ := mem_foldl_eraseA _ _ e h'
    have hsf : SortedKeys
        ((keysA N.cells).foldl pack_lut_step (LFAcc.mk N [] [])).st.cells :=
      sortedKeys_of_keysA_eq _ _ hsame.1 hsc
    have hlk := lookupA_of_mem _ e hsf hef
    have ht := hsame.2.1 e.1
    rw [hlk] at ht
    cases hN : lookupA N.cells e.1 with
    | none =>
      rw [hN] at ht
      simp at ht
    | some c0 =>
      rw [hN] at ht
      have hty : e.2.type = c0.type := by simpa using ht
      cases hi : is_lut e.2 with
      | false => rfl
      | true =>
        have hc0 : is_lut c0 = true := by
          unfold is_lut at hi ⊢
          rw [← hty]
          exact hi
        have hik : lutKey N e.1 = true := by
          simp only [lutKey, hN]
          exact hc0
        have hmemk : e.1 ∈ keysA N.cells := by
          by_contra hcon
          have hnone := (lookupA_eq_none_iff N.cells e.1).mpr hcon
          rw [hnone] at hN
          exact absurd hN (by simp)
        exact absurd (hpk e.1 hmemk hik) hnotp

set_option maxHeartbeats 2000000 in
theorem pack_lut_step_fixed (N : Netlist)
    (hno : ∀ e ∈ N.cells, is_lut e.2 = false) (cn : String) :
    pack_lut_step (LFAcc.mk N [] []) cn = LFAcc.mk N [] [] := by
  cases hci : lookupA (LFAcc.mk N [] []).st.cells cn with
  | none => simp only [pack_lut_step, hci]
  | some ci =>
    have hmem := mem_of_lookupA N.cells cn ci hci
    have hf := hno (cn, ci) hmem
    have hne : ¬ is_lut ci = true := by
      rw [hf]
      simp
    simp only [pack_lut_step, hci, if_neg hne]

/-- A netlist with no `LUT4` cell is a fixed point of `pack_lut_lutffs`. -/
theorem pack_lut_lutffs_fixed (N : Netlist)
    (hno : ∀ e ∈ N.cells, is_lut e.2 = false) : pack_lut_lutffs N = N := by
  have hfold : (keysA N.cells).foldl pack_lut_step (LFAcc.mk N [] []) =
      LFAcc.mk N [] [] :=
    foldl_fixed pack_lut_step (LFAcc.mk N [] []) (pack_lut_step_fixed N hno)
      (keysA N.cells)
  have h : pack_lut_lutffs N =
      { ((keysA N.cells).foldl pack_lut_step (LFAcc.mk N [] [])).st with
        cells := ((keysA N.cells).foldl pack_lut_step (LFAcc.mk N [] [])).newCells.foldl
          (fun m c => insertA m c.name c)
          (((keysA N.cells).foldl pack_lut_step (LFAcc.mk N [] [])).packed.foldl eraseA
            ((keysA N.cells).foldl pack_lut_step (LFAcc.mk N [] [])).st.cells) } := rfl
  rw [h, hfold]
  rfl

/-- **C5** (amended): the IO-elision pass and the LUT/FF fusion pass are
idempotent — running either on its own output changes nothing, since no
placeholder buffer and no `LUT4` cell survives the first run — and
re-running constant packing on already-packed output leaves the cell-name
and net-name sets unchanged (though not the net contents, see the
counterexample). -/
theorem pack_passes_idempotency (N : Netlist)
    (hname : ∀ e ∈ N.cells, e.2.name = e.1)
    (hdc : DriverConsistent N)
    (hwf : CPWF N)
    (hnoc : lookupA N.cells "$PACKER_CONST" = none)
    (hnog : lookupA N.nets "$PACKER_GND_NET" = none)
    (hnov : lookupA N.nets "$PACKER_VCC_NET" = none) :
    pack_io (pack_io N) = pack_io N ∧
    pack_lut_lutffs (pack_lut_lutffs N) = pack_lut_lutffs N ∧
    keysA (pack_constants (pack_constants N)).cells = keysA (pack_constants N).cells ∧
    keysA (pack_constants (pack_constants N)).nets = keysA (pack_constants N).nets := by
  have hsc := hwf.1
  have huc := hwf.2.2.1
  obtain ⟨hMsc, hMsn, hCm, hGm, hVm, hnodrv⟩ :=
    pack_constants_output_facts N hwf hnoc hnog hnov
  have hfold : (keysA (pack_constants N).nets).foldl cp_step
      (CPAcc.mk (pack_constants N) packerGnd0 packerVcc0 []) =
      CPAcc.mk (pack_constants N) packerGnd0 packerVcc0 [] :=
    foldl_fixed _ _ (cp_step_fixed (pack_constants N) hnodrv) _
  refine ⟨?_, ?_, ?_, ?_⟩
  · exact pack_io_fixed (pack_io N) (pack_io_no_iob N hsc hname huc hdc)
  · exact pack_lut_lutffs_fixed (pack_lut_lutffs N) (pack_lut_lutffs_no_lut N hsc hname)
  · rw [pack_constants_cells (pack_constants N), hfold]
    exact keysA_insertA_of_mem (pack_constants N).cells _ _ hMsc hCm
  · rw [pack_constants_nets (pack_constants N), hfold]
    show keysA (insertA (insertA (pack_constants N).nets "$PACKER_GND_NET" packerGnd0)
        "$PACKER_VCC_NET" packerVcc0) = keysA (pack_constants N).nets
    rw [keysA_insertA_of_mem _ _ _ (sortedKeys_insertA _ _ _ hMsn)
        ((mem_keysA_insertA _ _ _ _).mpr (Or.inr hVm))]
    exact keysA_insertA_of_mem _ _ _ hMsn hGm

/-- Witness for the amended C5 at the three-ground-nets netlist. -/
theorem pack_passes_idempotency_witness :
    (∀ e ∈ cpWitnessN.cells, e.2.name = e.1) ∧
    DriverConsistent cpWitnessN ∧
    CPWF cpWitnessN ∧
    lookupA cpWitnessN.cells "$PACKER_CONST" = none ∧
    lookupA cpWitnessN.nets "$PACKER_GND_NET" = none ∧
    lookupA cpWitnessN.nets "$PACKER_VCC_NET" = none ∧
    (pack_io (pack_io cpWitnessN) = pack_io cpWitnessN ∧
     pack_lut_lutffs (pack_lut_lutffs cpWitnessN) = pack_lut_lutffs cpWitnessN ∧
     keysA (pack_constants (pack_constants cpWitnessN)).cells =
       keysA (pack_constants cpWitnessN).cells ∧
     keysA (pack_constants (pack_constants cpWitnessN)).nets =
       keysA (pack_constants cpWitnessN).nets) := by
  have hname : ∀ e ∈ cpWitnessN.cells, e.2.name = e.1 := by decide
  have hdc : DriverConsistent cpWitnessN := driverConsistentB_imp cpWitnessN (by decide)
  have hwf : CPWF cpWitnessN :=
    cpwf_of_B cpWitnessN (by decide) (by decide) (by decide) (by decide) (by decide)
  exact ⟨hname, hdc, hwf, by decide, by decide, by decide,
    pack_passes_idempotency cpWitnessN hname hdc hwf (by decide) (by decide) (by decide)⟩
